import Mathlib

/-!
# rss-reader: the feed pipeline of `internal/feed/feed.go`

A shallow embedding of the streaming record builder (`RawListing.UnmarshalXML`),
the value coercion (`typeConvert`), the rule-based projection
(`RawListing.ParseToJob`), the array emitter (`PushJobIntoFile`) and the
orchestrator (`ParseXML`), followed by theorems about them.

Conventions of the embedding.

* The token source `xml.Decoder` is a finite list of tokens together with the way
  the stream ends (end of file or a decode error).  Both endings are sticky, as
  they are for `decoder.Token()`.
* Go maps are reference values.  Every `map[string]any` the builder allocates is a
  cell of a heap (a list of maps, the address being the index); a map stored as a
  value in another map is a reference to its cell.
* Library functions the source calls but does not define are parameters:
  `strconv.ParseFloat` (`pf`), `json.Marshal` on a `models.Job` (`marshal`), the
  external call `ParseWithChatly` (`chatly`) and the `io.Writer` (`Writer`).
* `log.Printf` and `log.Println` have no effect on the state and are left out;
  `log.Fatalf` ends the process and is the outcome `fatal`.
-/

namespace RssReader

/-! ## Tokens and the decoder -/

/-- The tokens `xml.Decoder.Token` returns.  The builder and the orchestrator read
only `Name.Local` of a start or end element and the bytes of character data;
attributes are never read, and comments, processing instructions and directives
fall through every `switch`. -/
inductive Token where
  | StartElement (name : String)
  | EndElement (name : String)
  | CharData (text : String)
  | Comment
  | ProcInst
  | Directive
  deriving DecidableEq, Repr

/-- The state of an `xml.Decoder`: the tokens it has still to deliver and what
`Token()` reports once they are used up, a decode error (`fails = true`) or
`io.EOF`.  `Token()` returns a nil token only together with an error, so the
branch `t == nil` of line 114 is never taken. -/
structure Decoder where
  toks : List Token
  fails : Bool
  deriving DecidableEq, Repr

/-! ## Values of type `any` and maps -/

/-- A `float64`, given by its IEEE-754 bit pattern. -/
structure Float64 where
  bits : Nat
  deriving DecidableEq, Repr

/-- The dynamic values the builder stores in a `map[string]any`: a string, a
`float64`, or a reference to another map (its heap address). -/
inductive Val where
  | str (s : String)
  | num (f : Float64)
  | ref (addr : Nat)
  deriving DecidableEq, Repr

/-- A `map[string]any`: an association list that holds every key at most once. -/
abbrev GoMap := List (String × Val)

/-- The lookup `m[k]`; `none` is the nil interface Go returns for an absent key. -/
def GoMap.get : GoMap → String → Option Val
  | [], _ => none
  | (k', v) :: m, k => if k' = k then some v else GoMap.get m k

/-- The assignment `m[k] = v`: overwrites the entry of `k` or adds one. -/
def GoMap.set : GoMap → String → Val → GoMap
  | [], k, v => [(k, v)]
  | (k', v') :: m, k, v => if k' = k then (k, v) :: m else (k', v') :: GoMap.set m k v

/-- The keys of a map, in the order of the association list. -/
def GoMap.keys (m : GoMap) : List String := m.map Prod.fst

/-- The heap of maps: cell `a` is the map at address `a`. -/
abbrev Heap := List GoMap

/-- The map at address `a` (the empty map when `a` is no address of the heap). -/
def Heap.cell (h : Heap) (a : Nat) : GoMap := (h.get? a).getD []

/-- The assignment `h[a][k] = v` through the reference `a`. -/
def Heap.assign (h : Heap) (a : Nat) (k : String) (v : Val) : Heap :=
  h.set a ((Heap.cell h a).set k v)

/-- A `RawListing`: its field `root` is the map at address 0 of the heap that
`UnmarshalXML` filled for this record. -/
structure RawListing where
  heap : Heap
  deriving DecidableEq, Repr

/-- The field `x.root`. -/
def RawListing.root (x : RawListing) : GoMap := Heap.cell x.heap 0

/-! ## `strings.TrimSpace` and `typeConvert` -/

/-- The white space of `unicode.IsSpace`: in Latin-1 the characters
`\t \n \v \f \r`, space, U+0085 and U+00A0; beyond it the characters with the
property White_Space. -/
def isSpace (c : Char) : Bool :=
  let n := c.toNat
  (9 ≤ n && n ≤ 13) || n = 32 || n = 0x85 || n = 0xA0 || n = 0x1680 ||
    (0x2000 ≤ n && n ≤ 0x200A) || n = 0x2028 || n = 0x2029 || n = 0x202F ||
    n = 0x205F || n = 0x3000

/-- The function `strings.TrimSpace`: the string without its leading and trailing
white space. -/
def TrimSpace (s : String) : String :=
  String.mk ((s.data.dropWhile isSpace).reverse.dropWhile isSpace).reverse

/-- The function `typeConvert` (feed.go 208-214): the number when
`strconv.ParseFloat(s, 64)` (the parameter `pf`) succeeds, else `s` itself. -/
def typeConvert (pf : String → Option Float64) (s : String) : Val :=
  match pf s with
  | some f => Val.num f
  | none => Val.str s

/-! ## The record builder `RawListing.UnmarshalXML` -/

/-- How a call of `UnmarshalXML` ends. -/
inductive BuildStatus where
  /-- `return nil` at line 195: an end element with the record name was read. -/
  | closed
  /-- `return nil` at line 182: the decoder reported `io.EOF`. -/
  | eof
  /-- `return err` at line 184: the decoder reported a decode error. -/
  | decodeError
  /-- A run-time panic: index out of range on the frame stack `path`. -/
  | panicIndex
  /-- A run-time panic: the type assertion `.(string)` of line 202 failed. -/
  | panicAssert
  deriving DecidableEq, Repr

/-- What a call of `UnmarshalXML` leaves behind: the heap holding the map
`x.root` at address 0, how the call ended, and the tokens left in the decoder. -/
structure BuildResult where
  heap : Heap
  status : BuildStatus
  rest : List Token
  deriving DecidableEq, Repr

/-- The `for` loop of `UnmarshalXML` (feed.go 177-205).  `start` is
`start.Name.Local`; `path` is the frame stack as heap addresses, the top frame
`path[len(path)-1]` first. -/
def UnmarshalXML.loop (pf : String → Option Float64) (start : String) (fails : Bool) :
    List Token → Heap → List Nat → BuildResult
  | [], h, _ => ⟨h, if fails then BuildStatus.decodeError else BuildStatus.eof, []⟩
  | Token.StartElement name :: rest, h, path =>
    match path with
    | [] => ⟨h ++ [[("_", Val.str name)]], BuildStatus.panicIndex, rest⟩
    | top :: _ =>
      let h1 := h ++ [[("_", Val.str name)]]
      UnmarshalXML.loop pf start fails rest
        (Heap.assign h1 top name (Val.ref h.length)) (h.length :: path)
  | Token.EndElement name :: rest, h, path =>
    match path with
    | [] => ⟨h, BuildStatus.panicIndex, rest⟩
    | _ :: below =>
      if name = start then ⟨h, BuildStatus.closed, rest⟩
      else UnmarshalXML.loop pf start fails rest h below
  | Token.CharData text :: rest, h, path =>
    if TrimSpace text = "" then UnmarshalXML.loop pf start fails rest h path
    else
      match path with
      | [] => ⟨h, BuildStatus.panicIndex, rest⟩
      | top :: below =>
        match (Heap.cell h top).get "_" with
        | some (Val.str curName) =>
          match below with
          | [] => ⟨h, BuildStatus.panicIndex, rest⟩
          | parent :: _ =>
            UnmarshalXML.loop pf start fails rest
              (Heap.assign h parent curName (typeConvert pf (TrimSpace text))) path
        | _ => ⟨h, BuildStatus.panicAssert, rest⟩
  | Token.Comment :: rest, h, path => UnmarshalXML.loop pf start fails rest h path
  | Token.ProcInst :: rest, h, path => UnmarshalXML.loop pf start fails rest h path
  | Token.Directive :: rest, h, path => UnmarshalXML.loop pf start fails rest h path

/-- The method `RawListing.UnmarshalXML` (feed.go 174-206), called with the decoder
positioned after the start element `start`: `x.root` is a fresh map holding the
record name under "_", and the frame stack starts as `[x.root]`. -/
def UnmarshalXML (pf : String → Option Float64) (start : String) (d : Decoder) : BuildResult :=
  UnmarshalXML.loop pf start d.fails d.toks [[("_", Val.str start)]] [0]

/-! ## The output record and the rule-based projection `ParseToJob` -/

/-- The struct `models.Job` (models/init.go 3-24), every field with its zero value
as default.  A slice is `none` when nil. -/
@[ext]
structure Job where
  CompanyID : String := ""
  Title : String := ""
  Description : String := ""
  City : String := ""
  CountryCode : String := ""
  SourceJobID : String := ""
  Source : String := ""
  ApplicationURL : String := ""
  Kind : String := ""
  Proximity : String := ""
  WorkVisaRequired : Bool := false
  NativeLanguageIDs : Option (List String) := none
  YearsOfExperienceLower : Int := 0
  YearsOfExperienceUpper : Int := 0
  HoursPerWeek : Int := 0
  Duration : String := ""
  PaidRole : Bool := false
  Motivators : Option (List String) := none
  Competencies : Option (List String) := none
  Categories : Option (List String) := none
  deriving DecidableEq, Repr

/-- The comma-ok type assertion `v.(string)` on the result of a map lookup. -/
def asString : Option Val → Option String
  | some (Val.str s) => some s
  | _ => none

/-- The statement `if s, ok := v.(string); ok { body }` on the job under
construction: `body` runs when the looked-up value `v` is a string. -/
def ifString (v : Option Val) (job : Job) (body : String → Job → Job) : Job :=
  match asString v with
  | some s => body s job
  | none => job

/-- The method `RawListing.ParseToJob` (feed.go 232-272).  The error case returns
the message; the zero `Job` Go returns next to it is dropped by the caller. -/
def RawListing.ParseToJob (x : RawListing) : Except String Job :=
  match asString (x.root.get "title") with
  | none => Except.error "title not found or not a string"
  | some title =>
    let job : Job := { Title := title }
    let job := ifString (x.root.get "description") job fun description job =>
      { job with Description := description }
    let job := ifString (x.root.get "url") job fun applicationURL job =>
      { job with ApplicationURL := applicationURL }
    let job := ifString (x.root.get "id") job fun sourceJobID job =>
      { job with SourceJobID := sourceJobID }
    let job := ifString (x.root.get "city") job fun city job =>
      { job with City := city }
    let job := ifString (x.root.get "country") job fun country job =>
      { job with CountryCode := country }
    let job := ifString (x.root.get "company") job fun company job =>
      { job with CompanyID := company }
    let job := ifString (x.root.get "currency") job fun currency job =>
      { job with Description := job.Description ++ "\nCurrency: " ++ currency }
    let job := ifString (x.root.get "postalcode") job fun postalcode job =>
      { job with Description := job.Description ++ "\nPostal Code: " ++ postalcode }
    let job := ifString (x.root.get "region") job fun region job =>
      { job with Description := job.Description ++ "\nRegion: " ++ region }
    Except.ok job

/-! ## The sink and the emitter `PushJobIntoFile` -/

/-- An `io.Writer`, given by what its calls of `Write` do: call number `n`
(counted from 0) accepts all its bytes when `w n = none`, and returns an error
after accepting the first `k` bytes when `w n = some k`. -/
abbrev Writer := Nat → Option Nat

/-- The writer whose every `Write` succeeds. -/
def Writer.reliable : Writer := fun _ => none

/-- The bytes the sink has accepted, one chunk a call of `Write`, and the number
of calls made. -/
structure Sink where
  chunks : List String
  calls : Nat
  deriving DecidableEq, Repr

/-- All bytes of the sink, in the order they were written. -/
def Sink.bytes (s : Sink) : String := String.join s.chunks

/-- One call `writer.Write(data)`: the sink afterwards, and whether the call
returned no error. -/
def Sink.write (w : Writer) (s : Sink) (data : String) : Sink × Bool :=
  match w s.calls with
  | none => (⟨s.chunks ++ [data], s.calls + 1⟩, true)
  | some k => (⟨s.chunks ++ [String.mk (data.data.take k)], s.calls + 1⟩, false)

/-- The function `PushJobIntoFile` (feed.go 274-292): the sink afterwards and
whether it returned no error.  `marshal` is `json.Marshal` on a `models.Job`; it
returns no error on this type (strings, integers, booleans and string slices
only), so the branch of line 277 is never taken. -/
def PushJobIntoFile (marshal : Job → String) (w : Writer) (job : Job) (s : Sink)
    (count : Nat) : Sink × Bool :=
  let jobJSON := marshal job
  if count > 0 then
    match Sink.write w s ",\n" with
    | (s1, false) => (s1, false)
    | (s1, true) => Sink.write w s1 jobJSON
  else Sink.write w s jobJSON

/-! ## The orchestrator `ParseXML` -/

/-- The two transformations of a record. -/
inductive Strategy where
  /-- The external call `ParseWithChatly`. -/
  | chatly
  /-- The rule-based `ParseToJob`. -/
  | rules
  deriving DecidableEq, Repr

/-- One transformation of a record as the run performed it: which function was
called, on which listing, what it returned, and the value of `count` after it. -/
structure Dispatch where
  strategy : Strategy
  listing : RawListing
  result : Except String Job
  count : Nat

/-- How a run of `ParseXML` ends. -/
inductive Outcome where
  /-- `return nil` at line 171. -/
  | returnedNil
  /-- A `return` of an error (lines 95, 101, 168). -/
  | returnedErr
  /-- The call `log.Fatalf` of line 113, which ends the process. -/
  | fatal
  /-- A run-time panic, in `UnmarshalXML` or at the type assertion of line 161. -/
  | panicked
  /-- The bound on the iterations of the model was reached (never the case for
  the bound `ParseXML` uses, see `ParseXML_terminates`). -/
  | outOfFuel
  deriving DecidableEq, Repr

/-- The variables a run of `ParseXML` updates: the local `count`, the global
`useChatly`, the sink, and the record of the transformations made so far. -/
structure LoopState where
  count : Nat
  useChatly : Bool
  sink : Sink
  trace : List Dispatch

/-- The result of a run: how it ended and the final state. -/
structure Run where
  outcome : Outcome
  state : LoopState

/-- Lines 134-152 of `ParseXML`: the transformation of one record.  In external
mode `count` is incremented, `useChatly` is cleared once `count > 3`, and
`ParseWithChatly` is called; otherwise `ParseToJob` is called.  `chatly n x` is
what `ParseWithChatly` returns for the listing `x` when it is record number `n`
of the run. -/
def ParseXML.dispatch (chatly : Nat → RawListing → Except String Job) (st : LoopState)
    (root : RawListing) : LoopState × Except String Job :=
  if st.useChatly then
    let count := st.count + 1
    let useChatly := if count > 3 then false else st.useChatly
    let r := chatly st.trace.length root
    ({ st with count := count, useChatly := useChatly,
               trace := st.trace ++ [⟨Strategy.chatly, root, r, count⟩] }, r)
  else
    let r := root.ParseToJob
    ({ st with trace := st.trace ++ [⟨Strategy.rules, root, r, st.count⟩] }, r)

/-- The `for` loop of `ParseXML` (feed.go 104-164), with a bound `fuel` on the
number of iterations. -/
def ParseXML.loop (pf : String → Option Float64)
    (chatly : Nat → RawListing → Except String Job) (marshal : Job → String)
    (w : Writer) (fails : Bool) : Nat → List Token → LoopState → Run
  | 0, _, st => ⟨Outcome.outOfFuel, st⟩
  | _ + 1, [], st =>
    if fails then ⟨Outcome.fatal, st⟩
    else
      match Sink.write w st.sink "\n]" with
      | (s1, true) => ⟨Outcome.returnedNil, { st with sink := s1 }⟩
      | (s1, false) => ⟨Outcome.returnedErr, { st with sink := s1 }⟩
  | fuel + 1, Token.StartElement name :: rest, st =>
    if name = "job" then
      let b := UnmarshalXML pf name ⟨rest, fails⟩
      match b.status with
      | BuildStatus.panicIndex => ⟨Outcome.panicked, st⟩
      | BuildStatus.panicAssert => ⟨Outcome.panicked, st⟩
      | _ =>
        let root : RawListing := ⟨b.heap⟩
        match ParseXML.dispatch chatly st root with
        | (st1, Except.error _) => ParseXML.loop pf chatly marshal w fails fuel b.rest st1
        | (st1, Except.ok job) =>
          match PushJobIntoFile marshal w job st1.sink st1.count with
          | (s2, false) =>
            ParseXML.loop pf chatly marshal w fails fuel b.rest { st1 with sink := s2 }
          | (s2, true) =>
            match asString (root.root.get "title") with
            | some _ =>
              ParseXML.loop pf chatly marshal w fails fuel b.rest { st1 with sink := s2 }
            | none => ⟨Outcome.panicked, { st1 with sink := s2 }⟩
    else ParseXML.loop pf chatly marshal w fails fuel rest st
  | fuel + 1, _ :: rest, st => ParseXML.loop pf chatly marshal w fails fuel rest st

/-- The function `ParseXML` (feed.go 89-172).  `writer` is `none` for a nil writer;
`useChatly` is the value of the global when the run starts.  Every iteration of
the loop reads at least one token, so `d.toks.length + 1` iterations are enough. -/
def ParseXML (pf : String → Option Float64)
    (chatly : Nat → RawListing → Except String Job) (marshal : Job → String)
    (d : Decoder) (writer : Option Writer) (useChatly : Bool) : Run :=
  match writer with
  | none => ⟨Outcome.returnedErr, ⟨0, useChatly, ⟨[], 0⟩, []⟩⟩
  | some w =>
    match Sink.write w ⟨[], 0⟩ "[" with
    | (s0, false) => ⟨Outcome.returnedErr, ⟨0, useChatly, s0, []⟩⟩
    | (s0, true) =>
      ParseXML.loop pf chatly marshal w d.fails (d.toks.length + 1) d.toks
        ⟨0, useChatly, s0, []⟩

/-! ## Record bodies used in the statements -/

/-- A leaf element: the tokens of `<t>v</t>`. -/
def leaf (t v : String) : List Token :=
  [Token.StartElement t, Token.CharData v, Token.EndElement t]

/-- The check that a token sequence is well nested against the stack `opened` of
the names of the elements that are open when it begins (innermost first), closes
all of them, names no element "_" or `start`, and has its text that is not blank
inside an open element. -/
def Clean (start : String) : List Token → List String → Bool
  | [], opened => opened.isEmpty
  | Token.StartElement n :: rest, opened =>
    decide (n ≠ "_") && decide (n ≠ start) && Clean start rest (n :: opened)
  | Token.EndElement n :: rest, opened =>
    match opened with
    | [] => false
    | m :: below => decide (n = m) && Clean start rest below
  | Token.CharData text :: rest, opened =>
    (decide (TrimSpace text = "") || !opened.isEmpty) && Clean start rest opened
  | _ :: rest, opened => Clean start rest opened

/-- The tag names of the elements that start at nesting depth 0 of a token
sequence which begins at depth `depth`: for `depth = 0` on a record body, the
tags of the direct children of the record. -/
def childNames : List Token → Nat → List String
  | [], _ => []
  | Token.StartElement n :: rest, depth =>
    if depth = 0 then n :: childNames rest 1 else childNames rest (depth + 1)
  | Token.EndElement _ :: rest, depth => childNames rest (depth - 1)
  | _ :: rest, depth => childNames rest depth

/-- The frame stack `addrs` (innermost first, without the root frame) matches the
open elements `opened`: every frame lies above the root, and its entry "_" is the
name of its element, which is neither "_" nor `start`. -/
def Frames (start : String) (h : Heap) : List Nat → List String → Prop
  | [], [] => True
  | a :: addrs, n :: opened =>
    0 < a ∧ n ≠ "_" ∧ n ≠ start ∧ (Heap.cell h a).get "_" = some (Val.str n) ∧
      Frames start h addrs opened
  | _, _ => False

/-- A float parser that accepts no text.  It agrees with `strconv.ParseFloat` on
every text that holds no digit and spells neither an infinity nor NaN; the worked
examples below use it on such texts only. -/
def noNumber : String → Option Float64 := fun _ => none

/-- The chunks one transformation contributes to the sink when every `Write`
succeeds: nothing when it failed; when it returned a job, the separator if
`count > 0` and then the serialized job. -/
def emitted (marshal : Job → String) (d : Dispatch) : List String :=
  match d.result with
  | Except.error _ => []
  | Except.ok job => (if d.count > 0 then [",\n"] else []) ++ [marshal job]

/-- The chunk written after the loop: the closing bracket when the run returned
nil, nothing when it ended in `log.Fatalf`, a panic. -/
def closing : Outcome → List String
  | Outcome.returnedNil => ["\n]"]
  | _ => []


/-- The listings of the records of a stream, in stream order: the scan of
`ParseXML` (feed.go 104-131) without the transformation and the emission, up to
the first record on which `UnmarshalXML` panics.  `fuel` bounds the number of
tokens scanned. -/
def records (pf : String → Option Float64) (fails : Bool) :
    Nat → List Token → List RawListing
  | 0, _ => []
  | _ + 1, [] => []
  | fuel + 1, Token.StartElement name :: rest =>
    if name = "job" then
      match (UnmarshalXML pf name ⟨rest, fails⟩).status with
      | BuildStatus.panicIndex => []
      | BuildStatus.panicAssert => []
      | _ =>
        ⟨(UnmarshalXML pf name ⟨rest, fails⟩).heap⟩ ::
          records pf fails fuel (UnmarshalXML pf name ⟨rest, fails⟩).rest
    else records pf fails fuel rest
  | fuel + 1, _ :: rest => records pf fails fuel rest

/-- The check that `UnmarshalXML` panics on no record of a stream: the scan of
`records`, with `false` at a record on which the builder panics. -/
def builds (pf : String → Option Float64) (fails : Bool) : Nat → List Token → Bool
  | 0, _ => true
  | _ + 1, [] => true
  | fuel + 1, Token.StartElement name :: rest =>
    if name = "job" then
      match (UnmarshalXML pf name ⟨rest, fails⟩).status with
      | BuildStatus.panicIndex => false
      | BuildStatus.panicAssert => false
      | _ => builds pf fails fuel (UnmarshalXML pf name ⟨rest, fails⟩).rest
    else builds pf fails fuel rest
  | fuel + 1, _ :: rest => builds pf fails fuel rest

/-- The stand-in for `ParseWithChatly` in the run of three records: the first call
fails, every later call returns `job`. -/
def failsOnce (job : Job) : Nat → RawListing → Except String Job :=
  fun n _ => if n = 0 then Except.error "unexpected status code" else Except.ok job

/-- One appended line of the description: `label` followed by the value when the
key holds a string, nothing otherwise. -/
def descriptionLine (label : String) : Option String → String
  | some s => label ++ s
  | none => ""

/-- The tokens of an empty record `<job></job>`. -/
def emptyJob : List Token := [Token.StartElement "job", Token.EndElement "job"]

/-- The tokens of the record `<job><title>v</title></job>`. -/
def titledJob (v : String) : List Token :=
  Token.StartElement "job" :: leaf "title" v ++ [Token.EndElement "job"]

/-- A listing with a title, a description, a currency, a numeric postal code and
no region. -/
def sampleListing : RawListing :=
  ⟨[[("_", Val.str "job"), ("title", Val.str "Cook"), ("description", Val.str "Fry"),
    ("currency", Val.str "EUR"), ("postalcode", Val.num ⟨0⟩)]]⟩

/-- The job `ParseToJob` returns for `sampleListing`. -/
def sampleJob : Job := { Title := "Cook", Description := "Fry\nCurrency: EUR" }

/-- The tokens of a feed that has a header element and no record. -/
def headerOnly : List Token :=
  [Token.ProcInst, Token.StartElement "source", Token.CharData "\n",
    Token.StartElement "publisher", Token.CharData "Cook", Token.EndElement "publisher",
    Token.EndElement "source"]

/-- The tokens of `<note><_>title</_>Baker</note>`: the text of the child named
"_" replaces the entry "_" of the frame of `note`, so the text `Baker` that follows
is stored in the parent under "title". -/
def overwritingNote : List Token :=
  [Token.StartElement "note", Token.StartElement "_", Token.CharData "title",
    Token.EndElement "_", Token.CharData "Baker", Token.EndElement "note"]

/-! ## The fence stripping of `ParseWithChatly` -/

/-- The function `strings.TrimPrefix`: `s` without the leading `p` when `s` starts
with `p`, else `s`. -/
def TrimPrefix (s p : String) : String :=
  if p.data.isPrefixOf s.data then String.mk (s.data.drop p.data.length) else s

/-- The function `strings.TrimSuffix`: `s` without the trailing `p` when `s` ends
with `p`, else `s`. -/
def TrimSuffix (s p : String) : String :=
  if p.data.isSuffixOf s.data then String.mk (s.data.take (s.data.length - p.data.length))
  else s

/-- Lines 88-89 of `ParseWithChatly` (chatly.go): the value `clean` computed from
`response.Data`. -/
def stripFence (data : String) : String :=
  TrimSuffix ( TrimPrefix data "```json\n") "\n```"

/-! ## The library function `strconv.ParseFloat` -/

/-- The test `'a' <= lower(c) && lower(c) <= 'f'` of strconv, where `lower(c)` is
`c | 0x20`: a letter among the hexadecimal digits. -/
def isHexLetter (c : Char) : Bool :=
  (97 ≤ c.toNat && c.toNat ≤ 102) || (65 ≤ c.toNat && c.toNat ≤ 70)

/-- The function `commonPrefixLenIgnoreCase` of strconv: the length of the longest
common beginning of `s`, its letters `A` to `Z` lowered, and `p`. -/
def commonPrefixLenIgnoreCase : List Char → List Char → Nat
  | c :: s, p :: ps =>
    if (if 65 ≤ c.toNat ∧ c.toNat ≤ 90 then c.toNat + 32 else c.toNat) = p.toNat then
      commonPrefixLenIgnoreCase s ps + 1
    else 0
  | _, _ => 0

/-- The case `'i', 'I'` of `special`, which the signed case falls through to: the
infinity, when `s` begins with `inf` or with `infinity`, and the number of
characters read, `nsign` for the sign included. -/
def special.inf (neg : Bool) (s : List Char) (nsign : Nat) : Option (Float64 × Nat) :=
  let n := commonPrefixLenIgnoreCase s "infinity".data
  let n := if 3 < n ∧ n < 8 then 3 else n
  if n = 3 ∨ n = 8 then
    some (⟨if neg then 0xFFF0000000000000 else 0x7FF0000000000000⟩, nsign + n)
  else none

/-- The function `special` of strconv: the value of a beginning of `s` that spells
an infinity (signed or not) or NaN, whatever the case of the letters, and the
number of characters read. -/
def special (s : List Char) : Option (Float64 × Nat) :=
  match s with
  | [] => none
  | c :: rest =>
    if c = '+' then special.inf false rest 1
    else if c = '-' then special.inf true rest 1
    else if c = 'i' ∨ c = 'I' then special.inf false s 0
    else if c = 'n' ∨ c = 'N' then
      if commonPrefixLenIgnoreCase s "nan".data = 3 then some (⟨0x7FF8000000000001⟩, 3)
      else none
    else none

/-- The function `underscoreOK` of strconv after the sign and the base prefix: the
underscores of `s` stand each between two digits, or between the base prefix and a
digit.  `saw` is the last character seen: `'0'` for a digit or the base prefix, `'_'`
for an underscore, `'!'` for another character, `'^'` at the beginning. -/
def underscoreOK.scan (hex : Bool) : List Char → Char → Bool
  | [], saw => saw != '_'
  | c :: rest, saw =>
    if c.isDigit || (hex && isHexLetter c) then underscoreOK.scan hex rest '0'
    else if c = '_' then
      if saw != '0' then false else underscoreOK.scan hex rest '_'
    else if saw = '_' then false
    else underscoreOK.scan hex rest '!'

/-- The function `underscoreOK` of strconv. -/
def underscoreOK (s : List Char) : Bool :=
  let s1 := match s with
    | '-' :: r => r
    | '+' :: r => r
    | cs => cs
  match s1 with
  | '0' :: x :: r =>
    if x = 'b' ∨ x = 'B' ∨ x = 'o' ∨ x = 'O' ∨ x = 'x' ∨ x = 'X' then
      underscoreOK.scan (x = 'x' ∨ x = 'X') r '0'
    else underscoreOK.scan false s1 '^'
  | _ => underscoreOK.scan false s1 '^'

/-- The variables of the mantissa loop of `readFloat`. -/
structure Mantissa where
  sawdot : Bool := false
  sawdigits : Bool := false
  underscores : Bool := false
  nd : Nat := 0
  dp : Int := 0
  mantissa : Nat := 0
  deriving DecidableEq, Repr

/-- The mantissa loop of `readFloat`: the state when the loop stops and the
characters from there on.  The library keeps the first 19 digits (16 in base 16)
and a flag for nonzero digits beyond, from which it still rounds correctly; here
`mantissa` holds every digit. -/
def readFloat.digits (hex : Bool) : List Char → Mantissa → Mantissa × List Char
  | [], st => (st, [])
  | c :: rest, st =>
    if c = '_' then readFloat.digits hex rest { st with underscores := true }
    else if c = '.' then
      if st.sawdot then (st, c :: rest)
      else readFloat.digits hex rest { st with sawdot := true, dp := st.nd }
    else if c.isDigit then
      if c = '0' ∧ st.nd = 0 then
        readFloat.digits hex rest { st with sawdigits := true, dp := st.dp - 1 }
      else
        readFloat.digits hex rest
          { st with sawdigits := true, nd := st.nd + 1,
                    mantissa := st.mantissa * (if hex then 16 else 10) + (c.toNat - 48) }
    else if hex ∧ isHexLetter c then
      readFloat.digits hex rest
        { st with sawdigits := true, nd := st.nd + 1,
                  mantissa := st.mantissa * 16 + (if 97 ≤ c.toNat then c.toNat - 87
                    else c.toNat - 55) }
    else (st, c :: rest)

/-- The loop over the digits of the exponent in `readFloat`: the exponent, which
stops growing at 10000, whether an underscore was seen, and the characters left. -/
def readFloat.expDigits : List Char → Nat → Bool → Nat × Bool × List Char
  | [], e, u => (e, u, [])
  | c :: rest, e, u =>
    if c = '_' then readFloat.expDigits rest e true
    else if c.isDigit then
      readFloat.expDigits rest (if e < 10000 then e * 10 + (c.toNat - 48) else e) u
    else (e, u, c :: rest)

/-- What `readFloat` returns when `ok`: the sign, whether the number is hexadecimal,
the mantissa and the exponent (of 2 when hexadecimal, else of 10), and the
characters it has not read. -/
structure Parsed where
  neg : Bool
  hex : Bool
  mantissa : Nat
  exp : Int
  rest : List Char
  deriving DecidableEq, Repr

/-- The optional exponent of `readFloat`, read at the character where the mantissa
loop stopped: `none` when `readFloat` returns `ok = false` (an exponent without
digits, or none in a hexadecimal number), else the signed exponent, whether an
underscore was seen, and the characters left. -/
def readFloat.exponent (hex underscores : Bool) (cs : List Char) :
    Option (Int × Bool × List Char) :=
  match cs with
  | [] => if hex then none else some (0, underscores, [])
  | c :: r =>
    if (if hex then c = 'p' ∨ c = 'P' else c = 'e' ∨ c = 'E') then
      match r with
      | [] => none
      | d :: r1 =>
        let esign : Int := if d = '-' then -1 else 1
        let r2 := if d = '+' ∨ d = '-' then r1 else d :: r1
        match r2 with
        | [] => none
        | d2 :: _ =>
          if d2.isDigit then
            let e := readFloat.expDigits r2 0 underscores
            some ((e.1 : Int) * esign, e.2.1, e.2.2)
          else none
    else if hex then none
    else some (0, underscores, c :: r)

/-- The test of `readFloat` for a hexadecimal number: after the sign, `0x` or `0X`
and a character more. -/
def readFloat.isHex : List Char → Bool
  | '0' :: x :: _ :: _ => x = 'x' ∨ x = 'X'
  | _ => false

/-- The function `readFloat` of strconv from the mantissa on: `s1` is `s` without
its sign. -/
def readFloat.unsigned (s : List Char) (neg : Bool) (s1 : List Char) : Option Parsed :=
  let hex := readFloat.isHex s1
  let scanned := readFloat.digits hex (if hex then s1.drop 2 else s1) {}
  let m := scanned.1
  if m.sawdigits = false then none
  else
    match readFloat.exponent hex m.underscores scanned.2 with
    | none => none
    | some (e, underscores, rest) =>
      if underscores ∧ underscoreOK (s.take (s.length - rest.length)) = false then none
      else
        let dp : Int := if m.sawdot then m.dp else m.nd
        some ⟨neg, hex, m.mantissa,
          if m.mantissa = 0 then 0
          else if hex then dp * 4 + e - m.nd * 4 else dp + e - m.nd, rest⟩

/-- The function `readFloat` of strconv: `none` when it returns `ok = false`. -/
def readFloat (s : List Char) : Option Parsed :=
  match s with
  | [] => none
  | c :: r =>
    if c = '+' then readFloat.unsigned s false r
    else if c = '-' then readFloat.unsigned s true r
    else readFloat.unsigned s false s

/-- The comparison `2 ^ k / 2 ^ 1075 ≤ num / den` in natural numbers. -/
def atLeastPow2 (num den k : Nat) : Bool :=
  decide (den <<< (k - 1075) ≤ num <<< (1075 - k))

/-- The largest `k` below 4096 with `2 ^ k / 2 ^ 1075 ≤ num / den`, found bit by
bit, or 0 when there is none. -/
def binaryExponent (num den : Nat) : Nat :=
  [2048, 1024, 512, 256, 128, 64, 32, 16, 8, 4, 2, 1].foldl
    (fun k b => if atLeastPow2 num den (k + b) then k + b else k) 0

/-- The bit pattern of the `float64` nearest to `num / den` (`den` positive), ties
going to the even mantissa (IEEE 754 unbiased rounding); a result of
`0x7FF0000000000000` or more says that the number is beyond the largest `float64`.
`ef` is the exponent field of the result before rounding, 1 for the subnormal
numbers too, and `n / d` is the number in units of `2 ^ (ef - 1075)`. -/
def nearestBits (num den : Nat) : Nat :=
  let ef := max (binaryExponent num den - 52) 1
  let n := num <<< (1075 - ef)
  let d := den <<< (ef - 1075)
  let q := n / d
  let r := n % d
  let m := if d < 2 * r ∨ (2 * r = d ∧ q % 2 = 1) then q + 1 else q
  if m < 2 ^ 52 then m else ef * 2 ^ 52 + (m - 2 ^ 52)

/-- The magnitude bits of the number `readFloat` returned. -/
def Parsed.bits (p : Parsed) : Nat :=
  let b : Nat := if p.hex then 2 else 10
  if 0 ≤ p.exp then nearestBits (p.mantissa * b ^ p.exp.toNat) 1
  else nearestBits p.mantissa (b ^ (-p.exp).toNat)

/-- The number `readFloat` returned as a `float64`: `none` is the error `ErrRange`
of a number beyond the largest `float64`. -/
def Parsed.float (p : Parsed) : Option Float64 :=
  if 0x7FF0000000000000 ≤ p.bits then none
  else some ⟨p.bits + (if p.neg then 2 ^ 63 else 0)⟩

/-- The function `strconv.ParseFloat(s, 64)` of the Go standard library, which
`typeConvert` calls and which is not part of the repository.  The model follows the
documentation of the library and the structure of its implementation: `special`
for the infinities and NaN, `readFloat` for the decimal and hexadecimal numbers of
the Go syntax, then the conversion to the nearest `float64` with IEEE 754 unbiased
rounding.  The result is `some f` when the library returns `f` and a nil error,
and `none` when it returns an error: `ErrSyntax`, also when characters are left
over, or `ErrRange` for a number beyond the largest `float64`. -/
def ParseFloat (s : String) : Option Float64 :=
  match special s.data with
  | some (f, n) => if n = s.data.length then some f else none
  | none =>
    match readFloat s.data with
    | none => none
    | some p => if p.rest.isEmpty then p.float else none

/-! ## Number literals in the words of the coercion contract -/

/-- The text without its sign, when it begins with one. -/
def unsign : List Char → List Char
  | '+' :: r => r
  | '-' :: r => r
  | cs => cs

/-- The characters after the point, when the text begins with one. -/
def afterPoint : List Char → Option (List Char)
  | '.' :: r => some r
  | _ => none

/-- The end of a base-10 literal: nothing, or an exponent (`e` or `E`, an optional
sign and digits up to the end). -/
def exponentTail : List Char → Bool
  | [] => true
  | c :: r =>
    (c = 'e' ∨ c = 'E') && !((unsign r).takeWhile Char.isDigit).isEmpty &&
      ((unsign r).dropWhile Char.isDigit).isEmpty

/-- A base-10 floating-point literal as the contract of the coercion words it: an
optional sign, decimal digits, an optional fraction (a point and digits) and an
optional exponent (`e` or `E`, an optional sign and digits). -/
def isDecimalLiteral (s : String) : Bool :=
  !((unsign s.data).takeWhile Char.isDigit).isEmpty &&
    match afterPoint ((unsign s.data).dropWhile Char.isDigit) with
    | some r => !(r.takeWhile Char.isDigit).isEmpty && exponentTail (r.dropWhile Char.isDigit)
    | none => exponentTail ((unsign s.data).dropWhile Char.isDigit)

/-- The text begins, after its sign, with `0x` or `0X`. -/
def beginsHex (s : String) : Bool :=
  match unsign s.data with
  | '0' :: x :: _ => x = 'x' ∨ x = 'X'
  | _ => false

/-- The digits of the text, after its sign, are followed by a point that has no
digit before it or none after it, as in `.5` and `5.`. -/
def hasBarePoint (s : String) : Bool :=
  match afterPoint ((unsign s.data).dropWhile Char.isDigit) with
  | some r =>
    ((unsign s.data).takeWhile Char.isDigit).isEmpty || (r.takeWhile Char.isDigit).isEmpty
  | none => false

/-- The base-10 texts without underscore that `readFloat` reads to their end:
digits with an optional point before, among or after them, at least one digit, and
an optional exponent. -/
def readsDecimal (u : List Char) : Bool :=
  match afterPoint (u.dropWhile Char.isDigit) with
  | some r =>
    (!(u.takeWhile Char.isDigit).isEmpty || !(r.takeWhile Char.isDigit).isEmpty) &&
      exponentTail (r.dropWhile Char.isDigit)
  | none => !(u.takeWhile Char.isDigit).isEmpty && exponentTail (u.dropWhile Char.isDigit)

/-- The number a text of decimal digits writes. -/
def decimalValue (ds : List Char) : Nat :=
  ds.foldl (fun n c => n * 10 + (c.toNat - 48)) 0

/-- The natural number a `float64` is, when it is one: zero, or a positive normal
number whose mantissa `2 ^ 52 + fraction`, scaled by `2 ^ (exponent field - 1075)`,
has no fractional part. -/
def Float64.toNat? (f : Float64) : Option Nat :=
  let ef := f.bits / 2 ^ 52 % 2048
  let m := 2 ^ 52 + f.bits % 2 ^ 52
  if f.bits = 0 then some 0
  else if 2 ^ 63 ≤ f.bits ∨ ef = 0 ∨ ef = 2047 then none
  else if 1075 ≤ ef then some (m * 2 ^ (ef - 1075))
  else if m % 2 ^ (1075 - ef) = 0 then some (m / 2 ^ (1075 - ef))
  else none

/-- The digits of the mantissa of a base-10 literal without its sign: the digits
before the point and those after it. -/
def mantissaDigits (u : List Char) : List Char :=
  u.takeWhile Char.isDigit ++
    match afterPoint (u.dropWhile Char.isDigit) with
    | some r => r.takeWhile Char.isDigit
    | none => []

/-- The number of digits after the point of a base-10 literal without its sign. -/
def fractionLength (u : List Char) : Nat :=
  match afterPoint (u.dropWhile Char.isDigit) with
  | some r => (r.takeWhile Char.isDigit).length
  | none => 0

/-- The characters of a base-10 literal without its sign that follow its
mantissa: its exponent, if it has one. -/
def exponentPart (u : List Char) : List Char :=
  match afterPoint (u.dropWhile Char.isDigit) with
  | some r => r.dropWhile Char.isDigit
  | none => u.dropWhile Char.isDigit

/-- The digits of an exponent `e`, sign, digits. -/
def exponentDigits : List Char → List Char
  | [] => []
  | _ :: r => (unsign r).takeWhile Char.isDigit

/-- The number an exponent `e`, sign, digits writes; 0 when there is no exponent. -/
def exponentValue (cs : List Char) : Int :=
  (if cs.tail.head? = some '-' then -1 else 1) * (decimalValue (exponentDigits cs) : Int)

/-- The number a base-10 literal writes, as a mantissa and an exponent of 10: the
number is `literalMantissa s * 10 ^ literalExponent s`, with the sign of the
literal. -/
def literalMantissa (s : String) : Nat := decimalValue (mantissaDigits (unsign s.data))

/-- The exponent of 10 that goes with `literalMantissa`: the written exponent less
the number of digits after the point. -/
def literalExponent (s : String) : Int :=
  exponentValue (exponentPart (unsign s.data)) - fractionLength (unsign s.data)

/-- The `float64` nearest to the number a base-10 literal writes, `none` when that
number is beyond the largest `float64`. -/
def literalFloat (s : String) : Option Float64 :=
  let bits :=
    if 0 ≤ literalExponent s then
      nearestBits (literalMantissa s * 10 ^ (literalExponent s).toNat) 1
    else nearestBits (literalMantissa s) (10 ^ (-literalExponent s).toNat)
  if 0x7FF0000000000000 ≤ bits then none
  else some ⟨bits + (if s.data.head? = some '-' then 2 ^ 63 else 0)⟩

/-- A float parser for the worked examples with numbers.  It agrees with
`strconv.ParseFloat(s, 64)` on the texts it accepts (`Inf` is the positive
infinity, `42` and `00123` are the numbers 42 and 123, given by their bit
patterns), on `1e999` (out of the range of a `float64`: an error) and on every
text that holds no digit and spells neither an infinity nor NaN; the examples use
it on such texts only. -/
def sampleFloat : String → Option Float64
  | "Inf" => some ⟨0x7FF0000000000000⟩
  | "42" => some ⟨0x4045000000000000⟩
  | "00123" => some ⟨0x405EC00000000000⟩
  | _ => none

/-- A listing with a title, a link, a numeric identifier, a city and a country, and
no company. -/
def cityListing : RawListing :=
  ⟨[[("_", Val.str "job"), ("title", Val.str "Cook"), ("url", Val.str "example.org/1"),
    ("id", Val.num ⟨0x405EC00000000000⟩), ("city", Val.str "Oslo"),
    ("country", Val.str "NO")]]⟩

/-- The job `ParseToJob` returns for `cityListing`. -/
def cityJob : Job :=
  { Title := "Cook", ApplicationURL := "example.org/1", City := "Oslo", CountryCode := "NO" }

/-- The check that a token sequence holds no element: only text that is blank,
comments, processing instructions and directives. -/
def Blank : List Token → Bool
  | [] => true
  | Token.StartElement _ :: _ => false
  | Token.EndElement _ :: _ => false
  | Token.CharData text :: rest => decide (TrimSpace text = "") && Blank rest
  | _ :: rest => Blank rest

/-- The map without the key `k`. -/
def GoMap.erase (m : GoMap) (k : String) : GoMap := m.filter fun e => decide (e.1 ≠ k)

/-- The listing whose root map has lost the key `k`: the same record with the
tag `k` absent. -/
def RawListing.without (x : RawListing) (k : String) : RawListing :=
  ⟨x.heap.set 0 (x.root.erase k)⟩

/-- The record `<job><title>Cook</title><id>00123</id><description>42</description>
<currency>EUR</currency></job>` as `UnmarshalXML` builds it with `sampleFloat`. -/
def numericListing : RawListing :=
  ⟨(UnmarshalXML sampleFloat "job"
    ⟨leaf "title" "Cook" ++ leaf "id" "00123" ++ leaf "description" "42" ++
      leaf "currency" "EUR" ++ [Token.EndElement "job"], false⟩).heap⟩

/-! ## The method `RawListing.Trim` -/

/-- An element of a `[]any` as `Trim` reads it: a string, given by its bytes, or a
value of any other dynamic type.  `Trim` measures and cuts strings in bytes, and a
cut may fall inside a character, so its strings are byte sequences. -/
inductive AnyElem (α : Type) where
  | str (s : List UInt8)
  | other (v : α)
  deriving DecidableEq, Repr

/-- A value of a `map[string]any` as `Trim` reads it: a string, a `[]any`, or a
value of any other dynamic type (a number, a map, a slice of another type). -/
inductive AnyVal (α : Type) where
  | str (s : List UInt8)
  | list (items : List (AnyElem α))
  | other (v : α)
  deriving DecidableEq, Repr

/-- The root map of a listing as `Trim` reads it: an association list that holds
every key at most once. -/
abbrev AnyMap (α : Type) := List (String × AnyVal α)

/-- The lookup `m[k]`. -/
def AnyMap.get {α : Type} : AnyMap α → String → Option (AnyVal α)
  | [], _ => none
  | (k', v) :: m, k => if k' = k then some v else AnyMap.get m k

/-- The assignment `m[k] = v`. -/
def AnyMap.set {α : Type} : AnyMap α → String → AnyVal α → AnyMap α
  | [], k, v => [(k, v)]
  | (k', v') :: m, k, v => if k' = k then (k, v) :: m else (k', v') :: AnyMap.set m k v

/-- Lines 222-226 of `Trim`: the loop over a `[]any`, which replaces in place
every string element longer than 1000 bytes by its first 1000 bytes. -/
def Trim.items {α : Type} (arr : List (AnyElem α)) : List (AnyElem α) :=
  arr.map fun val =>
    match val with
    | AnyElem.str str => if str.length > 1000 then AnyElem.str (str.take 1000) else val
    | AnyElem.other _ => val

/-- Lines 219-228 of `Trim`: the body of the loop for the key `k` with the value
`v`, acting on the map. -/
def Trim.step {α : Type} (root : AnyMap α) (k : String) (v : AnyVal α) : AnyMap α :=
  match v with
  | AnyVal.str str => if str.length > 1000 then root.set k (AnyVal.str (str.take 1000)) else root
  | AnyVal.list arr => root.set k (AnyVal.list (Trim.items arr))
  | AnyVal.other _ => root

/-- The method `RawListing.Trim` (feed.go 217-230) on the root map: the loop
`for k, v := range x.root`, the entries taken in the order of the association
list (Go leaves the order open; every order is the order of some list). -/
def Trim {α : Type} (root : AnyMap α) : AnyMap α :=
  root.foldl (fun m e => Trim.step m e.1 e.2) root

/-- The value `Trim` leaves under a key whose value was `v`. -/
def Trim.value {α : Type} : AnyVal α → AnyVal α
  | AnyVal.str str => AnyVal.str (if str.length > 1000 then str.take 1000 else str)
  | AnyVal.list arr => AnyVal.list (Trim.items arr)
  | AnyVal.other o => AnyVal.other o

/-- What `Trim` may do to a string: `s'` is `s` cut to at most 1000 bytes, and is
`s` itself when `s` has at most 1000 bytes. -/
def Cut (s s' : List UInt8) : Prop :=
  s'.length ≤ 1000 ∧ s' <+: s ∧ (s.length ≤ 1000 → s' = s)

/-- What `Trim` may do to an element of a list: cut a string, keep anything else. -/
def CutElem {α : Type} : AnyElem α → AnyElem α → Prop
  | AnyElem.str s, AnyElem.str s' => Cut s s'
  | AnyElem.other v, AnyElem.other v' => v = v'
  | _, _ => False

/-- A root map with a string of 1001 bytes, a short string, a list with a long
string and another value, and a number. -/
def longListing : AnyMap Nat :=
  [("description", AnyVal.str (List.replicate 1001 97)), ("title", AnyVal.str [67, 111]),
    ("tags", AnyVal.list [AnyElem.str (List.replicate 1001 98), AnyElem.other 7]),
    ("id", AnyVal.other 123)]

/-! ## The supported input shape -/

/-- The check of the supported input shape on the tokens that follow a record
start, against the stack `opened` of the names of the open elements inside the
record (innermost first) and two flags of the innermost open element: `text`, it
has had text that is not blank, and `child`, it has had a child element.  The
tokens are well nested, the record has no text that is not blank directly inside
it, and no element has both such text and a child element.  The check ends at the
end tag of the record; the stream may also stop before it. -/
def Supported (start : String) : List Token → List String → Bool → Bool → Bool
  | [], _, _, _ => true
  | Token.StartElement n :: rest, opened, text, _ =>
    !text && Supported start rest (n :: opened) false false
  | Token.EndElement n :: rest, opened, _, _ =>
    match opened with
    | [] => decide (n = start)
    | m :: below => decide (n = m) && Supported start rest below false true
  | Token.CharData s :: rest, opened, text, child =>
    if TrimSpace s = "" then Supported start rest opened text child
    else !opened.isEmpty && !child && Supported start rest opened true child
  | _ :: rest, opened, text, child => Supported start rest opened text child

/-- The state of the builder fits the open elements: the frame stack `path` (top
first) has one frame for every open element and the root frame, its addresses
decrease from the top and lie in the heap, and while the innermost open element
has no child its frame holds its name under "_". -/
def Safe (h : Heap) (path : List Nat) (opened : List String) (child : Bool) : Prop :=
  path.length = opened.length + 1 ∧ path.Pairwise (fun a b => b < a) ∧
  (∀ a ∈ path, a < h.length) ∧
  (child = false → ∀ n ∈ opened.head?, ∀ a ∈ path.head?,
    (Heap.cell h a).get "_" = some (Val.str n))

/-- The tokens after the start of a record in a plain feed: blank text between the
elements, leaves, a nested element, an element named "_" and a nested element
named like the record. -/
def plainRecord : List Token :=
  [Token.CharData "\n  "] ++ leaf "title" "Cook" ++ [Token.CharData "\n  ",
    Token.StartElement "location"] ++ leaf "city" "Oslo" ++ leaf "_" "x" ++
    [Token.EndElement "location", Token.Comment, Token.StartElement "related"] ++
    leaf "job" "Chef" ++ [Token.EndElement "related", Token.EndElement "job"]

/-! ## Mixed content -/

/-- The last text that is not blank directly inside an element, read from the
tokens that follow its start tag; `depth` counts the child elements that are open
(0 directly inside the element).  The scan ends at the end tag of the element. -/
def lastText : List Token → Nat → Option String
  | [], _ => none
  | Token.StartElement _ :: rest, depth => lastText rest (depth + 1)
  | Token.EndElement _ :: rest, depth => if depth = 0 then none else lastText rest (depth - 1)
  | Token.CharData s :: rest, depth =>
    match lastText rest depth with
    | some v => some v
    | none => if depth = 0 ∧ TrimSpace s ≠ "" then some s else none
  | _ :: rest, depth => lastText rest depth

/-- The content of `<title>Cook<b>x</b>Chef<i/></title>` after the start tag: text
before and after a child element. -/
def mixedTitle : List Token :=
  [Token.CharData "Cook"] ++ leaf "b" "x" ++
    [Token.CharData "Chef", Token.StartElement "i", Token.EndElement "i"]

/-- The tokens of `<title><b><_>_</_>zzz</b>Cook</title>`: the grandchild named "_"
stores "_" under "_" in the frame of `b`, so the text `zzz` of `b` replaces the
entry "_" of the frame of `title`, and the text `Cook` is stored in the root map
under "zzz". -/
def renamedTitle : List Token :=
  [Token.StartElement "title", Token.StartElement "b"] ++ leaf "_" "_" ++
    [Token.CharData "zzz", Token.EndElement "b", Token.CharData "Cook",
      Token.EndElement "title"]

/-! ## Maps and heaps -/

theorem GoMap.get_set_self (m : GoMap) (k : String) (v : Val) : (m.set k v).get k = some v := by
  induction m with
  | nil => simp [GoMap.set, GoMap.get]
  | cons e m ih =>
    obtain ⟨k', v'⟩ := e
    by_cases hk : k' = k
    · simp [GoMap.set, GoMap.get, hk]
    · simp [GoMap.set, GoMap.get, hk, ih]

theorem GoMap.get_set_of_ne (m : GoMap) {k k' : String} (v : Val) (hne : k' ≠ k) :
    (m.set k v).get k' = m.get k' := by
  induction m with
  | nil => simp [GoMap.set, GoMap.get, Ne.symm hne]
  | cons e m ih =>
    obtain ⟨k₀, v₀⟩ := e
    by_cases hk : k₀ = k
    · subst hk
      simp [GoMap.set, GoMap.get, Ne.symm hne]
    · by_cases hk' : k₀ = k'
      · subst hk'
        simp [GoMap.set, GoMap.get, hk]
      · simp [GoMap.set, GoMap.get, hk, hk', ih]

theorem Heap.cell_append_of_lt (h l : Heap) {a : Nat} (ha : a < h.length) :
    Heap.cell (h ++ l) a = Heap.cell h a := by
  simp [Heap.cell, List.getElem?_append_left ha]

theorem Heap.cell_append_length (h : Heap) (m : GoMap) :
    Heap.cell (h ++ [m]) h.length = m := by
  simp [Heap.cell]

theorem Heap.length_assign (h : Heap) (a : Nat) (k : String) (v : Val) :
    (Heap.assign h a k v).length = h.length := by
  simp [Heap.assign]

theorem Heap.cell_assign_self (h : Heap) {a : Nat} (k : String) (v : Val) (ha : a < h.length) :
    Heap.cell (Heap.assign h a k v) a = (Heap.cell h a).set k v := by
  simp [Heap.assign, Heap.cell, ha]

theorem Heap.cell_assign_of_ne (h : Heap) {a b : Nat} (k : String) (v : Val) (hne : b ≠ a) :
    Heap.cell (Heap.assign h a k v) b = Heap.cell h b := by
  simp [Heap.assign, Heap.cell, List.getElem?_set_ne (Ne.symm hne)]

theorem Heap.lt_length_of_get {h : Heap} {a : Nat} {k : String} {v : Val}
    (hget : (Heap.cell h a).get k = some v) : a < h.length := by
  by_contra hlt
  have hnone : h[a]? = none := List.getElem?_eq_none (by omega)
  simp [Heap.cell, hnone, GoMap.get] at hget

/-! ## The builder on clean record bodies -/

theorem Frames.lt_length {start : String} {h : Heap} :
    ∀ {addrs : List Nat} {opened : List String}, Frames start h addrs opened →
      ∀ a ∈ addrs, a < h.length
  | [], [], _, a, ha => by simp at ha
  | [], _ :: _, hf, _, _ => by simp [Frames] at hf
  | _ :: _, [], hf, _, _ => by simp [Frames] at hf
  | b :: addrs, n :: opened, hf, a, ha => by
    simp only [Frames] at hf
    rcases List.mem_cons.1 ha with rfl | ha
    · exact Heap.lt_length_of_get hf.2.2.2.1
    · exact Frames.lt_length hf.2.2.2.2 a ha

theorem Frames.heap_append {start : String} {h : Heap} (l : Heap) :
    ∀ {addrs : List Nat} {opened : List String}, Frames start h addrs opened →
      Frames start (h ++ l) addrs opened
  | [], [], _ => by simp [Frames]
  | [], _ :: _, hf => by simp [Frames] at hf
  | _ :: _, [], hf => by simp [Frames] at hf
  | b :: addrs, n :: opened, hf => by
    simp only [Frames] at hf ⊢
    refine ⟨hf.1, hf.2.1, hf.2.2.1, ?_, Frames.heap_append l hf.2.2.2.2⟩
    rw [Heap.cell_append_of_lt h l (Heap.lt_length_of_get hf.2.2.2.1)]
    exact hf.2.2.2.1

theorem Frames.assign {start : String} {h : Heap} (a : Nat) {k : String} (v : Val)
    (hk : k ≠ "_") :
    ∀ {addrs : List Nat} {opened : List String}, Frames start h addrs opened →
      Frames start (Heap.assign h a k v) addrs opened
  | [], [], _ => by simp [Frames]
  | [], _ :: _, hf => by simp [Frames] at hf
  | _ :: _, [], hf => by simp [Frames] at hf
  | b :: addrs, n :: opened, hf => by
    simp only [Frames] at hf ⊢
    refine ⟨hf.1, hf.2.1, hf.2.2.1, ?_, Frames.assign a v hk hf.2.2.2.2⟩
    by_cases hba : b = a
    · subst hba
      rw [Heap.cell_assign_self h k v (Heap.lt_length_of_get hf.2.2.2.1),
        GoMap.get_set_of_ne _ v (Ne.symm hk)]
      exact hf.2.2.2.1
    · rw [Heap.cell_assign_of_ne h k v hba]
      exact hf.2.2.2.1

theorem getLast?_cons_cons_ne {k m n : String} {ms : List String}
    (h : (m :: ms).getLast? ≠ some k) : (n :: m :: ms).getLast? ≠ some k := by
  simpa [List.getLast?_cons_cons] using h

theorem UnmarshalXML.loop_clean (pf : String → Option Float64) (start : String) (fails : Bool)
    (tail : List Token) :
    ∀ (toks : List Token) (opened : List String) (addrs : List Nat) (h : Heap),
      Clean start toks opened = true → Frames start h addrs opened → 0 < h.length →
      ∃ h', UnmarshalXML.loop pf start fails (toks ++ tail) h (addrs ++ [0]) =
              UnmarshalXML.loop pf start fails tail h' [0] ∧
            h.length ≤ h'.length ∧
            ∀ k, k ∉ childNames toks opened.length → opened.getLast? ≠ some k →
              (Heap.cell h' 0).get k = (Heap.cell h 0).get k := by
  intro toks
  induction toks with
  | nil =>
    intro opened addrs h hc hf _
    cases opened with
    | nil =>
      cases addrs with
      | nil => exact ⟨h, rfl, le_refl _, fun _ _ _ => rfl⟩
      | cons a as => simp [Frames] at hf
    | cons n ns => simp [Clean] at hc
  | cons tok rest ih =>
    intro opened addrs h hc hf hpos
    cases tok with
    | StartElement n =>
      simp only [Clean, Bool.and_eq_true, decide_eq_true_eq] at hc
      obtain ⟨⟨hn1, hn2⟩, hrest⟩ := hc
      have hnew : ∀ top, top < h.length →
          Frames start (Heap.assign (h ++ [[("_", Val.str n)]]) top n (Val.ref h.length))
            (h.length :: addrs) (n :: opened) := by
        intro top htop
        have hne : h.length ≠ top := by omega
        refine ⟨hpos, hn1, hn2, ?_, Frames.assign top _ hn1 (Frames.heap_append _ hf)⟩
        rw [Heap.cell_assign_of_ne _ n _ hne, Heap.cell_append_length]
        simp [GoMap.get]
      have hlen : ∀ top, 0 < (Heap.assign (h ++ [[("_", Val.str n)]]) top n
          (Val.ref h.length)).length := by
        intro top
        simp [Heap.length_assign]
      cases addrs with
      | nil =>
        cases opened with
        | cons m ms => simp [Frames] at hf
        | nil =>
          obtain ⟨h', heq, hle, hroot⟩ := ih [n] [h.length] _ hrest (hnew 0 hpos) (hlen 0)
          refine ⟨h', ?_, ?_, ?_⟩
          · simpa [UnmarshalXML.loop] using heq
          · simp [Heap.length_assign] at hle
            omega
          · intro k hk _
            simp only [childNames, List.length_nil, if_true, List.mem_cons, not_or] at hk
            rw [hroot k (by simpa using hk.2) (by simpa using Ne.symm hk.1)]
            rw [Heap.cell_assign_self _ n _ (by simp),
              GoMap.get_set_of_ne _ _ hk.1, Heap.cell_append_of_lt _ _ hpos]
      | cons a as =>
        cases opened with
        | nil => simp [Frames] at hf
        | cons m ms =>
          have ha : a < h.length := Frames.lt_length hf a (List.mem_cons_self _ _)
          have ha0 : 0 < a := hf.1
          obtain ⟨h', heq, hle, hroot⟩ :=
            ih (n :: m :: ms) (h.length :: a :: as) _ hrest (hnew a ha) (hlen a)
          refine ⟨h', ?_, ?_, ?_⟩
          · simpa [UnmarshalXML.loop] using heq
          · simp [Heap.length_assign] at hle
            omega
          · intro k hk hlast
            simp only [childNames, List.length_cons, Nat.add_one_ne_zero, if_false] at hk
            rw [hroot k (by simpa using hk) (getLast?_cons_cons_ne hlast)]
            rw [Heap.cell_assign_of_ne _ n _ (by omega : (0 : Nat) ≠ a),
              Heap.cell_append_of_lt _ _ hpos]
    | EndElement n =>
      cases opened with
      | nil => simp [Clean] at hc
      | cons m ms =>
        cases addrs with
        | nil => simp [Frames] at hf
        | cons a as =>
          simp only [Clean, Bool.and_eq_true, decide_eq_true_eq] at hc
          obtain ⟨hnm, hrest⟩ := hc
          subst hnm
          have hns : n ≠ start := hf.2.2.1
          obtain ⟨h', heq, hle, hroot⟩ := ih ms as h hrest hf.2.2.2.2 hpos
          refine ⟨h', ?_, hle, ?_⟩
          · simpa [UnmarshalXML.loop, hns] using heq
          · intro k hk hlast
            simp only [childNames, List.length_cons, Nat.add_sub_cancel] at hk
            refine hroot k hk ?_
            cases ms with
            | nil => simp
            | cons m' ms' => simpa [List.getLast?_cons_cons] using hlast
    | CharData text =>
      simp only [Clean, Bool.and_eq_true, Bool.or_eq_true, decide_eq_true_eq] at hc
      obtain ⟨htext, hrest⟩ := hc
      by_cases hblank : TrimSpace text = ""
      · obtain ⟨h', heq, hle, hroot⟩ := ih opened addrs h hrest hf hpos
        refine ⟨h', ?_, hle, ?_⟩
        · simpa [UnmarshalXML.loop, hblank] using heq
        · intro k hk hlast
          exact hroot k (by simpa [childNames] using hk) hlast
      · cases opened with
        | nil => simp [hblank] at htext
        | cons m ms =>
          cases addrs with
          | nil => simp [Frames] at hf
          | cons a as =>
            have hcur : (Heap.cell h a).get "_" = some (Val.str m) := hf.2.2.2.1
            have hm : m ≠ "_" := hf.2.1
            cases as with
            | nil =>
              cases ms with
              | cons m' ms' => simp [Frames] at hf
              | nil =>
                obtain ⟨h', heq, hle, hroot⟩ := ih [m] [a]
                  (Heap.assign h 0 m (typeConvert pf (TrimSpace text))) hrest
                  (Frames.assign 0 _ hm hf) (by simpa [Heap.length_assign] using hpos)
                refine ⟨h', ?_, ?_, ?_⟩
                · simpa [UnmarshalXML.loop, hblank, hcur] using heq
                · simpa [Heap.length_assign] using hle
                · intro k hk hlast
                  have hkm : k ≠ m := by
                    intro hkm
                    exact hlast (by simp [hkm])
                  rw [hroot k (by simpa [childNames] using hk) hlast,
                    Heap.cell_assign_self _ m _ hpos, GoMap.get_set_of_ne _ _ hkm]
            | cons b bs =>
              cases ms with
              | nil => simp [Frames] at hf
              | cons m' ms' =>
                have hb0 : 0 < b := hf.2.2.2.2.1
                obtain ⟨h', heq, hle, hroot⟩ := ih (m :: m' :: ms') (a :: b :: bs)
                  (Heap.assign h b m (typeConvert pf (TrimSpace text))) hrest
                  (Frames.assign b _ hm hf) (by simpa [Heap.length_assign] using hpos)
                refine ⟨h', ?_, ?_, ?_⟩
                · simpa [UnmarshalXML.loop, hblank, hcur] using heq
                · simpa [Heap.length_assign] using hle
                · intro k hk hlast
                  rw [hroot k (by simpa [childNames] using hk) hlast,
                    Heap.cell_assign_of_ne _ m _ (by omega : (0 : Nat) ≠ b)]
    | Comment =>
      obtain ⟨h', heq, hle, hroot⟩ := ih opened addrs h (by simpa [Clean] using hc) hf hpos
      exact ⟨h', by simpa [UnmarshalXML.loop] using heq, hle,
        fun k hk hlast => hroot k (by simpa [childNames] using hk) hlast⟩
    | ProcInst =>
      obtain ⟨h', heq, hle, hroot⟩ := ih opened addrs h (by simpa [Clean] using hc) hf hpos
      exact ⟨h', by simpa [UnmarshalXML.loop] using heq, hle,
        fun k hk hlast => hroot k (by simpa [childNames] using hk) hlast⟩
    | Directive =>
      obtain ⟨h', heq, hle, hroot⟩ := ih opened addrs h (by simpa [Clean] using hc) hf hpos
      exact ⟨h', by simpa [UnmarshalXML.loop] using heq, hle,
        fun k hk hlast => hroot k (by simpa [childNames] using hk) hlast⟩

theorem Clean.of_append (start : String) :
    ∀ (a b : List Token) (o1 o2 : List String), Clean start a o1 = true →
      Clean start b o2 = true → Clean start (a ++ b) (o1 ++ o2) = true := by
  intro a
  induction a with
  | nil =>
    intro b o1 o2 ha hb
    cases o1 with
    | nil => simpa using hb
    | cons n ns => simp [Clean] at ha
  | cons tok rest ih =>
    intro b o1 o2 ha hb
    cases tok with
    | StartElement n =>
      simp only [Clean, Bool.and_eq_true, decide_eq_true_eq] at ha
      simp only [List.cons_append, Clean, Bool.and_eq_true, decide_eq_true_eq]
      exact ⟨ha.1, by simpa using ih b (n :: o1) o2 ha.2 hb⟩
    | EndElement n =>
      cases o1 with
      | nil => simp [Clean] at ha
      | cons m ms =>
        simp only [Clean, Bool.and_eq_true, decide_eq_true_eq] at ha
        simp only [List.cons_append, Clean, Bool.and_eq_true, decide_eq_true_eq]
        exact ⟨ha.1, ih b ms o2 ha.2 hb⟩
    | CharData text =>
      simp only [Clean, Bool.and_eq_true, Bool.or_eq_true, decide_eq_true_eq] at ha
      simp only [List.cons_append, Clean, Bool.and_eq_true, Bool.or_eq_true, decide_eq_true_eq]
      refine ⟨?_, ih b o1 o2 ha.2 hb⟩
      rcases ha.1 with h | h
      · exact Or.inl h
      · right
        cases o1 with
        | nil => simp at h
        | cons m ms => simp
    | Comment => simpa [Clean] using ih b o1 o2 (by simpa [Clean] using ha) hb
    | ProcInst => simpa [Clean] using ih b o1 o2 (by simpa [Clean] using ha) hb
    | Directive => simpa [Clean] using ih b o1 o2 (by simpa [Clean] using ha) hb

theorem Clean.of_leaf {start t : String} (v : String) (h1 : t ≠ "_") (h2 : t ≠ start) :
    Clean start (leaf t v) [] = true := by
  simp [leaf, Clean, h1, h2]

/-- The three tokens of a leaf with text that is not blank, read with only the
root frame on the stack: the root map gets the converted text under the tag, and
the builder goes on with the root frame alone, or returns when the tag is the
record name. -/
theorem UnmarshalXML.loop_leaf (pf : String → Option Float64) (start : String) (fails : Bool)
    (t v : String) (tail : List Token) (h : Heap) (hpos : 0 < h.length)
    (hv : TrimSpace v ≠ "") :
    ∃ h', UnmarshalXML.loop pf start fails (leaf t v ++ tail) h [0] =
            (if t = start then ⟨h', BuildStatus.closed, tail⟩
              else UnmarshalXML.loop pf start fails tail h' [0]) ∧
          0 < h'.length ∧
          (Heap.cell h' 0).get t = some (typeConvert pf (TrimSpace v)) := by
  have hne : h.length ≠ 0 := by omega
  have hcur : (Heap.cell (Heap.assign (h ++ [[("_", Val.str t)]]) 0 t (Val.ref h.length))
      h.length).get "_" = some (Val.str t) := by
    rw [Heap.cell_assign_of_ne _ t _ hne, Heap.cell_append_length]
    simp [GoMap.get]
  refine ⟨Heap.assign (Heap.assign (h ++ [[("_", Val.str t)]]) 0 t (Val.ref h.length)) 0 t
    (typeConvert pf (TrimSpace v)), ?_, ?_, ?_⟩
  · simp only [leaf, List.cons_append, List.nil_append, UnmarshalXML.loop, hv, if_false, hcur]
    split <;> rfl
  · simp [Heap.length_assign]
  · rw [Heap.cell_assign_self _ t _ (by simp [Heap.length_assign]), GoMap.get_set_self]

/-- A record whose body is `pre`, a leaf `<t>v</t>` and `post`, with `pre` and
`post` clean and no direct child named `t` in `post`: the builder returns at an
end tag of the record name, the root map holds the converted text of the leaf
under `t`, and when `t` is not the record name the tokens after the record are
left in the decoder. -/
theorem UnmarshalXML_last_leaf (pf : String → Option Float64) (start t v : String)
    (fails : Bool) (pre post rest : List Token)
    (hpre : Clean start pre [] = true) (hpost : Clean start post [] = true)
    (honce : t ∉ childNames post 0) (hv : TrimSpace v ≠ "") :
    (UnmarshalXML pf start
        ⟨pre ++ leaf t v ++ post ++ Token.EndElement start :: rest, fails⟩).status =
      BuildStatus.closed ∧
    (RawListing.root ⟨(UnmarshalXML pf start
        ⟨pre ++ leaf t v ++ post ++ Token.EndElement start :: rest, fails⟩).heap⟩).get t =
      some (typeConvert pf (TrimSpace v)) ∧
    (t ≠ start → (UnmarshalXML pf start
        ⟨pre ++ leaf t v ++ post ++ Token.EndElement start :: rest, fails⟩).rest = rest) := by
  obtain ⟨h1, heq1, hle1, -⟩ := UnmarshalXML.loop_clean pf start fails
    (leaf t v ++ (post ++ Token.EndElement start :: rest)) pre [] [] [[("_", Val.str start)]]
    hpre (by simp [Frames]) (by simp)
  have hpos1 : 0 < h1.length := lt_of_lt_of_le (by simp) hle1
  obtain ⟨h2, heq2, hpos2, hget2⟩ := UnmarshalXML.loop_leaf pf start fails t v
    (post ++ Token.EndElement start :: rest) h1 hpos1 hv
  obtain ⟨h3, heq3, -, hroot3⟩ := UnmarshalXML.loop_clean pf start fails
    (Token.EndElement start :: rest) post [] [] h2 hpost (by simp [Frames]) hpos2
  have hrun : UnmarshalXML pf start
      ⟨pre ++ leaf t v ++ post ++ Token.EndElement start :: rest, fails⟩ =
      (if t = start then ⟨h2, BuildStatus.closed, post ++ Token.EndElement start :: rest⟩
        else ⟨h3, BuildStatus.closed, rest⟩) := by
    simp only [UnmarshalXML, List.append_assoc]
    simp only [List.nil_append] at heq1 heq3
    rw [heq1, heq2]
    split
    · rfl
    · rw [heq3]
      simp [UnmarshalXML.loop]
  rw [hrun]
  by_cases hts : t = start
  · rw [if_pos hts]
    exact ⟨rfl, hget2, fun hne => absurd hts hne⟩
  · rw [if_neg hts]
    refine ⟨rfl, ?_, fun _ => rfl⟩
    have hkeep := hroot3 t honce (by simp)
    simp only [RawListing.root]
    rw [hkeep]
    exact hget2

/-! ## Termination of the orchestrator -/

theorem UnmarshalXML.loop_rest_length (pf : String → Option Float64) (start : String)
    (fails : Bool) :
    ∀ (toks : List Token) (h : Heap) (path : List Nat),
      (UnmarshalXML.loop pf start fails toks h path).rest.length ≤ toks.length := by
  intro toks
  induction toks with
  | nil => intro h path; simp [UnmarshalXML.loop]
  | cons tok rest ih =>
    intro h path
    cases tok with
    | StartElement n =>
      cases path with
      | nil => simp [UnmarshalXML.loop]
      | cons top below =>
        simp only [UnmarshalXML.loop, List.length_cons]
        exact Nat.le_succ_of_le (ih _ _)
    | EndElement n =>
      cases path with
      | nil => simp [UnmarshalXML.loop]
      | cons top below =>
        simp only [UnmarshalXML.loop, List.length_cons]
        split
        · simp
        · exact Nat.le_succ_of_le (ih _ _)
    | CharData text =>
      simp only [UnmarshalXML.loop, List.length_cons]
      split
      · exact Nat.le_succ_of_le (ih _ _)
      · split
        · simp
        · split
          · split
            · simp
            · exact Nat.le_succ_of_le (ih _ _)
          · simp
    | Comment => simpa [UnmarshalXML.loop] using Nat.le_succ_of_le (ih h path)
    | ProcInst => simpa [UnmarshalXML.loop] using Nat.le_succ_of_le (ih h path)
    | Directive => simpa [UnmarshalXML.loop] using Nat.le_succ_of_le (ih h path)

theorem UnmarshalXML_rest_length (pf : String → Option Float64) (start : String) (d : Decoder) :
    (UnmarshalXML pf start d).rest.length ≤ d.toks.length :=
  UnmarshalXML.loop_rest_length pf start d.fails d.toks _ _

/-- The bound on the iterations is never reached: with more fuel than tokens the
loop of `ParseXML` ends by itself. -/
theorem ParseXML_loop_fuel (pf : String → Option Float64)
    (chatly : Nat → RawListing → Except String Job) (marshal : Job → String) (w : Writer)
    (fails : Bool) :
    ∀ (fuel : Nat) (toks : List Token) (st : LoopState), toks.length < fuel →
      (ParseXML.loop pf chatly marshal w fails fuel toks st).outcome ≠ Outcome.outOfFuel := by
  intro fuel
  induction fuel with
  | zero => intro toks st hlt; omega
  | succ fuel ih =>
    intro toks st hlt
    cases toks with
    | nil =>
      simp only [ParseXML.loop]
      split
      · simp
      · split <;> simp
    | cons tok rest =>
      have hrest : rest.length < fuel := by simpa using hlt
      cases tok with
      | StartElement n =>
        simp only [ParseXML.loop]
        have hb : (UnmarshalXML pf n ⟨rest, fails⟩).rest.length < fuel :=
          lt_of_le_of_lt (UnmarshalXML_rest_length pf n ⟨rest, fails⟩) hrest
        split
        · split
          · simp
          · simp
          · split
            · exact ih _ _ hb
            · split
              · exact ih _ _ hb
              · split
                · exact ih _ _ hb
                · simp
        · exact ih _ _ hrest
      | EndElement n => simpa [ParseXML.loop] using ih rest st hrest
      | CharData text => simpa [ParseXML.loop] using ih rest st hrest
      | Comment => simpa [ParseXML.loop] using ih rest st hrest
      | ProcInst => simpa [ParseXML.loop] using ih rest st hrest
      | Directive => simpa [ParseXML.loop] using ih rest st hrest

/-- The model of `ParseXML` always ends by itself: a return, `log.Fatalf` or a
panic, never the bound on the iterations. -/
theorem ParseXML_terminates (pf : String → Option Float64)
    (chatly : Nat → RawListing → Except String Job) (marshal : Job → String) (d : Decoder)
    (writer : Option Writer) (useChatly : Bool) :
    (ParseXML pf chatly marshal d writer useChatly).outcome ≠ Outcome.outOfFuel := by
  unfold ParseXML
  split
  · simp
  · split
    · simp
    · exact ParseXML_loop_fuel pf chatly marshal _ d.fails _ d.toks _ (Nat.lt_succ_self _)

/-! ## What a run writes -/

theorem Sink.write_reliable (s : Sink) (data : String) :
    Sink.write Writer.reliable s data = (⟨s.chunks ++ [data], s.calls + 1⟩, true) := by
  simp [Sink.write, Writer.reliable]

theorem PushJobIntoFile_reliable (marshal : Job → String) (job : Job) (s : Sink) (count : Nat) :
    ∃ s2, PushJobIntoFile marshal Writer.reliable job s count = (s2, true) ∧
      s2.chunks = s.chunks ++ ((if count > 0 then [",\n"] else []) ++ [marshal job]) := by
  by_cases hc : count > 0
  · refine ⟨⟨s.chunks ++ [",\n", marshal job], s.calls + 1 + 1⟩, ?_, ?_⟩
    · simp [PushJobIntoFile, hc, Sink.write_reliable]
    · simp [hc]
  · refine ⟨⟨s.chunks ++ [marshal job], s.calls + 1⟩, ?_, ?_⟩
    · simp [PushJobIntoFile, hc, Sink.write_reliable]
    · simp [hc]

theorem ParseXML.dispatch_trace (chatly : Nat → RawListing → Except String Job)
    (st : LoopState) (root : RawListing) :
    ∃ d : Dispatch, (ParseXML.dispatch chatly st root).1.trace = st.trace ++ [d] ∧
      d.result = (ParseXML.dispatch chatly st root).2 ∧
      d.count = (ParseXML.dispatch chatly st root).1.count ∧
      (ParseXML.dispatch chatly st root).1.sink = st.sink := by
  unfold ParseXML.dispatch
  split
  · exact ⟨_, rfl, rfl, rfl, rfl⟩
  · exact ⟨_, rfl, rfl, rfl, rfl⟩

theorem ParseXML.loop_chunks (pf : String → Option Float64)
    (chatly : Nat → RawListing → Except String Job) (marshal : Job → String) (fails : Bool) :
    ∀ (fuel : Nat) (toks : List Token) (st : LoopState),
      ∃ ds : List Dispatch,
        (ParseXML.loop pf chatly marshal Writer.reliable fails fuel toks st).state.trace =
          st.trace ++ ds ∧
        (ParseXML.loop pf chatly marshal Writer.reliable fails fuel toks st).state.sink.chunks =
          st.sink.chunks ++ ds.flatMap (emitted marshal) ++
            closing (ParseXML.loop pf chatly marshal Writer.reliable fails fuel toks st).outcome := by
  intro fuel
  induction fuel with
  | zero => intro toks st; exact ⟨[], by simp [ParseXML.loop, closing]⟩
  | succ fuel ih =>
    intro toks st
    cases toks with
    | nil =>
      refine ⟨[], ?_⟩
      cases fails <;> simp [ParseXML.loop, closing, Sink.write_reliable]
    | cons tok rest =>
      cases tok with
      | StartElement n =>
        simp only [ParseXML.loop]
        split
        · split
          · exact ⟨[], by simp [closing]⟩
          · exact ⟨[], by simp [closing]⟩
          · obtain ⟨d, htr, hres, hcnt, hsink⟩ :=
              ParseXML.dispatch_trace chatly st ⟨(UnmarshalXML pf n ⟨rest, fails⟩).heap⟩
            split
            · rename_i st1 e heq
              rw [heq] at htr hres hcnt hsink
              simp only at htr hres hcnt hsink
              obtain ⟨ds, h1, h2⟩ := ih (UnmarshalXML pf n ⟨rest, fails⟩).rest st1
              refine ⟨d :: ds, ?_, ?_⟩
              · rw [h1, htr]; simp
              · rw [h2, hsink]
                simp [emitted, hres]
            · rename_i st1 job heq
              rw [heq] at htr hres hcnt hsink
              simp only at htr hres hcnt hsink
              obtain ⟨s2, hpush, hchunks⟩ :=
                PushJobIntoFile_reliable marshal job st1.sink st1.count
              have hem : emitted marshal d =
                  (if st1.count > 0 then [",\n"] else []) ++ [marshal job] := by
                simp [emitted, hres, hcnt]
              rw [hpush]
              simp only
              split
              · obtain ⟨ds, h1, h2⟩ := ih (UnmarshalXML pf n ⟨rest, fails⟩).rest
                  { st1 with sink := s2 }
                refine ⟨d :: ds, ?_, ?_⟩
                · rw [h1]; simp [htr]
                · rw [h2]
                  simp only [hchunks, hsink, List.flatMap_cons, hem, List.append_assoc]
              · refine ⟨[d], by simp [htr], ?_⟩
                simp [closing, hchunks, hsink, hem]
        · exact ih rest st
      | EndElement n => simpa [ParseXML.loop] using ih rest st
      | CharData text => simpa [ParseXML.loop] using ih rest st
      | Comment => simpa [ParseXML.loop] using ih rest st
      | ProcInst => simpa [ParseXML.loop] using ih rest st
      | Directive => simpa [ParseXML.loop] using ih rest st

theorem ParseXML.dispatch_listing (chatly : Nat → RawListing → Except String Job)
    (st : LoopState) (root : RawListing) :
    (ParseXML.dispatch chatly st root).1.trace.map Dispatch.listing =
      st.trace.map Dispatch.listing ++ [root] := by
  unfold ParseXML.dispatch
  split <;> simp

theorem ParseXML.loop_records (pf : String → Option Float64)
    (chatly : Nat → RawListing → Except String Job) (marshal : Job → String) (w : Writer)
    (fails : Bool) :
    ∀ (fuel : Nat) (toks : List Token) (st : LoopState),
      (ParseXML.loop pf chatly marshal w fails fuel toks st).outcome ≠ Outcome.panicked →
      (ParseXML.loop pf chatly marshal w fails fuel toks st).state.trace.map Dispatch.listing =
        st.trace.map Dispatch.listing ++ records pf fails fuel toks := by
  intro fuel
  induction fuel with
  | zero => intro toks st _; simp [ParseXML.loop, records]
  | succ fuel ih =>
    intro toks st
    cases toks with
    | nil =>
      intro _
      simp only [ParseXML.loop, records, List.append_nil]
      split
      · rfl
      · split <;> rfl
    | cons tok rest =>
      cases tok with
      | StartElement n =>
        simp only [ParseXML.loop, records]
        split
        · split
          · intro hne; exact absurd rfl hne
          · intro hne; exact absurd rfl hne
          · have hl := ParseXML.dispatch_listing chatly st
              ⟨(UnmarshalXML pf n ⟨rest, fails⟩).heap⟩
            split
            · rename_i st1 e heq
              rw [heq] at hl
              intro hne
              rw [ih _ st1 hne, hl]
              simp
            · rename_i st1 job heq
              rw [heq] at hl
              split
              · intro hne
                rw [ih _ _ hne]
                simp only [hl]
                simp
              · split
                · intro hne
                  rw [ih _ _ hne]
                  simp only [hl]
                  simp
                · intro hne; exact absurd rfl hne
        · exact ih rest st
      | EndElement n => simpa [ParseXML.loop, records] using ih rest st
      | CharData text => simpa [ParseXML.loop, records] using ih rest st
      | Comment => simpa [ParseXML.loop, records] using ih rest st
      | ProcInst => simpa [ParseXML.loop, records] using ih rest st
      | Directive => simpa [ParseXML.loop, records] using ih rest st

/-! ## The rule-based projection, field by field -/

theorem asString_eq_some {o : Option Val} {s : String} :
    asString o = some s ↔ o = some (Val.str s) := by
  cases o with
  | none => simp [asString]
  | some v => cases v <;> simp [asString]

theorem asString_eq_none {o : Option Val} :
    asString o = none ↔ ∀ s, o ≠ some (Val.str s) := by
  cases o with
  | none => simp [asString]
  | some v => cases v <;> simp [asString]

theorem ifString_Title (v : Option Val) (job : Job) (body : String → Job → Job)
    (hbody : ∀ s j, (body s j).Title = j.Title) : (ifString v job body).Title = job.Title := by
  unfold ifString
  split
  · exact hbody _ _
  · rfl

theorem ifString_apply {α : Type} (p : Job → α) (v : Option Val) (job : Job)
    (body : String → Job → Job) :
    p (ifString v job body) = (asString v).elim (p job) (fun s => p (body s job)) := by
  unfold ifString
  cases asString v <;> rfl

theorem elim_same {α β : Type} (o : Option α) (b : β) : o.elim b (fun _ => b) = b := by
  cases o <;> rfl

/-- The job `ParseToJob` returns, field by field. -/
theorem ParseToJob_eq_ok (x : RawListing) (job : Job) (h : x.ParseToJob = Except.ok job) :
    job =
      { Title := (asString (x.root.get "title")).getD ""
        Description := (asString (x.root.get "description")).getD "" ++
          descriptionLine "\nCurrency: " (asString (x.root.get "currency")) ++
          descriptionLine "\nPostal Code: " (asString (x.root.get "postalcode")) ++
          descriptionLine "\nRegion: " (asString (x.root.get "region"))
        ApplicationURL := (asString (x.root.get "url")).getD ""
        SourceJobID := (asString (x.root.get "id")).getD ""
        City := (asString (x.root.get "city")).getD ""
        CountryCode := (asString (x.root.get "country")).getD ""
        CompanyID := (asString (x.root.get "company")).getD "" } := by
  unfold RawListing.ParseToJob at h
  cases ht : asString (x.root.get "title") with
  | none => rw [ht] at h; simp at h
  | some title =>
    rw [ht] at h
    simp only [Except.ok.injEq] at h
    subst h
    apply Job.ext
    case Description =>
      simp only [ifString_apply Job.Description, elim_same]
      cases asString (x.root.get "description") <;> cases asString (x.root.get "currency") <;>
        cases asString (x.root.get "postalcode") <;> cases asString (x.root.get "region") <;>
        simp [descriptionLine, String.append_assoc]
    case Title => simp only [ifString_apply Job.Title, elim_same, Option.getD_some]
    case ApplicationURL =>
      simp only [ifString_apply Job.ApplicationURL, elim_same]
      cases asString (x.root.get "url") <;> rfl
    case SourceJobID =>
      simp only [ifString_apply Job.SourceJobID, elim_same]
      cases asString (x.root.get "id") <;> rfl
    case City =>
      simp only [ifString_apply Job.City, elim_same]
      cases asString (x.root.get "city") <;> rfl
    case CountryCode =>
      simp only [ifString_apply Job.CountryCode, elim_same]
      cases asString (x.root.get "country") <;> rfl
    case CompanyID =>
      simp only [ifString_apply Job.CompanyID, elim_same]
      cases asString (x.root.get "company") <;> rfl
    all_goals simp only [ifString_apply, elim_same]

/-! ## Streams without a record -/

theorem ParseXML.loop_no_record (pf : String → Option Float64)
    (chatly : Nat → RawListing → Except String Job) (marshal : Job → String) :
    ∀ (fuel : Nat) (toks : List Token) (st : LoopState), toks.length < fuel →
      (∀ t ∈ toks, t ≠ Token.StartElement "job") →
      ParseXML.loop pf chatly marshal Writer.reliable false fuel toks st =
        ⟨Outcome.returnedNil,
          { st with sink := ⟨st.sink.chunks ++ ["\n]"], st.sink.calls + 1⟩ }⟩ := by
  intro fuel
  induction fuel with
  | zero => intro toks st hlt; omega
  | succ fuel ih =>
    intro toks st hlt hno
    cases toks with
    | nil => simp [ParseXML.loop, Sink.write_reliable]
    | cons tok rest =>
      have hrest : rest.length < fuel := by simpa using hlt
      have hno' : ∀ t ∈ rest, t ≠ Token.StartElement "job" :=
        fun t ht => hno t (List.mem_cons_of_mem _ ht)
      cases tok with
      | StartElement n =>
        have hn : n ≠ "job" := by
          intro hn
          exact hno (Token.StartElement n) (List.mem_cons_self _ _) (by rw [hn])
        simpa [ParseXML.loop, hn] using ih rest st hrest hno'
      | EndElement n => simpa [ParseXML.loop] using ih rest st hrest hno'
      | CharData text => simpa [ParseXML.loop] using ih rest st hrest hno'
      | Comment => simpa [ParseXML.loop] using ih rest st hrest hno'
      | ProcInst => simpa [ParseXML.loop] using ih rest st hrest hno'
      | Directive => simpa [ParseXML.loop] using ih rest st hrest hno'


/-! ## The one-way switch and the end of a failing stream -/

theorem ParseXML.dispatch_strategy (chatly : Nat → RawListing → Except String Job)
    (st : LoopState) (root : RawListing) :
    ∃ d : Dispatch, (ParseXML.dispatch chatly st root).1.trace = st.trace ++ [d] ∧
      d.strategy = (if st.useChatly then Strategy.chatly else Strategy.rules) ∧
      (st.useChatly = false → (ParseXML.dispatch chatly st root).1.useChatly = false) := by
  unfold ParseXML.dispatch
  split
  · rename_i h
    exact ⟨_, rfl, by simp [h], fun hf => by simp [h] at hf⟩
  · rename_i h
    exact ⟨_, rfl, by simp [h], fun hf => by simpa using hf⟩

theorem ParseXML.loop_strategies (pf : String → Option Float64)
    (chatly : Nat → RawListing → Except String Job) (marshal : Job → String) (w : Writer)
    (fails : Bool) :
    ∀ (fuel : Nat) (toks : List Token) (st : LoopState),
      ∃ (ds : List Dispatch) (k m : Nat),
        (ParseXML.loop pf chatly marshal w fails fuel toks st).state.trace = st.trace ++ ds ∧
        ds.map Dispatch.strategy =
          List.replicate k Strategy.chatly ++ List.replicate m Strategy.rules ∧
        (st.useChatly = false → k = 0) ∧
        (st.useChatly = false ∨ m ≠ 0 →
          (ParseXML.loop pf chatly marshal w fails fuel toks st).state.useChatly = false) := by
  intro fuel
  induction fuel with
  | zero =>
    intro toks st
    exact ⟨[], 0, 0, by simp [ParseXML.loop], rfl, fun _ => rfl, by simp [ParseXML.loop]⟩
  | succ fuel ih =>
    intro toks st
    have hstop : ∀ r : Run, r.state.trace = st.trace → r.state.useChatly = st.useChatly →
        ∃ (ds : List Dispatch) (k m : Nat), r.state.trace = st.trace ++ ds ∧
          ds.map Dispatch.strategy =
            List.replicate k Strategy.chatly ++ List.replicate m Strategy.rules ∧
          (st.useChatly = false → k = 0) ∧
          (st.useChatly = false ∨ m ≠ 0 → r.state.useChatly = false) := by
      intro r h1 h2
      exact ⟨[], 0, 0, by simp [h1], rfl, fun _ => rfl, by simp [h2]⟩
    cases toks with
    | nil =>
      simp only [ParseXML.loop]
      split
      · exact hstop _ rfl rfl
      · split <;> exact hstop _ rfl rfl
    | cons tok rest =>
      cases tok with
      | StartElement n =>
        simp only [ParseXML.loop]
        split
        · split
          · exact hstop _ rfl rfl
          · exact hstop _ rfl rfl
          · obtain ⟨d, htr, hstrat, hflag⟩ :=
              ParseXML.dispatch_strategy chatly st ⟨(UnmarshalXML pf n ⟨rest, fails⟩).heap⟩
            have hgo : ∀ (r : Run) (st1 : LoopState), st1.trace = st.trace ++ [d] →
                (st.useChatly = false → st1.useChatly = false) →
                (∃ (ds : List Dispatch) (k m : Nat), r.state.trace = st1.trace ++ ds ∧
                  ds.map Dispatch.strategy =
                    List.replicate k Strategy.chatly ++ List.replicate m Strategy.rules ∧
                  (st1.useChatly = false → k = 0) ∧
                  (st1.useChatly = false ∨ m ≠ 0 → r.state.useChatly = false)) →
                ∃ (ds : List Dispatch) (k m : Nat), r.state.trace = st.trace ++ ds ∧
                  ds.map Dispatch.strategy =
                    List.replicate k Strategy.chatly ++ List.replicate m Strategy.rules ∧
                  (st.useChatly = false → k = 0) ∧
                  (st.useChatly = false ∨ m ≠ 0 → r.state.useChatly = false) := by
              intro r st1 h1 h2 ⟨ds, k, m, hds, hmap, hk, hfin⟩
              by_cases hu : st.useChatly = true
              · refine ⟨d :: ds, k + 1, m, by simp [hds, h1], ?_, by simp [hu], ?_⟩
                · simp [hmap, hstrat, hu, List.replicate_succ]
                · intro hor
                  rcases hor with hor | hor
                  · simp [hu] at hor
                  · exact hfin (Or.inr hor)
              · have hu' : st.useChatly = false := by simpa using hu
                have hk0 : k = 0 := hk (h2 hu')
                subst hk0
                refine ⟨d :: ds, 0, m + 1, by simp [hds, h1], ?_, fun _ => rfl, ?_⟩
                · simp [hmap, hstrat, hu', List.replicate_succ]
                · intro _
                  exact hfin (Or.inl (h2 hu'))
            split
            · rename_i st1 e heq
              rw [heq] at htr hflag
              exact hgo _ st1 htr hflag (ih _ st1)
            · rename_i st1 job heq
              rw [heq] at htr hflag
              split
              · exact hgo _ _ htr hflag (ih _ _)
              · split
                · exact hgo _ _ htr hflag (ih _ _)
                · exact hgo _ _ htr hflag ⟨[], 0, 0, by simp, rfl, fun _ => rfl, by simp⟩
        · exact ih rest st
      | EndElement n => simpa [ParseXML.loop] using ih rest st
      | CharData text => simpa [ParseXML.loop] using ih rest st
      | Comment => simpa [ParseXML.loop] using ih rest st
      | ProcInst => simpa [ParseXML.loop] using ih rest st
      | Directive => simpa [ParseXML.loop] using ih rest st

theorem ParseXML.loop_decode_error (pf : String → Option Float64)
    (chatly : Nat → RawListing → Except String Job) (marshal : Job → String) (w : Writer) :
    ∀ (fuel : Nat) (toks : List Token) (st : LoopState),
      (ParseXML.loop pf chatly marshal w true fuel toks st).outcome = Outcome.fatal ∨
      (ParseXML.loop pf chatly marshal w true fuel toks st).outcome = Outcome.panicked ∨
      (ParseXML.loop pf chatly marshal w true fuel toks st).outcome = Outcome.outOfFuel := by
  intro fuel
  induction fuel with
  | zero => intro toks st; simp [ParseXML.loop]
  | succ fuel ih =>
    intro toks st
    cases toks with
    | nil => simp [ParseXML.loop]
    | cons tok rest =>
      cases tok with
      | StartElement n =>
        simp only [ParseXML.loop]
        split
        · split
          · simp
          · simp
          · split
            · exact ih _ _
            · split
              · exact ih _ _
              · split
                · exact ih _ _
                · simp
        · exact ih rest st
      | EndElement n => simpa [ParseXML.loop] using ih rest st
      | CharData text => simpa [ParseXML.loop] using ih rest st
      | Comment => simpa [ParseXML.loop] using ih rest st
      | ProcInst => simpa [ParseXML.loop] using ih rest st
      | Directive => simpa [ParseXML.loop] using ih rest st

theorem TrimPrefix_append (p s : String) : TrimPrefix (p ++ s) p = s := by
  simp [TrimPrefix, String.data_append]

theorem TrimSuffix_append (s p : String) : TrimSuffix (s ++ p) p = s := by
  simp [TrimSuffix, String.data_append]

/-! ## Records with a single leaf, and numeric entries -/

theorem UnmarshalXML.loop_blank (pf : String → Option Float64) (start : String) (fails : Bool)
    (tail : List Token) (h : Heap) (path : List Nat) :
    ∀ ws : List Token, Blank ws = true →
      UnmarshalXML.loop pf start fails (ws ++ tail) h path =
        UnmarshalXML.loop pf start fails tail h path := by
  intro ws
  induction ws with
  | nil => intro _; rfl
  | cons tok rest ih =>
    intro hb
    cases tok with
    | StartElement n => simp [Blank] at hb
    | EndElement n => simp [Blank] at hb
    | CharData text =>
      simp only [Blank, Bool.and_eq_true, decide_eq_true_eq] at hb
      simpa [UnmarshalXML.loop, hb.1] using ih hb.2
    | Comment => simpa [UnmarshalXML.loop] using ih (by simpa [Blank] using hb)
    | ProcInst => simpa [UnmarshalXML.loop] using ih (by simpa [Blank] using hb)
    | Directive => simpa [UnmarshalXML.loop] using ih (by simpa [Blank] using hb)

theorem GoMap.get_erase_self (m : GoMap) (k : String) : (m.erase k).get k = none := by
  induction m with
  | nil => rfl
  | cons e m ih =>
    obtain ⟨k', v⟩ := e
    by_cases hk : k' = k
    · simpa [GoMap.erase, List.filter_cons, hk] using ih
    · simpa [GoMap.erase, List.filter_cons, hk, GoMap.get] using ih

theorem GoMap.get_erase_of_ne (m : GoMap) {k k' : String} (hne : k' ≠ k) :
    (m.erase k).get k' = m.get k' := by
  induction m with
  | nil => rfl
  | cons e m ih =>
    obtain ⟨k₀, v⟩ := e
    by_cases hk : k₀ = k
    · subst hk
      simpa [GoMap.erase, List.filter_cons, GoMap.get, Ne.symm hne] using ih
    · by_cases hk' : k₀ = k'
      · subst hk'
        simp [GoMap.erase, List.filter_cons, hk, GoMap.get]
      · simpa [GoMap.erase, List.filter_cons, hk, GoMap.get, hk'] using ih

theorem RawListing.root_without (x : RawListing) (k : String) :
    (x.without k).root = x.root.erase k := by
  obtain ⟨heap⟩ := x
  cases heap with
  | nil => simp [RawListing.without, RawListing.root, Heap.cell, GoMap.erase]
  | cons m rest => simp [RawListing.without, RawListing.root, Heap.cell]

theorem ParseToJob_congr (x y : RawListing)
    (hsame : ∀ k, asString (x.root.get k) = asString (y.root.get k)) :
    x.ParseToJob = y.ParseToJob := by
  unfold RawListing.ParseToJob ifString
  simp only [hsame]

theorem asString_typeConvert_num (pf : String → Option Float64) {text : String} {f : Float64}
    (hnum : pf text = some f) : asString (some (typeConvert pf text)) = none := by
  simp [typeConvert, hnum, asString]

theorem UnmarshalXML_single_leaf (pf : String → Option Float64) (start t v : String)
    (fails : Bool) (pre post rest : List Token)
    (hpre : Blank pre = true) (hpost : Blank post = true) (ht : t ≠ "_")
    (hv : TrimSpace v ≠ "") :
    (UnmarshalXML pf start
        ⟨pre ++ leaf t v ++ post ++ Token.EndElement start :: rest, fails⟩).status =
      BuildStatus.closed ∧
    (UnmarshalXML pf start
        ⟨pre ++ leaf t v ++ post ++ Token.EndElement start :: rest, fails⟩).heap =
      [[("_", Val.str start), (t, typeConvert pf (TrimSpace v))], [("_", Val.str t)]] := by
  have ht' : ¬ "_" = t := fun h => ht h.symm
  have hstep : UnmarshalXML pf start
      ⟨pre ++ leaf t v ++ post ++ Token.EndElement start :: rest, fails⟩ =
      (if t = start then
        ⟨[[("_", Val.str start), (t, typeConvert pf (TrimSpace v))], [("_", Val.str t)]],
          BuildStatus.closed, post ++ Token.EndElement start :: rest⟩
      else UnmarshalXML.loop pf start fails (post ++ Token.EndElement start :: rest)
        [[("_", Val.str start), (t, typeConvert pf (TrimSpace v))], [("_", Val.str t)]] [0]) := by
    simp only [UnmarshalXML, List.append_assoc]
    rw [UnmarshalXML.loop_blank pf start fails _ _ _ pre hpre]
    simp [leaf, UnmarshalXML.loop, hv, Heap.assign, Heap.cell, GoMap.set, GoMap.get, ht']
  rw [hstep]
  by_cases hts : t = start
  · rw [if_pos hts]
    exact ⟨rfl, rfl⟩
  · rw [if_neg hts, UnmarshalXML.loop_blank pf start fails _ _ _ post hpost]
    simp [UnmarshalXML.loop]

/-! ## `Trim` entry by entry -/

theorem AnyMap.get_set_eq {α : Type} (m : AnyMap α) (k : String) (v : AnyVal α) :
    (m.set k v).get k = some v := by
  induction m with
  | nil => simp [AnyMap.set, AnyMap.get]
  | cons e m ih =>
    obtain ⟨k', v'⟩ := e
    by_cases hk : k' = k
    · simp [AnyMap.set, AnyMap.get, hk]
    · simp [AnyMap.set, AnyMap.get, hk, ih]

theorem AnyMap.get_set_ne {α : Type} (m : AnyMap α) {k k' : String} (v : AnyVal α)
    (hne : k' ≠ k) : (m.set k v).get k' = m.get k' := by
  induction m with
  | nil => simp [AnyMap.set, AnyMap.get, Ne.symm hne]
  | cons e m ih =>
    obtain ⟨k₀, v₀⟩ := e
    by_cases hk : k₀ = k
    · subst hk
      simp [AnyMap.set, AnyMap.get, Ne.symm hne]
    · by_cases hk' : k₀ = k'
      · subst hk'
        simp [AnyMap.set, AnyMap.get, hk]
      · simp [AnyMap.set, AnyMap.get, hk, hk', ih]

theorem AnyMap.keys_set {α : Type} (m : AnyMap α) {k : String} (v : AnyVal α)
    (hk : k ∈ m.map Prod.fst) : (m.set k v).map Prod.fst = m.map Prod.fst := by
  induction m with
  | nil => simp at hk
  | cons e m ih =>
    obtain ⟨k', v'⟩ := e
    by_cases hk' : k' = k
    · simp [AnyMap.set, hk']
    · have hmem : k ∈ m.map Prod.fst := by
        rcases List.mem_cons.1 hk with h | h
        · exact absurd h.symm hk'
        · exact h
      simp [AnyMap.set, hk', ih hmem]

theorem AnyMap.get_eq_none {α : Type} (m : AnyMap α) {k : String}
    (hk : k ∉ m.map Prod.fst) : m.get k = none := by
  induction m with
  | nil => rfl
  | cons e m ih =>
    obtain ⟨k', v'⟩ := e
    simp only [List.map_cons, List.mem_cons, not_or] at hk
    simp [AnyMap.get, Ne.symm hk.1, ih hk.2]

theorem AnyMap.mem_keys_of_get {α : Type} (m : AnyMap α) {k : String} {v : AnyVal α}
    (hget : m.get k = some v) : k ∈ m.map Prod.fst := by
  by_contra hk
  rw [AnyMap.get_eq_none m hk] at hget
  simp at hget

theorem Trim.step_get {α : Type} (m : AnyMap α) (k : String) (v : AnyVal α)
    (hget : m.get k = some v) :
    (Trim.step m k v).map Prod.fst = m.map Prod.fst ∧
    (∀ k', k' ≠ k → (Trim.step m k v).get k' = m.get k') ∧
    (Trim.step m k v).get k = some (Trim.value v) := by
  have hmem := AnyMap.mem_keys_of_get m hget
  cases v with
  | str s =>
    by_cases hlen : s.length > 1000
    · have hstep : Trim.step m k (AnyVal.str s) = m.set k (AnyVal.str (s.take 1000)) := by
        simp [Trim.step, hlen]
      rw [hstep]
      refine ⟨AnyMap.keys_set m _ hmem, fun k' hne => AnyMap.get_set_ne m _ hne, ?_⟩
      rw [AnyMap.get_set_eq]
      simp [Trim.value, hlen]
    · have hstep : Trim.step m k (AnyVal.str s) = m := by simp [Trim.step, hlen]
      rw [hstep]
      refine ⟨rfl, fun _ _ => rfl, ?_⟩
      rw [hget]
      simp [Trim.value, hlen]
  | list arr =>
    have hstep : Trim.step m k (AnyVal.list arr) = m.set k (AnyVal.list (Trim.items arr)) := rfl
    rw [hstep]
    exact ⟨AnyMap.keys_set m _ hmem, fun k' hne => AnyMap.get_set_ne m _ hne,
      AnyMap.get_set_eq m k _⟩
  | other o =>
    have hstep : Trim.step m k (AnyVal.other o) = m := rfl
    rw [hstep]
    exact ⟨rfl, fun _ _ => rfl, hget⟩

theorem Trim.foldl_get {α : Type} :
    ∀ (es m : AnyMap α), (es.map Prod.fst).Nodup → (∀ e ∈ es, m.get e.1 = some e.2) →
      (es.foldl (fun m e => Trim.step m e.1 e.2) m).map Prod.fst = m.map Prod.fst ∧
      (∀ k, k ∉ es.map Prod.fst →
        (es.foldl (fun m e => Trim.step m e.1 e.2) m).get k = m.get k) ∧
      (∀ e ∈ es, (es.foldl (fun m e => Trim.step m e.1 e.2) m).get e.1 =
        some (Trim.value e.2)) := by
  intro es
  induction es with
  | nil => intro m _ _; simp
  | cons e rest ih =>
    intro m hnd hall
    obtain ⟨k, v⟩ := e
    simp only [List.map_cons, List.nodup_cons] at hnd
    obtain ⟨hkeys, hothers, hself⟩ := Trim.step_get m k v (hall (k, v) (List.mem_cons_self _ _))
    have hall' : ∀ e ∈ rest, (Trim.step m k v).get e.1 = some e.2 := by
      intro e he
      have hne : e.1 ≠ k := by
        intro heq
        exact hnd.1 (heq ▸ List.mem_map_of_mem Prod.fst he)
      rw [hothers e.1 hne]
      exact hall e (List.mem_cons_of_mem _ he)
    obtain ⟨ih1, ih2, ih3⟩ := ih (Trim.step m k v) hnd.2 hall'
    simp only [List.foldl_cons]
    refine ⟨by rw [ih1, hkeys], ?_, ?_⟩
    · intro k' hk'
      simp only [List.map_cons, List.mem_cons, not_or] at hk'
      rw [ih2 k' hk'.2, hothers k' hk'.1]
    · intro e he
      rcases List.mem_cons.1 he with rfl | he
      · rw [ih2 k hnd.1]
        exact hself
      · exact ih3 e he

theorem AnyMap.get_of_mem {α : Type} :
    ∀ (m : AnyMap α), (m.map Prod.fst).Nodup → ∀ e ∈ m, m.get e.1 = some e.2 := by
  intro m
  induction m with
  | nil => intro _ e he; simp at he
  | cons e0 rest ih =>
    intro hnd e he
    obtain ⟨k0, v0⟩ := e0
    simp only [List.map_cons, List.nodup_cons] at hnd
    rcases List.mem_cons.1 he with rfl | he
    · simp [AnyMap.get]
    · have hne : k0 ≠ e.1 := by
        intro heq
        exact hnd.1 (heq ▸ List.mem_map_of_mem Prod.fst he)
      simp [AnyMap.get, hne, ih hnd.2 e he]

theorem AnyMap.mem_of_get {α : Type} :
    ∀ (m : AnyMap α) {k : String} {v : AnyVal α}, m.get k = some v → (k, v) ∈ m := by
  intro m
  induction m with
  | nil => intro k v h; simp [AnyMap.get] at h
  | cons e0 rest ih =>
    intro k v h
    obtain ⟨k0, v0⟩ := e0
    by_cases hk : k0 = k
    · simp [AnyMap.get, hk] at h
      simp [hk, h]
    · simp [AnyMap.get, hk] at h
      exact List.mem_cons_of_mem _ (ih h)

/-- The map after `Trim`, key by key. -/
theorem Trim_get {α : Type} (root : AnyMap α) (hkeys : (root.map Prod.fst).Nodup) :
    (Trim root).map Prod.fst = root.map Prod.fst ∧
    ∀ k, (Trim root).get k = (root.get k).map Trim.value := by
  obtain ⟨h1, h2, h3⟩ := Trim.foldl_get root root hkeys (AnyMap.get_of_mem root hkeys)
  refine ⟨h1, ?_⟩
  intro k
  cases hget : root.get k with
  | none =>
    have hk : k ∉ root.map Prod.fst := fun hk => by
      obtain ⟨e, he, hek⟩ := List.mem_map.1 hk
      have := AnyMap.get_of_mem root hkeys e he
      rw [hek, hget] at this
      simp at this
    have := h2 k hk
    rw [hget] at this
    simpa [Trim] using this
  | some v =>
    have := h3 (k, v) (AnyMap.mem_of_get root hget)
    simpa [Trim] using this

theorem Cut.of_take (s : List UInt8) :
    Cut s (if s.length > 1000 then s.take 1000 else s) := by
  by_cases hlen : s.length > 1000
  · simp only [hlen, if_true]
    exact ⟨by simp, List.take_prefix _ _, fun h => by omega⟩
  · simp only [hlen, if_false]
    exact ⟨by omega, List.prefix_refl _, fun _ => rfl⟩

theorem Trim.items_cut {α : Type} (arr : List (AnyElem α)) :
    List.Forall₂ CutElem arr (Trim.items arr) := by
  induction arr with
  | nil => exact List.Forall₂.nil
  | cons val rest ih =>
    refine List.Forall₂.cons ?_ ih
    cases val with
    | str s =>
      by_cases hlen : s.length > 1000
      · have := Cut.of_take s
        simpa [CutElem, hlen] using this
      · have := Cut.of_take s
        simpa [CutElem, hlen] using this
    | other o => simp [CutElem]

/-! ## Safety of the builder on the supported input shape -/

theorem UnmarshalXML.loop_safe (pf : String → Option Float64) (start : String) (fails : Bool) :
    ∀ (toks : List Token) (opened : List String) (text child : Bool) (h : Heap)
      (path : List Nat), Supported start toks opened text child = true →
      Safe h path opened child →
      (UnmarshalXML.loop pf start fails toks h path).status ≠ BuildStatus.panicIndex ∧
      (UnmarshalXML.loop pf start fails toks h path).status ≠ BuildStatus.panicAssert := by
  intro toks
  induction toks with
  | nil =>
    intro opened text child h path _ _
    cases fails <;> simp [UnmarshalXML.loop]
  | cons tok rest ih =>
    intro opened text child h path hs hsafe
    obtain ⟨hlen, hpw, hlt, hname⟩ := hsafe
    cases tok with
    | StartElement n =>
      simp only [Supported, Bool.and_eq_true] at hs
      cases path with
      | nil => simp at hlen
      | cons top below =>
        simp only [UnmarshalXML.loop]
        apply ih (n :: opened) false false _ _ hs.2
        have htop : top < h.length := hlt top (List.mem_cons_self _ _)
        refine ⟨by simp [hlen], ?_, ?_, ?_⟩
        · refine List.Pairwise.cons ?_ hpw
          intro a ha
          exact hlt a ha
        · intro a ha
          simp only [Heap.length_assign, List.length_append, List.length_singleton]
          rcases List.mem_cons.1 ha with rfl | ha
          · omega
          · exact Nat.lt_succ_of_lt (hlt a ha)
        · intro _ m hm a ha
          simp only [List.head?_cons, Option.mem_def, Option.some.injEq] at hm ha
          subst hm
          subst ha
          rw [Heap.cell_assign_of_ne _ n _ (by omega : h.length ≠ top),
            Heap.cell_append_length]
          simp [GoMap.get]
    | EndElement n =>
      cases opened with
      | nil =>
        simp only [Supported, decide_eq_true_eq] at hs
        cases path with
        | nil => simp at hlen
        | cons top below => simp [UnmarshalXML.loop, hs]
      | cons m ms =>
        simp only [Supported, Bool.and_eq_true, decide_eq_true_eq] at hs
        cases path with
        | nil => simp at hlen
        | cons top below =>
          simp only [UnmarshalXML.loop]
          split
          · simp
          · apply ih ms false true _ _ hs.2
            refine ⟨by simpa using hlen, (List.pairwise_cons.1 hpw).2,
              fun a ha => hlt a (List.mem_cons_of_mem _ ha), ?_⟩
            intro hfalse
            simp at hfalse
    | CharData s =>
      by_cases hblank : TrimSpace s = ""
      · simp only [Supported, hblank, if_true] at hs
        simp only [UnmarshalXML.loop, hblank, if_true]
        exact ih opened text child h path hs ⟨hlen, hpw, hlt, hname⟩
      · simp only [Supported, hblank, if_false, Bool.and_eq_true, Bool.not_eq_true',
          List.isEmpty_eq_false] at hs
        obtain ⟨⟨hopen, hchild⟩, hrest⟩ := hs
        cases opened with
        | nil => simp at hopen
        | cons m ms =>
          cases path with
          | nil => simp at hlen
          | cons top below =>
            cases below with
            | nil => simp at hlen
            | cons parent below' =>
              have hcur : (Heap.cell h top).get "_" = some (Val.str m) :=
                hname hchild m (by simp) top (by simp)
              have hne : top ≠ parent := by
                have := (List.pairwise_cons.1 hpw).1 parent (List.mem_cons_self _ _)
                omega
              simp only [UnmarshalXML.loop, hblank, if_false, hcur]
              apply ih (m :: ms) true child _ _ hrest
              refine ⟨hlen, hpw, ?_, ?_⟩
              · intro a ha
                rw [Heap.length_assign]
                exact hlt a ha
              · intro _ m' hm' a ha
                simp only [List.head?_cons, Option.mem_def, Option.some.injEq] at hm' ha
                subst hm'
                subst ha
                rw [Heap.cell_assign_of_ne _ _ _ hne]
                exact hcur
    | Comment =>
      simp only [Supported] at hs
      simp only [UnmarshalXML.loop]
      exact ih opened text child h path hs ⟨hlen, hpw, hlt, hname⟩
    | ProcInst =>
      simp only [Supported] at hs
      simp only [UnmarshalXML.loop]
      exact ih opened text child h path hs ⟨hlen, hpw, hlt, hname⟩
    | Directive =>
      simp only [Supported] at hs
      simp only [UnmarshalXML.loop]
      exact ih opened text child h path hs ⟨hlen, hpw, hlt, hname⟩

/-! ## Text directly inside a child of the record -/

theorem lastText_charData_blank (s : String) (rest : List Token) (d : Nat)
    (hblank : TrimSpace s = "") :
    lastText (Token.CharData s :: rest) d = lastText rest d := by
  simp only [lastText, hblank]
  cases lastText rest d <;> simp

theorem lastText_charData_deep (s : String) (rest : List Token) (d : Nat) :
    lastText (Token.CharData s :: rest) (d + 1) = lastText rest (d + 1) := by
  simp only [lastText]
  cases lastText rest (d + 1) <;> simp

theorem UnmarshalXML.loop_text (pf : String → Option Float64) (start : String) (fails : Bool)
    (tail : List Token) :
    ∀ (toks : List Token) (opened : List String) (addrs : List Nat) (h : Heap) (n : String)
      (d : Nat),
      Clean start toks opened = true → Frames start h addrs opened → 0 < h.length →
      opened.length = d + 1 → opened.getLast? = some n → n ∉ childNames toks (d + 1) →
      ∃ h', UnmarshalXML.loop pf start fails (toks ++ tail) h (addrs ++ [0]) =
              UnmarshalXML.loop pf start fails tail h' [0] ∧
            (Heap.cell h' 0).get n =
              (lastText toks d).elim ((Heap.cell h 0).get n)
                (fun v => some (typeConvert pf (TrimSpace v))) := by
  intro toks
  induction toks with
  | nil =>
    intro opened addrs h n d hc _ _ hlen _ _
    cases opened with
    | nil => simp at hlen
    | cons m ms => simp [Clean] at hc
  | cons tok rest ih =>
    intro opened addrs h n d hc hf hpos hlen hlast hnot
    cases opened with
    | nil => simp at hlen
    | cons o os =>
      cases addrs with
      | nil => simp [Frames] at hf
      | cons a as =>
        have ha : a < h.length := Frames.lt_length hf a (List.mem_cons_self _ _)
        have ha0 : 0 < a := hf.1
        cases tok with
        | StartElement m =>
          simp only [Clean, Bool.and_eq_true, decide_eq_true_eq] at hc
          obtain ⟨⟨hm1, hm2⟩, hrest⟩ := hc
          have hnew : Frames start
              (Heap.assign (h ++ [[("_", Val.str m)]]) a m (Val.ref h.length))
              (h.length :: a :: as) (m :: o :: os) := by
            have hne : h.length ≠ a := by omega
            refine ⟨hpos, hm1, hm2, ?_, Frames.assign a _ hm1 (Frames.heap_append _ hf)⟩
            rw [Heap.cell_assign_of_ne _ m _ hne, Heap.cell_append_length]
            simp [GoMap.get]
          obtain ⟨h', heq, hval⟩ := ih (m :: o :: os) (h.length :: a :: as) _ n (d + 1) hrest
            hnew (by simp [Heap.length_assign]) (by simpa using hlen)
            (by simpa [List.getLast?_cons_cons] using hlast)
            (by simpa [childNames] using hnot)
          refine ⟨h', by simpa [UnmarshalXML.loop] using heq, ?_⟩
          rw [hval, Heap.cell_assign_of_ne _ m _ (by omega : (0 : Nat) ≠ a),
            Heap.cell_append_of_lt _ _ hpos]
          simp [lastText]
        | EndElement m =>
          simp only [Clean, Bool.and_eq_true, decide_eq_true_eq] at hc
          obtain ⟨hmo, hrest⟩ := hc
          subst hmo
          have hms : m ≠ start := hf.2.2.1
          cases os with
          | nil =>
            cases as with
            | cons b bs => simp [Frames] at hf
            | nil =>
              have hd : d = 0 := by simpa using hlen.symm
              subst hd
              have hnm : n = m := by simpa using hlast.symm
              obtain ⟨h', heq, -, hroot⟩ := UnmarshalXML.loop_clean pf start fails tail rest []
                [] h hrest (by simp [Frames]) hpos
              refine ⟨h', by simpa [UnmarshalXML.loop, hms] using heq, ?_⟩
              rw [hroot n (by simpa [childNames] using hnot) (by simp)]
              simp [lastText]
          | cons o' os' =>
            cases as with
            | nil => simp [Frames] at hf
            | cons b bs =>
              obtain ⟨d', hd'⟩ : ∃ d', d = d' + 1 := ⟨os'.length, by simpa using hlen.symm⟩
              subst hd'
              obtain ⟨h', heq, hval⟩ := ih (o' :: os') (b :: bs) h n d' hrest hf.2.2.2.2 hpos
                (by simpa using hlen) (by simpa [List.getLast?_cons_cons] using hlast)
                (by simpa [childNames] using hnot)
              refine ⟨h', by simpa [UnmarshalXML.loop, hms] using heq, ?_⟩
              rw [hval]
              simp [lastText]
        | CharData s =>
          simp only [Clean, Bool.and_eq_true, Bool.or_eq_true, decide_eq_true_eq] at hc
          obtain ⟨-, hrest⟩ := hc
          by_cases hblank : TrimSpace s = ""
          · obtain ⟨h', heq, hval⟩ := ih (o :: os) (a :: as) h n d hrest hf hpos hlen hlast
              (by simpa [childNames] using hnot)
            refine ⟨h', by simpa [UnmarshalXML.loop, hblank] using heq, ?_⟩
            rw [hval, lastText_charData_blank s rest d hblank]
          · have hcur : (Heap.cell h a).get "_" = some (Val.str o) := hf.2.2.2.1
            have ho : o ≠ "_" := hf.2.1
            cases as with
            | nil =>
              cases os with
              | cons o' os' => simp [Frames] at hf
              | nil =>
                have hd : d = 0 := by simpa using hlen.symm
                subst hd
                have hnm : n = o := by simpa using hlast.symm
                subst hnm
                obtain ⟨h', heq, hval⟩ := ih [n] [a]
                  (Heap.assign h 0 n (typeConvert pf (TrimSpace s))) n 0 hrest
                  (Frames.assign 0 _ ho hf) (by simpa [Heap.length_assign] using hpos) hlen
                  hlast (by simpa [childNames] using hnot)
                refine ⟨h', by simpa [UnmarshalXML.loop, hblank, hcur] using heq, ?_⟩
                rw [hval, Heap.cell_assign_self _ n _ hpos, GoMap.get_set_self]
                simp only [lastText]
                cases lastText rest 0 <;> simp [hblank]
            | cons b bs =>
              cases os with
              | nil => simp [Frames] at hf
              | cons o' os' =>
                have hb0 : 0 < b := hf.2.2.2.2.1
                obtain ⟨d', hd'⟩ : ∃ d', d = d' + 1 := ⟨os'.length, by simpa using hlen.symm⟩
                subst hd'
                obtain ⟨h', heq, hval⟩ := ih (o :: o' :: os') (a :: b :: bs)
                  (Heap.assign h b o (typeConvert pf (TrimSpace s))) n (d' + 1) hrest
                  (Frames.assign b _ ho hf) (by simpa [Heap.length_assign] using hpos) hlen
                  hlast (by simpa [childNames] using hnot)
                refine ⟨h', by simpa [UnmarshalXML.loop, hblank, hcur] using heq, ?_⟩
                rw [hval, Heap.cell_assign_of_ne _ o _ (by omega : (0 : Nat) ≠ b),
                  lastText_charData_deep]
        | Comment =>
          obtain ⟨h', heq, hval⟩ := ih (o :: os) (a :: as) h n d (by simpa [Clean] using hc) hf
            hpos hlen hlast (by simpa [childNames] using hnot)
          exact ⟨h', by simpa [UnmarshalXML.loop] using heq, by rw [hval]; simp [lastText]⟩
        | ProcInst =>
          obtain ⟨h', heq, hval⟩ := ih (o :: os) (a :: as) h n d (by simpa [Clean] using hc) hf
            hpos hlen hlast (by simpa [childNames] using hnot)
          exact ⟨h', by simpa [UnmarshalXML.loop] using heq, by rw [hval]; simp [lastText]⟩
        | Directive =>
          obtain ⟨h', heq, hval⟩ := ih (o :: os) (a :: as) h n d (by simpa [Clean] using hc) hf
            hpos hlen hlast (by simpa [childNames] using hnot)
          exact ⟨h', by simpa [UnmarshalXML.loop] using heq, by rw [hval]; simp [lastText]⟩

/-! ## Runs without panic -/

theorem ParseToJob_ok_title (x : RawListing) (job : Job) (h : x.ParseToJob = Except.ok job) :
    asString (x.root.get "title") ≠ none := by
  intro hnone
  unfold RawListing.ParseToJob at h
  rw [hnone] at h
  simp at h

theorem ParseXML.dispatch_result (chatly : Nat → RawListing → Except String Job)
    (st : LoopState) (root : RawListing) :
    (ParseXML.dispatch chatly st root).2 = root.ParseToJob ∨
      (ParseXML.dispatch chatly st root).2 = chatly st.trace.length root := by
  unfold ParseXML.dispatch
  split
  · exact Or.inr rfl
  · exact Or.inl rfl

theorem ParseXML.loop_no_panic (pf : String → Option Float64)
    (chatly : Nat → RawListing → Except String Job) (marshal : Job → String) (w : Writer)
    (fails : Bool) :
    ∀ (fuel : Nat) (toks : List Token) (st : LoopState),
      builds pf fails fuel toks = true →
      (∀ x ∈ records pf fails fuel toks, ∀ n job, chatly n x = Except.ok job →
        asString (x.root.get "title") ≠ none) →
      (ParseXML.loop pf chatly marshal w fails fuel toks st).outcome ≠ Outcome.panicked := by
  intro fuel
  induction fuel with
  | zero => intro toks st _ _; simp [ParseXML.loop]
  | succ fuel ih =>
    intro toks st
    cases toks with
    | nil =>
      intro _ _
      simp only [ParseXML.loop]
      split
      · simp
      · split <;> simp
    | cons tok rest =>
      cases tok with
      | StartElement n =>
        simp only [ParseXML.loop, builds, records]
        split
        · split
          · intro hb; simp at hb
          · intro hb; simp at hb
          · intro hb htitle
            have hres := ParseXML.dispatch_result chatly st
              ⟨(UnmarshalXML pf n ⟨rest, fails⟩).heap⟩
            have hrest : ∀ x ∈ records pf fails fuel (UnmarshalXML pf n ⟨rest, fails⟩).rest,
                ∀ k job, chatly k x = Except.ok job → asString (x.root.get "title") ≠ none :=
              fun x hx => htitle x (List.mem_cons_of_mem _ hx)
            split
            · exact ih _ _ hb hrest
            · rename_i st1 job heq
              rw [heq] at hres
              simp only at hres
              have ht : asString
                  ((RawListing.root ⟨(UnmarshalXML pf n ⟨rest, fails⟩).heap⟩).get "title") ≠
                    none := by
                rcases hres with h | h
                · exact ParseToJob_ok_title _ job h.symm
                · exact htitle _ (List.mem_cons_self _ _) _ job h.symm
              split
              · exact ih _ _ hb hrest
              · split
                · exact ih _ _ hb hrest
                · rename_i hnone
                  exact absurd hnone ht
        · intro hb htitle
          exact ih rest st hb htitle
      | EndElement n => simpa [ParseXML.loop, builds, records] using ih rest st
      | CharData text => simpa [ParseXML.loop, builds, records] using ih rest st
      | Comment => simpa [ParseXML.loop, builds, records] using ih rest st
      | ProcInst => simpa [ParseXML.loop, builds, records] using ih rest st
      | Directive => simpa [ParseXML.loop, builds, records] using ih rest st

theorem ParseXML.loop_results (pf : String → Option Float64)
    (chatly : Nat → RawListing → Except String Job) (marshal : Job → String) (w : Writer)
    (fails : Bool) :
    ∀ (fuel : Nat) (toks : List Token) (st : LoopState),
      (∀ t ∈ st.trace, (t.strategy = Strategy.rules ∧ t.result = t.listing.ParseToJob) ∨
        (t.strategy = Strategy.chatly ∧ ∃ n, t.result = chatly n t.listing)) →
      ∀ t ∈ (ParseXML.loop pf chatly marshal w fails fuel toks st).state.trace,
        (t.strategy = Strategy.rules ∧ t.result = t.listing.ParseToJob) ∨
        (t.strategy = Strategy.chatly ∧ ∃ n, t.result = chatly n t.listing) := by
  intro fuel
  induction fuel with
  | zero => intro toks st h; simpa [ParseXML.loop] using h
  | succ fuel ih =>
    intro toks st hst
    cases toks with
    | nil =>
      simp only [ParseXML.loop]
      split
      · exact hst
      · split <;> exact hst
    | cons tok rest =>
      cases tok with
      | StartElement n =>
        simp only [ParseXML.loop]
        split
        · split
          · exact hst
          · exact hst
          · have hd : ∀ t ∈ (ParseXML.dispatch chatly st
                ⟨(UnmarshalXML pf n ⟨rest, fails⟩).heap⟩).1.trace,
                (t.strategy = Strategy.rules ∧ t.result = t.listing.ParseToJob) ∨
                (t.strategy = Strategy.chatly ∧ ∃ k, t.result = chatly k t.listing) := by
              unfold ParseXML.dispatch
              split
              · intro t ht
                simp only [List.mem_append, List.mem_singleton] at ht
                rcases ht with ht | ht
                · exact hst t ht
                · subst ht
                  exact Or.inr ⟨rfl, _, rfl⟩
              · intro t ht
                simp only [List.mem_append, List.mem_singleton] at ht
                rcases ht with ht | ht
                · exact hst t ht
                · subst ht
                  exact Or.inl ⟨rfl, rfl⟩
            split
            · rename_i st1 e heq
              rw [heq] at hd
              exact ih _ st1 hd
            · rename_i st1 job heq
              rw [heq] at hd
              split
              · exact ih _ _ hd
              · split
                · exact ih _ _ hd
                · exact hd
        · exact ih rest st hst
      | EndElement n => simpa [ParseXML.loop] using ih rest st hst
      | CharData text => simpa [ParseXML.loop] using ih rest st hst
      | Comment => simpa [ParseXML.loop] using ih rest st hst
      | ProcInst => simpa [ParseXML.loop] using ih rest st hst
      | Directive => simpa [ParseXML.loop] using ih rest st hst

/-! ## The scan of `readFloat` on base-10 texts -/

theorem isDigit_ne_underscore {c : Char} (h : c.isDigit = true) : c ≠ '_' := by
  rintro rfl
  exact absurd h (by decide)

theorem isDigit_ne_point {c : Char} (h : c.isDigit = true) : c ≠ '.' := by
  rintro rfl
  exact absurd h (by decide)

theorem readFloat.digits_fraction :
    ∀ (cs : List Char) (st : Mantissa), st.sawdot = true → '_' ∉ cs →
      (readFloat.digits false cs st).2 = cs.dropWhile Char.isDigit ∧
      (readFloat.digits false cs st).1.sawdigits =
        (st.sawdigits || !(cs.takeWhile Char.isDigit).isEmpty) ∧
      (readFloat.digits false cs st).1.underscores = st.underscores := by
  intro cs
  induction cs with
  | nil => intro st _ _; simp [readFloat.digits]
  | cons c rest ih =>
    intro st hdot hno
    have hc : c ≠ '_' := fun h => hno (h ▸ List.mem_cons_self _ _)
    have hrest : '_' ∉ rest := fun h => hno (List.mem_cons_of_mem _ h)
    by_cases hd : c.isDigit = true
    · have hp := isDigit_ne_point hd
      simp only [readFloat.digits, hc, hp, hd, if_true, if_false, List.dropWhile_cons_of_pos,
        List.takeWhile_cons_of_pos]
      split
      · obtain ⟨h1, h2, h3⟩ := ih { st with sawdigits := true, dp := st.dp - 1 } hdot hrest
        exact ⟨h1, by simp [h2], h3⟩
      · obtain ⟨h1, h2, h3⟩ := ih
          { st with sawdigits := true, nd := st.nd + 1,
                    mantissa := st.mantissa * 10 + (c.toNat - 48) } hdot hrest
        refine ⟨h1, ?_, h3⟩
        simp [h2]
    · by_cases hp : c = '.'
      · subst hp
        simp [readFloat.digits, hdot]
      · simp [readFloat.digits, hc, hp, hd]

theorem afterPoint_of_ne {c : Char} (rest : List Char) (h : c ≠ '.') :
    afterPoint (c :: rest) = none := by
  unfold afterPoint
  split
  · rename_i r heq
    simp only [List.cons.injEq] at heq
    exact absurd heq.1 h
  · rfl

theorem readFloat.digits_integer :
    ∀ (cs : List Char) (st : Mantissa), st.sawdot = false → '_' ∉ cs →
      (readFloat.digits false cs st).2 =
        (match afterPoint (cs.dropWhile Char.isDigit) with
          | some r => r.dropWhile Char.isDigit
          | none => cs.dropWhile Char.isDigit) ∧
      (readFloat.digits false cs st).1.sawdigits =
        (st.sawdigits || !(cs.takeWhile Char.isDigit).isEmpty ||
          (match afterPoint (cs.dropWhile Char.isDigit) with
            | some r => !(r.takeWhile Char.isDigit).isEmpty
            | none => false)) ∧
      (readFloat.digits false cs st).1.underscores = st.underscores := by
  intro cs
  induction cs with
  | nil => intro st _ _; simp [readFloat.digits, afterPoint]
  | cons c rest ih =>
    intro st hdot hno
    have hc : c ≠ '_' := fun h => hno (h ▸ List.mem_cons_self _ _)
    have hrest : '_' ∉ rest := fun h => hno (List.mem_cons_of_mem _ h)
    by_cases hd : c.isDigit = true
    · have hp := isDigit_ne_point hd
      simp only [readFloat.digits, hc, hp, hd, if_true, if_false, List.dropWhile_cons_of_pos,
        List.takeWhile_cons_of_pos]
      split
      · obtain ⟨h1, h2, h3⟩ := ih { st with sawdigits := true, dp := st.dp - 1 } hdot hrest
        exact ⟨h1, by simp [h2], h3⟩
      · obtain ⟨h1, h2, h3⟩ := ih
          { st with sawdigits := true, nd := st.nd + 1,
                    mantissa := st.mantissa * 10 + (c.toNat - 48) } hdot hrest
        refine ⟨h1, ?_, h3⟩
        simp [h2]
    · by_cases hp : c = '.'
      · subst hp
        obtain ⟨h1, h2, h3⟩ := readFloat.digits_fraction rest
          { st with sawdot := true, dp := st.nd } rfl hrest
        simp only [readFloat.digits, hc, hdot, if_false, Bool.false_eq_true]
        simp only [List.dropWhile_cons_of_neg hd, List.takeWhile_cons_of_neg hd, afterPoint]
        refine ⟨h1, ?_, h3⟩
        simp [h2]
      · simp only [readFloat.digits, hc, hp, hd, if_false, List.dropWhile_cons_of_neg hd,
          List.takeWhile_cons_of_neg hd, afterPoint_of_ne rest hp]
        simp

theorem readFloat.expDigits_rest :
    ∀ (cs : List Char) (e : Nat) (u : Bool), '_' ∉ cs →
      (readFloat.expDigits cs e u).2.2 = cs.dropWhile Char.isDigit ∧
      (readFloat.expDigits cs e u).2.1 = u := by
  intro cs
  induction cs with
  | nil => intro e u _; simp [readFloat.expDigits]
  | cons c rest ih =>
    intro e u hno
    have hc : c ≠ '_' := fun h => hno (h ▸ List.mem_cons_self _ _)
    have hrest : '_' ∉ rest := fun h => hno (List.mem_cons_of_mem _ h)
    by_cases hd : c.isDigit = true
    · simp only [readFloat.expDigits, hc, hd, if_true, if_false, List.dropWhile_cons_of_pos]
      exact ih _ u hrest
    · simp [readFloat.expDigits, hc, hd]

theorem unsign_cons (d : Char) (r : List Char) :
    unsign (d :: r) = if d = '+' ∨ d = '-' then r else d :: r := by
  unfold unsign
  split
  · rename_i r' heq
    simp only [List.cons.injEq] at heq
    simp [heq.1, heq.2]
  · rename_i r' heq
    simp only [List.cons.injEq] at heq
    simp [heq.1, heq.2]
  · rename_i h1 h2
    have hp : d ≠ '+' := fun h => h1 r (by rw [h])
    have hm : d ≠ '-' := fun h => h2 r (by rw [h])
    simp [hp, hm]

theorem unsign_subset (cs : List Char) : unsign cs ⊆ cs := by
  cases cs with
  | nil => simp [unsign]
  | cons d r =>
    rw [unsign_cons]
    split
    · exact List.subset_cons_self d r
    · exact List.Subset.refl _

theorem readFloat.exponent_tail (u : Bool) (cs : List Char) (hno : '_' ∉ cs) :
    (match readFloat.exponent false u cs with
      | some x => x.2.2.isEmpty
      | none => false) = exponentTail cs ∧
    ∀ x, readFloat.exponent false u cs = some x → x.2.1 = u := by
  cases cs with
  | nil => simp [readFloat.exponent, exponentTail]
  | cons c r =>
    have hr : '_' ∉ r := fun h => hno (List.mem_cons_of_mem _ h)
    by_cases he : c = 'e' ∨ c = 'E'
    · cases r with
      | nil => simp [readFloat.exponent, exponentTail, he, unsign]
      | cons d r1 =>
        have hu := unsign_cons d r1
        have hno2 : '_' ∉ unsign (d :: r1) := fun h => hr (unsign_subset _ h)
        simp only [readFloat.exponent, he, if_true, Bool.false_eq_true, if_false, exponentTail,
          decide_True, Bool.true_and]
        rw [← hu]
        cases hr2 : unsign (d :: r1) with
        | nil => simp
        | cons d2 r3 =>
          rw [hr2] at hno2
          by_cases hd : d2.isDigit = true
          · obtain ⟨h1, h2⟩ := readFloat.expDigits_rest (d2 :: r3) 0 u hno2
            simp only [hd, if_true]
            refine ⟨?_, ?_⟩
            · simp only [h1]
              simp [List.takeWhile_cons_of_pos hd]
            · intro x hx
              simp only [Option.some.injEq] at hx
              rw [← hx]
              exact h2
          · simp [hd, List.takeWhile_cons_of_neg hd]
    · have he' : ¬ (c = 'e' ∨ c = 'E') := he
      simp [readFloat.exponent, exponentTail, he']

theorem afterPoint_eq_some {cs r : List Char} (h : afterPoint cs = some r) : cs = '.' :: r := by
  unfold afterPoint at h
  split at h
  · simp only [Option.some.injEq] at h
    rw [h]
  · simp at h

theorem readFloat.unsigned_decimal (s : List Char) (neg : Bool) (u : List Char)
    (hno : '_' ∉ u) (hx : readFloat.isHex u = false) :
    (match readFloat.unsigned s neg u with
      | some p => p.rest.isEmpty
      | none => false) = readsDecimal u ∧
    ∀ p, readFloat.unsigned s neg u = some p → p.hex = false ∧ p.neg = neg := by
  obtain ⟨h1, h2, h3⟩ := readFloat.digits_integer u {} rfl hno
  have hsub : ∀ c ∈ (readFloat.digits false u {}).2, c ∈ u := by
    intro c hc
    rw [h1] at hc
    cases hap : afterPoint (u.dropWhile Char.isDigit) with
    | none =>
      rw [hap] at hc
      exact (List.dropWhile_suffix _).subset hc
    | some r =>
      rw [hap] at hc
      have hr := afterPoint_eq_some hap
      have hc1 : c ∈ r := (List.dropWhile_suffix _).subset hc
      have hc2 : c ∈ u.dropWhile Char.isDigit := by
        rw [hr]
        exact List.mem_cons_of_mem _ hc1
      exact (List.dropWhile_suffix _).subset hc2
  have hno2 : '_' ∉ (readFloat.digits false u {}).2 := fun h => hno (hsub _ h)
  obtain ⟨e1, e2⟩ := readFloat.exponent_tail (readFloat.digits false u {}).1.underscores
    (readFloat.digits false u {}).2 hno2
  have hund : (readFloat.digits false u {}).1.underscores = false := h3
  unfold readFloat.unsigned
  simp only [hx, Bool.false_eq_true, if_false]
  by_cases hsd : (readFloat.digits false u {}).1.sawdigits = false
  · simp only [hsd, if_true]
    refine ⟨?_, by simp⟩
    rw [h2] at hsd
    unfold readsDecimal
    cases hap : afterPoint (u.dropWhile Char.isDigit) with
    | none =>
      rw [hap] at hsd
      simp only [Bool.or_false, Bool.false_or] at hsd
      simp [hsd]
    | some r =>
      rw [hap] at hsd
      simp only [Bool.false_or, Bool.or_eq_false_iff] at hsd
      simp [hsd.1, hsd.2]
  · simp only [hsd, if_false, Bool.true_eq_false]
    have hsd' : (readFloat.digits false u {}).1.sawdigits = true := by
      cases h : (readFloat.digits false u {}).1.sawdigits
      · exact absurd h hsd
      · rfl
    cases hexp : readFloat.exponent false (readFloat.digits false u {}).1.underscores
        (readFloat.digits false u {}).2 with
    | none =>
      rw [hexp] at e1
      refine ⟨?_, by simp⟩
      simp only at e1 ⊢
      unfold readsDecimal
      rw [h1] at e1
      cases hap : afterPoint (u.dropWhile Char.isDigit) with
      | none =>
        rw [hap] at e1
        simp only at e1
        simp [← e1]
      | some r =>
        rw [hap] at e1
        simp only at e1
        simp [← e1]
    | some x =>
      obtain ⟨e, und, rest⟩ := x
      have hu := e2 _ hexp
      simp only at hu
      rw [hund] at hu
      rw [hexp] at e1
      simp only at e1
      simp only [hu, Bool.false_eq_true, false_and, if_false]
      refine ⟨?_, ?_⟩
      · show rest.isEmpty = readsDecimal u
        rw [e1]
        rw [h2] at hsd'
        unfold readsDecimal
        rw [h1]
        cases hap : afterPoint (u.dropWhile Char.isDigit) with
        | none =>
          rw [hap] at hsd'
          simp only [Bool.or_false, Bool.false_or] at hsd'
          simp [hsd']
        | some r =>
          rw [hap] at hsd'
          simp only [Bool.false_or] at hsd'
          simp [hsd']
      · intro p hp
        simp only [Option.some.injEq] at hp
        rw [← hp]
        exact ⟨rfl, rfl⟩

theorem readFloat_decimal (s : List Char) (hno : '_' ∉ s)
    (hx : readFloat.isHex (unsign s) = false) :
    (match readFloat s with
      | some p => p.rest.isEmpty
      | none => false) = readsDecimal (unsign s) ∧
    ∀ p, readFloat s = some p → p.hex = false ∧ p.neg = decide (s.head? = some '-') := by
  cases s with
  | nil => simp [readFloat, readsDecimal, unsign, afterPoint]
  | cons c r =>
    have hu := unsign_cons c r
    have hno' : '_' ∉ unsign (c :: r) := fun h => hno (unsign_subset _ h)
    by_cases hp : c = '+'
    · have h := readFloat.unsigned_decimal (c :: r) false (unsign (c :: r)) hno' hx
      simp only [hp, true_or, if_true] at hu
      simp only [readFloat, hp, if_true]
      rw [hp, hu] at h
      exact ⟨h.1, fun p hp' => ⟨(h.2 p hp').1, by rw [(h.2 p hp').2]; simp⟩⟩
    · by_cases hm : c = '-'
      · have h := readFloat.unsigned_decimal (c :: r) true (unsign (c :: r)) hno' hx
        simp only [hm, or_true, if_true] at hu
        have hne : ('-' : Char) ≠ '+' := by decide
        simp only [readFloat, hm, hne, if_false, if_true]
        rw [hm, hu] at h
        exact ⟨h.1, fun p hp' => ⟨(h.2 p hp').1, by rw [(h.2 p hp').2]; simp⟩⟩
      · have h := readFloat.unsigned_decimal (c :: r) false (unsign (c :: r)) hno' hx
        simp only [hp, hm, or_self, if_false] at hu
        simp only [readFloat, hp, hm, if_false]
        rw [hu] at h ⊢
        refine ⟨h.1, fun p hp' => ⟨(h.2 p hp').1, ?_⟩⟩
        rw [(h.2 p hp').2]
        simp [hm]

theorem isDecimalLiteral_eq (s : String) :
    isDecimalLiteral s = (readsDecimal (unsign s.data) && !hasBarePoint s) := by
  unfold isDecimalLiteral readsDecimal hasBarePoint
  cases afterPoint ((unsign s.data).dropWhile Char.isDigit) with
  | none => simp
  | some r =>
    simp only
    cases ((unsign s.data).takeWhile Char.isDigit).isEmpty <;>
      cases (r.takeWhile Char.isDigit).isEmpty <;> simp

theorem not_mem_takeWhile_isDigit (cs : List Char) : '_' ∉ cs.takeWhile Char.isDigit := by
  intro h
  have := List.mem_takeWhile_imp h
  exact absurd this (by decide)

theorem not_mem_of_dropWhile {cs : List Char} (h : '_' ∉ cs.dropWhile Char.isDigit) :
    '_' ∉ cs := by
  intro hmem
  rw [← List.takeWhile_append_dropWhile Char.isDigit cs, List.mem_append] at hmem
  rcases hmem with h1 | h1
  · exact not_mem_takeWhile_isDigit cs h1
  · exact h h1

theorem not_mem_of_unsign {cs : List Char} (h : '_' ∉ unsign cs) : '_' ∉ cs := by
  cases cs with
  | nil => simp
  | cons d r =>
    rw [unsign_cons] at h
    split at h
    · rename_i hd
      intro hmem
      rcases List.mem_cons.1 hmem with h1 | h1
      · rcases hd with hd | hd
        · rw [← h1] at hd; exact absurd hd (by decide)
        · rw [← h1] at hd; exact absurd hd (by decide)
      · exact h h1
    · exact h

theorem exponentTail_chars {cs : List Char} (h : exponentTail cs = true) : '_' ∉ cs := by
  cases cs with
  | nil => simp
  | cons c r =>
    simp only [exponentTail, Bool.and_eq_true, Bool.not_eq_true', decide_eq_true_eq,
      List.isEmpty_iff] at h
    obtain ⟨⟨hc, -⟩, hdrop⟩ := h
    have hr : '_' ∉ r := by
      apply not_mem_of_unsign
      apply not_mem_of_dropWhile
      rw [hdrop]
      simp
    intro hmem
    rcases List.mem_cons.1 hmem with h1 | h1
    · rcases hc with hc | hc
      · rw [← h1] at hc; exact absurd hc (by decide)
      · rw [← h1] at hc; exact absurd hc (by decide)
    · exact hr h1

theorem readsDecimal_chars {u : List Char} (h : readsDecimal u = true) : '_' ∉ u := by
  unfold readsDecimal at h
  apply not_mem_of_dropWhile
  cases hap : afterPoint (u.dropWhile Char.isDigit) with
  | none =>
    rw [hap] at h
    simp only [Bool.and_eq_true] at h
    exact exponentTail_chars h.2
  | some r =>
    rw [hap] at h
    simp only [Bool.and_eq_true] at h
    rw [afterPoint_eq_some hap]
    intro hmem
    rcases List.mem_cons.1 hmem with h1 | h1
    · exact absurd h1 (by decide)
    · exact not_mem_of_dropWhile (exponentTail_chars h.2) h1

theorem readsDecimal_not_hex {u : List Char} (h : readsDecimal u = true) :
    readFloat.isHex u = false := by
  unfold readFloat.isHex
  split
  · rename_i x c r
    by_cases hx : x = 'x' ∨ x = 'X'
    · exfalso
      have h0 : Char.isDigit '0' = true := by decide
      have hxd : x.isDigit = false := by
        rcases hx with hx | hx <;> rw [hx] <;> decide
      have hxp : x ≠ '.' := by
        rcases hx with hx | hx <;> rw [hx] <;> decide
      have hxe : ¬ (x = 'e' ∨ x = 'E') := by
        rcases hx with hx | hx <;> rw [hx] <;> decide
      have hnd : ¬ x.isDigit = true := by rw [hxd]; simp
      simp only [readsDecimal, List.dropWhile_cons_of_pos h0, List.takeWhile_cons_of_pos h0,
        List.dropWhile_cons_of_neg hnd, afterPoint_of_ne _ hxp, exponentTail, hxe,
        decide_False, Bool.false_and, Bool.and_false] at h
      exact absurd h (by decide)
    · simp [hx]
  · rfl

theorem beginsHex_isHex {s : String} (h : beginsHex s = false) :
    readFloat.isHex (unsign s.data) = false := by
  unfold beginsHex at h
  unfold readFloat.isHex
  split
  · rename_i x c r heq
    rw [heq] at h
    simpa using h
  · rfl

theorem isDigit_toNat {c : Char} (h : c.isDigit = true) : 48 ≤ c.toNat ∧ c.toNat ≤ 57 := by
  simp only [Char.isDigit, Bool.and_eq_true, decide_eq_true_eq] at h
  exact ⟨h.1, h.2⟩

theorem head_isDigit {u : List Char} (h : (!(u.takeWhile Char.isDigit).isEmpty) = true) :
    ∃ d r, u = d :: r ∧ d.isDigit = true := by
  cases u with
  | nil => simp at h
  | cons d r =>
    by_cases hd : d.isDigit = true
    · exact ⟨d, r, rfl, hd⟩
    · simp [List.takeWhile_cons_of_neg hd] at h

theorem special.inf_digit (neg : Bool) {d : Char} (r : List Char) (nsign : Nat)
    (hd : d.isDigit = true) : special.inf neg (d :: r) nsign = none := by
  have hb := isDigit_toNat hd
  have hdata : "infinity".data = ['i', 'n', 'f', 'i', 'n', 'i', 't', 'y'] := rfl
  have hi : ('i' : Char).toNat = 105 := rfl
  have h0 : commonPrefixLenIgnoreCase (d :: r) "infinity".data = 0 := by
    rw [hdata]
    unfold commonPrefixLenIgnoreCase
    rw [hi]
    split
    · rw [if_neg (by omega)]
    · rw [if_neg (by omega)]
  unfold special.inf
  simp [h0]

theorem special_digit {s : List Char} {d : Char} {r : List Char} (hu : unsign s = d :: r)
    (hd : d.isDigit = true) : special s = none := by
  cases s with
  | nil => rfl
  | cons c rest =>
    rw [unsign_cons] at hu
    unfold special
    by_cases hp : c = '+'
    · simp only [hp, true_or, if_true] at hu ⊢
      rw [hu]
      exact special.inf_digit false r 1 hd
    · by_cases hm : c = '-'
      · have hne : ('-' : Char) ≠ '+' := by decide
        simp only [hm, or_true, if_true, hne, if_false] at hu ⊢
        rw [hu]
        exact special.inf_digit true r 1 hd
      · simp only [hp, hm, or_self, if_false, List.cons.injEq] at hu ⊢
        rw [hu.1]
        have h1 : d ≠ 'i' := by rintro rfl; exact absurd hd (by decide)
        have h2 : d ≠ 'I' := by rintro rfl; exact absurd hd (by decide)
        have h3 : d ≠ 'n' := by rintro rfl; exact absurd hd (by decide)
        have h4 : d ≠ 'N' := by rintro rfl; exact absurd hd (by decide)
        simp [h1, h2, h3, h4]

theorem readFloat.digits_value :
    ∀ (ds : List Char) (st : Mantissa), (∀ c ∈ ds, c.isDigit = true) → st.sawdot = false →
      (st.nd = 0 → st.mantissa = 0) →
      (readFloat.digits false ds st).2 = [] ∧
      (readFloat.digits false ds st).1.sawdot = false ∧
      (readFloat.digits false ds st).1.mantissa =
        ds.foldl (fun n c => n * 10 + (c.toNat - 48)) st.mantissa ∧
      (readFloat.digits false ds st).1.underscores = st.underscores ∧
      (readFloat.digits false ds st).1.sawdigits = (st.sawdigits || !ds.isEmpty) := by
  intro ds
  induction ds with
  | nil => intro st _ hdot _; simp [readFloat.digits, hdot]
  | cons c rest ih =>
    intro st hall hdot hzero
    have hd : c.isDigit = true := hall c (List.mem_cons_self _ _)
    have hrest : ∀ x ∈ rest, x.isDigit = true := fun x hx => hall x (List.mem_cons_of_mem _ hx)
    have hc := isDigit_ne_underscore hd
    have hp := isDigit_ne_point hd
    simp only [readFloat.digits, hc, hp, hd, if_true, if_false, List.foldl_cons]
    split
    · rename_i hlead
      obtain ⟨h1, h2, h3, h4, h5⟩ := ih { st with sawdigits := true, dp := st.dp - 1 } hrest
        hdot hzero
      refine ⟨h1, h2, ?_, h4, by simp [h5]⟩
      rw [h3]
      have hm := hzero hlead.2
      have hv : c.toNat - 48 = 0 := by rw [hlead.1]; rfl
      simp only [hm, hv]
    · obtain ⟨h1, h2, h3, h4, h5⟩ := ih
        { st with sawdigits := true, nd := st.nd + 1,
                  mantissa := st.mantissa * 10 + (c.toNat - 48) } hrest hdot (by simp)
      exact ⟨h1, h2, h3, h4, by simp [h5]⟩

theorem readFloat_digits (ds : List Char) (hne : ds ≠ []) (hall : ∀ c ∈ ds, c.isDigit = true) :
    readFloat ds = some ⟨false, false, decimalValue ds, 0, []⟩ := by
  obtain ⟨h1, h2, h3, h4, h5⟩ := readFloat.digits_value ds {} hall rfl (fun _ => rfl)
  cases ds with
  | nil => exact absurd rfl hne
  | cons c r =>
    have hd : c.isDigit = true := hall c (List.mem_cons_self _ _)
    have hp : c ≠ '+' := by rintro rfl; exact absurd hd (by decide)
    have hm : c ≠ '-' := by rintro rfl; exact absurd hd (by decide)
    have hx : readFloat.isHex (c :: r) = false := by
      unfold readFloat.isHex
      split
      · rename_i x y t heq
        simp only [List.cons.injEq] at heq
        have hxd : x.isDigit = true := hall x (by rw [heq.2]; simp)
        have h6 : x ≠ 'x' := by rintro rfl; exact absurd hxd (by decide)
        have h7 : x ≠ 'X' := by rintro rfl; exact absurd hxd (by decide)
        simp [h6, h7]
      · rfl
    simp only [readFloat, hp, hm, if_false]
    unfold readFloat.unsigned
    simp only [hx, Bool.false_eq_true, if_false]
    rw [h5, h1, h4, h2, h3]
    simp [readFloat.exponent, decimalValue]

theorem ParseFloat_digits (ds : List Char) (hne : ds ≠ []) (hall : ∀ c ∈ ds, c.isDigit = true) :
    ParseFloat (String.mk ds) =
      if 0x7FF0000000000000 ≤ nearestBits (decimalValue ds) 1 then none
      else some ⟨nearestBits (decimalValue ds) 1⟩ := by
  obtain ⟨d, r, hds, hd⟩ : ∃ d r, ds = d :: r ∧ d.isDigit = true := by
    cases ds with
    | nil => exact absurd rfl hne
    | cons c r => exact ⟨c, r, rfl, hall c (List.mem_cons_self _ _)⟩
  have hu : unsign ds = d :: r := by
    rw [hds, unsign_cons]
    have hp : d ≠ '+' := by rintro rfl; exact absurd hd (by decide)
    have hm : d ≠ '-' := by rintro rfl; exact absurd hd (by decide)
    simp [hp, hm]
  unfold ParseFloat
  simp only [special_digit hu hd, readFloat_digits ds hne hall]
  simp [Parsed.float, Parsed.bits]

/-! ## The conversion is exact on the integers below `2 ^ 53` -/

theorem binaryExponent.foldl_spec (P : Nat → Bool) :
    ∀ (bs : List Nat) (acc top : Nat), P acc = true → (4096 ≤ top ∨ P top = false) →
      top = acc + 2 * bs.headD 0 ∨ (bs = [] ∧ top = acc + 1) →
      List.Chain' (fun a b => a = 2 * b) bs → bs.getLast? = some 1 ∨ bs = [] →
      P (bs.foldl (fun k b => if P (k + b) then k + b else k) acc) = true ∧
      (4096 ≤ bs.foldl (fun k b => if P (k + b) then k + b else k) acc + 1 ∨
        P (bs.foldl (fun k b => if P (k + b) then k + b else k) acc + 1) = false) := by
  intro bs
  induction bs with
  | nil =>
    intro acc top hacc htop hrel _ _
    rcases hrel with h | ⟨-, h⟩
    · simp at h
      subst h
      simp only [List.foldl_nil]
      refine ⟨hacc, ?_⟩
      rcases htop with h | h
      · exact Or.inl (by omega)
      · rw [hacc] at h; exact absurd h (by decide)
    · subst h
      exact ⟨hacc, htop⟩
  | cons b rest ih =>
    intro acc top hacc htop hrel hchain hlast
    have hb : top = acc + 2 * b := by
      rcases hrel with h | ⟨h, -⟩
      · simpa using h
      · exact absurd h (by simp)
    simp only [List.foldl_cons]
    have hchain' : List.Chain' (fun a b => a = 2 * b) rest := (List.chain'_cons'.1 hchain).2
    have hlast' : rest.getLast? = some 1 ∨ rest = [] := by
      cases rest with
      | nil => exact Or.inr rfl
      | cons c r =>
        rcases hlast with h | h
        · left; simpa [List.getLast?_cons_cons] using h
        · exact absurd h (by simp)
    have hrel' : ∀ acc', acc' + b = top ∨ acc' = acc → ∀ top', top' = acc' + b →
        top' = acc' + 2 * rest.headD 0 ∨ (rest = [] ∧ top' = acc' + 1) := by
      intro acc' _ top' htop'
      cases rest with
      | nil =>
        right
        refine ⟨rfl, ?_⟩
        rcases hlast with h | h
        · simp at h; omega
        · exact absurd h (by simp)
      | cons c r =>
        left
        have hbc : b = 2 * c := by
          have := (List.chain'_cons'.1 hchain).1 c (by simp)
          exact this
        simp only [List.headD_cons]
        omega
    by_cases hP : P (acc + b) = true
    · simp only [hP, if_true]
      exact ih (acc + b) top hP htop (hrel' (acc + b) (Or.inl (by omega)) top (by omega))
        hchain' hlast'
    · have hP' : P (acc + b) = false := by
        cases h : P (acc + b)
        · rfl
        · exact absurd h hP
      simp only [hP', Bool.false_eq_true, if_false]
      exact ih acc (acc + b) hacc (Or.inr hP') (hrel' acc (Or.inr rfl) (acc + b) rfl)
        hchain' hlast'

theorem atLeastPow2_iff (n k : Nat) :
    atLeastPow2 n 1 k = true ↔ 2 ^ (k - 1075) ≤ n * 2 ^ (1075 - k) := by
  simp [atLeastPow2, Nat.shiftLeft_eq]

theorem atLeastPow2_of_le (n k : Nat) (hpos : 0 < n) (hk : k ≤ 1075) :
    atLeastPow2 n 1 k = true := by
  rw [atLeastPow2_iff]
  have e : k - 1075 = 0 := by omega
  rw [e, pow_zero]
  exact Nat.mul_pos hpos (Nat.two_pow_pos _)

theorem binaryExponent_spec (n : Nat) (hpos : 0 < n) (hlt : n < 2 ^ 53) :
    ∃ l, l ≤ 52 ∧ binaryExponent n 1 = 1075 + l ∧ 2 ^ l ≤ n ∧ n < 2 ^ (l + 1) := by
  have h0 : atLeastPow2 n 1 0 = true := atLeastPow2_of_le n 0 hpos (Nat.zero_le _)
  obtain ⟨hK, hK1⟩ := binaryExponent.foldl_spec (atLeastPow2 n 1)
    [2048, 1024, 512, 256, 128, 64, 32, 16, 8, 4, 2, 1] 0 4096 h0 (Or.inl (Nat.le_refl _))
    (Or.inl rfl) (by simp) (Or.inl rfl)
  change atLeastPow2 n 1 (binaryExponent n 1) = true at hK
  change 4096 ≤ binaryExponent n 1 + 1 ∨ atLeastPow2 n 1 (binaryExponent n 1 + 1) = false
    at hK1
  generalize binaryExponent n 1 = K at hK hK1
  rw [atLeastPow2_iff] at hK
  have hge : 1075 ≤ K := by
    by_contra hcon
    have hKlt : K + 1 ≤ 1075 := by omega
    rcases hK1 with h | h
    · omega
    · have : atLeastPow2 n 1 (K + 1) = true := atLeastPow2_of_le n (K + 1) hpos hKlt
      rw [this] at h
      exact absurd h (by decide)
  have e2 : 1075 - K = 0 := by omega
  rw [e2, pow_zero, Nat.mul_one] at hK
  have hl : K - 1075 < 53 := by
    have h1 : 2 ^ (K - 1075) < 2 ^ 53 := Nat.lt_of_le_of_lt hK hlt
    exact (Nat.pow_lt_pow_iff_right (by decide)).1 h1
  refine ⟨K - 1075, by omega, by omega, hK, ?_⟩
  rcases hK1 with h | h
  · omega
  · have hnot : ¬ atLeastPow2 n 1 (K + 1) = true := by rw [h]; decide
    rw [atLeastPow2_iff] at hnot
    have e3 : 1075 - (K + 1) = 0 := by omega
    have e4 : K + 1 - 1075 = K - 1075 + 1 := by omega
    rw [e3, pow_zero, Nat.mul_one, e4] at hnot
    omega

theorem nearestBits_of_lt (n : Nat) (hpos : 0 < n) (hlt : n < 2 ^ 53) :
    ∃ l m, l ≤ 52 ∧ 2 ^ 52 ≤ m ∧ m < 2 ^ 53 ∧ m = n * 2 ^ (52 - l) ∧
      nearestBits n 1 = (1023 + l) * 2 ^ 52 + (m - 2 ^ 52) := by
  obtain ⟨l, hl, hK, hlo, hhi⟩ := binaryExponent_spec n hpos hlt
  have hA : 2 ^ (52 - l) * 2 ^ l = 2 ^ 52 := by
    have e : 52 - l + l = 52 := by omega
    rw [← pow_add, e]
  have hApos : 0 < 2 ^ (52 - l) := Nat.two_pow_pos _
  have hm1 : 2 ^ 52 ≤ n * 2 ^ (52 - l) := by
    rw [← hA, Nat.mul_comm n]
    exact Nat.mul_le_mul_left _ hlo
  have hm2 : n * 2 ^ (52 - l) < 2 ^ 53 := by
    have : 2 ^ 53 = 2 ^ (52 - l) * 2 ^ (l + 1) := by
      have e : 52 - l + (l + 1) = 53 := by omega
      rw [← pow_add, e]
    rw [this, Nat.mul_comm n]
    exact Nat.mul_lt_mul_of_pos_left hhi hApos
  refine ⟨l, n * 2 ^ (52 - l), hl, hm1, hm2, rfl, ?_⟩
  unfold nearestBits
  have hef : max (binaryExponent n 1 - 52) 1 = 1023 + l := by
    rw [hK]
    omega
  have e1 : 1075 - (1023 + l) = 52 - l := by omega
  have e2 : 1023 + l - 1075 = 0 := by omega
  simp only [hef, e1, e2, Nat.shiftLeft_eq, pow_zero, Nat.mul_one, Nat.div_one, Nat.mod_one]
  have hnlt : ¬ n * 2 ^ (52 - l) < 2 ^ 52 := Nat.not_lt.2 hm1
  have hin : ¬ (1 < 2 * 0 ∨ 2 * 0 = 1 ∧ n * 2 ^ (52 - l) % 2 = 1) := by omega
  rw [if_neg hin, if_neg hnlt]

theorem nearestBits_range (n : Nat) (hlt : n < 2 ^ 53) :
    nearestBits n 1 < 0x7FF0000000000000 := by
  rcases Nat.eq_zero_or_pos n with h0 | hpos
  · subst h0
    decide
  · obtain ⟨l, m, hl, hm1, hm2, -, hbits⟩ := nearestBits_of_lt n hpos hlt
    rw [hbits]
    have p52 : (2 : Nat) ^ 52 = 4503599627370496 := by norm_num
    have p53 : (2 : Nat) ^ 53 = 9007199254740992 := by norm_num
    rw [p52] at hm1 ⊢
    rw [p53] at hm2
    omega

theorem nearestBits_exact (n : Nat) (hlt : n < 2 ^ 53) :
    Float64.toNat? ⟨nearestBits n 1⟩ = some n := by
  rcases Nat.eq_zero_or_pos n with h0 | hpos
  · subst h0
    decide
  obtain ⟨l, m, hl, hm1, hm2, hm, hbits⟩ := nearestBits_of_lt n hpos hlt
  have hApos : 0 < 2 ^ (52 - l) := Nat.two_pow_pos _
  rw [hbits]
  unfold Float64.toNat?
  have p52 : (2 : Nat) ^ 52 = 4503599627370496 := by norm_num
  have p53 : (2 : Nat) ^ 53 = 9007199254740992 := by norm_num
  have p63 : (2 : Nat) ^ 63 = 9223372036854775808 := by norm_num
  rw [p52] at hm1 ⊢
  rw [p53] at hm2
  rw [p63]
  have hb0 : ¬ (1023 + l) * 4503599627370496 + (m - 4503599627370496) = 0 := by omega
  have hef : ((1023 + l) * 4503599627370496 + (m - 4503599627370496)) / 4503599627370496 %
      2048 = 1023 + l := by omega
  have hfr : 4503599627370496 +
      ((1023 + l) * 4503599627370496 + (m - 4503599627370496)) % 4503599627370496 = m := by
    omega
  have hsign : ¬ (9223372036854775808 ≤
      (1023 + l) * 4503599627370496 + (m - 4503599627370496) ∨ 1023 + l = 0 ∨
        1023 + l = 2047) := by omega
  simp only [hb0, if_false, hef, hfr, hsign]
  by_cases h52 : l = 52
  · subst h52
    simp at hm
    simp [hm]
  · have hlt52 : ¬ 1075 ≤ 1023 + l := by omega
    have e3 : 1075 - (1023 + l) = 52 - l := by omega
    simp only [hlt52, if_false, e3]
    rw [hm]
    simp [Nat.mul_div_cancel _ hApos]

/-! ## The number `readFloat` reads from a base-10 literal -/

theorem readFloat.digits_fraction_value :
    ∀ (cs : List Char) (st : Mantissa), st.sawdot = true → '_' ∉ cs →
      (st.nd = 0 → st.mantissa = 0) →
      (readFloat.digits false cs st).1.mantissa =
        (cs.takeWhile Char.isDigit).foldl (fun n c => n * 10 + (c.toNat - 48)) st.mantissa ∧
      (readFloat.digits false cs st).1.dp - (readFloat.digits false cs st).1.nd =
        st.dp - st.nd - (cs.takeWhile Char.isDigit).length ∧
      (readFloat.digits false cs st).1.sawdot = true := by
  intro cs
  induction cs with
  | nil => intro st hdot _ _; simp [readFloat.digits, hdot]
  | cons c rest ih =>
    intro st hdot hno hzero
    have hc : c ≠ '_' := fun h => hno (h ▸ List.mem_cons_self _ _)
    have hrest : '_' ∉ rest := fun h => hno (List.mem_cons_of_mem _ h)
    by_cases hd : c.isDigit = true
    · have hp := isDigit_ne_point hd
      simp only [readFloat.digits, hc, hp, hd, if_true, if_false, List.takeWhile_cons_of_pos,
        List.foldl_cons, List.length_cons, Bool.false_eq_true]
      split
      · rename_i hlead
        obtain ⟨h1, h2, h3⟩ := ih { st with sawdigits := true, dp := st.dp - 1 } hdot hrest
          hzero
        refine ⟨?_, ?_, h3⟩
        · rw [h1]
          have hm := hzero hlead.2
          have hv : c.toNat - 48 = 0 := by rw [hlead.1]; rfl
          simp only [hm, hv]
        · rw [h2]
          simp only
          push_cast
          omega
      · obtain ⟨h1, h2, h3⟩ := ih
          { st with sawdigits := true, nd := st.nd + 1,
                    mantissa := st.mantissa * 10 + (c.toNat - 48) } hdot hrest (by simp)
        refine ⟨h1, ?_, h3⟩
        rw [h2]
        simp only
        push_cast
        omega
    · by_cases hp : c = '.'
      · subst hp
        simp [readFloat.digits, hdot]
      · simp [readFloat.digits, hc, hp, hd, hdot]

theorem readFloat.digits_integer_value :
    ∀ (cs : List Char) (st : Mantissa), st.sawdot = false → '_' ∉ cs →
      (st.nd = 0 → st.mantissa = 0) →
      (readFloat.digits false cs st).1.mantissa =
        (mantissaDigits cs).foldl (fun n c => n * 10 + (c.toNat - 48)) st.mantissa ∧
      (if (readFloat.digits false cs st).1.sawdot then (readFloat.digits false cs st).1.dp
        else ((readFloat.digits false cs st).1.nd : Int)) -
          (readFloat.digits false cs st).1.nd = -(fractionLength cs : Int) := by
  intro cs
  induction cs with
  | nil =>
    intro st hdot _ _
    simp [readFloat.digits, hdot, mantissaDigits, fractionLength, afterPoint]
  | cons c rest ih =>
    intro st hdot hno hzero
    have hc : c ≠ '_' := fun h => hno (h ▸ List.mem_cons_self _ _)
    have hrest : '_' ∉ rest := fun h => hno (List.mem_cons_of_mem _ h)
    by_cases hd : c.isDigit = true
    · have hp := isDigit_ne_point hd
      have hmd : mantissaDigits (c :: rest) = c :: mantissaDigits rest := by
        simp [mantissaDigits, List.takeWhile_cons_of_pos hd, List.dropWhile_cons_of_pos hd]
      have hfl : fractionLength (c :: rest) = fractionLength rest := by
        simp [fractionLength, List.dropWhile_cons_of_pos hd]
      simp only [readFloat.digits, hc, hp, hd, if_true, if_false, hmd, hfl, List.foldl_cons,
        Bool.false_eq_true]
      split
      · rename_i hlead
        obtain ⟨h1, h2⟩ := ih { st with sawdigits := true, dp := st.dp - 1 } hdot hrest hzero
        refine ⟨?_, h2⟩
        rw [h1]
        have hm := hzero hlead.2
        have hv : c.toNat - 48 = 0 := by rw [hlead.1]; rfl
        simp only [hm, hv]
      · obtain ⟨h1, h2⟩ := ih
          { st with sawdigits := true, nd := st.nd + 1,
                    mantissa := st.mantissa * 10 + (c.toNat - 48) } hdot hrest (by simp)
        exact ⟨h1, h2⟩
    · by_cases hp : c = '.'
      · subst hp
        obtain ⟨h1, h2, h3⟩ := readFloat.digits_fraction_value rest
          { st with sawdot := true, dp := st.nd } rfl hrest hzero
        have hmd : mantissaDigits ('.' :: rest) = rest.takeWhile Char.isDigit := by
          simp [mantissaDigits, List.takeWhile_cons_of_neg hd, List.dropWhile_cons_of_neg hd,
            afterPoint]
        have hfl : fractionLength ('.' :: rest) = (rest.takeWhile Char.isDigit).length := by
          simp [fractionLength, List.dropWhile_cons_of_neg hd, afterPoint]
        simp only [readFloat.digits, hc, hdot, if_false, if_true, Bool.false_eq_true, hmd, hfl]
        refine ⟨h1, ?_⟩
        rw [h3]
        simp only [if_true]
        rw [h2]
        simp
      · have hmd : mantissaDigits (c :: rest) = [] := by
          simp [mantissaDigits, List.takeWhile_cons_of_neg hd, List.dropWhile_cons_of_neg hd,
            afterPoint_of_ne rest hp]
        have hfl : fractionLength (c :: rest) = 0 := by
          simp [fractionLength, List.dropWhile_cons_of_neg hd, afterPoint_of_ne rest hp]
        simp [readFloat.digits, hc, hp, hd, hmd, hfl, hdot]

theorem decimalValue.le_foldl :
    ∀ (ds : List Char) (n : Nat), n ≤ ds.foldl (fun n c => n * 10 + (c.toNat - 48)) n := by
  intro ds
  induction ds with
  | nil => intro n; exact Nat.le_refl _
  | cons c r ih =>
    intro n
    simp only [List.foldl_cons]
    exact Nat.le_trans (by omega) (ih _)

theorem readFloat.expDigits_clamp :
    ∀ (ds : List Char) (e : Nat),
      ds.foldl (fun n c => n * 10 + (c.toNat - 48)) e < 100000 →
      ds.foldl (fun e c => if e < 10000 then e * 10 + (c.toNat - 48) else e) e =
        ds.foldl (fun n c => n * 10 + (c.toNat - 48)) e := by
  intro ds
  induction ds with
  | nil => intro e _; rfl
  | cons c r ih =>
    intro e h
    simp only [List.foldl_cons] at h ⊢
    have hle := decimalValue.le_foldl r (e * 10 + (c.toNat - 48))
    have he : e < 10000 := by omega
    rw [if_pos he]
    exact ih _ h

theorem readFloat.expDigits_value :
    ∀ (cs : List Char) (e : Nat) (u : Bool), '_' ∉ cs →
      (readFloat.expDigits cs e u).1 =
        (cs.takeWhile Char.isDigit).foldl
          (fun e c => if e < 10000 then e * 10 + (c.toNat - 48) else e) e := by
  intro cs
  induction cs with
  | nil => intro e u _; simp [readFloat.expDigits]
  | cons c rest ih =>
    intro e u hno
    have hc : c ≠ '_' := fun h => hno (h ▸ List.mem_cons_self _ _)
    have hrest : '_' ∉ rest := fun h => hno (List.mem_cons_of_mem _ h)
    by_cases hd : c.isDigit = true
    · simp only [readFloat.expDigits, hc, hd, if_true, if_false, List.takeWhile_cons_of_pos,
        List.foldl_cons]
      exact ih _ u hrest
    · simp [readFloat.expDigits, hc, hd]

theorem readFloat.exponent_value (u : Bool) (cs : List Char) (hno : '_' ∉ cs)
    (htail : exponentTail cs = true) (hsmall : decimalValue (exponentDigits cs) < 100000) :
    ∀ x, readFloat.exponent false u cs = some x → x.1 = exponentValue cs := by
  cases cs with
  | nil =>
    intro x hx
    simp only [readFloat.exponent, Bool.false_eq_true, if_false, Option.some.injEq] at hx
    rw [← hx]
    simp [exponentValue, exponentDigits, decimalValue]
  | cons c r =>
    have hr : '_' ∉ r := fun h => hno (List.mem_cons_of_mem _ h)
    simp only [exponentTail, Bool.and_eq_true, Bool.not_eq_true', decide_eq_true_eq,
      List.isEmpty_iff] at htail
    obtain ⟨⟨hc, hne⟩, -⟩ := htail
    cases r with
    | nil => simp [unsign] at hne
    | cons d r1 =>
      have hu := unsign_cons d r1
      have hno2 : '_' ∉ unsign (d :: r1) := fun h => hr (unsign_subset _ h)
      intro x hx
      simp only [readFloat.exponent, hc, if_true, Bool.false_eq_true, if_false] at hx
      rw [← hu] at hx
      cases hr2 : unsign (d :: r1) with
      | nil => rw [hr2] at hne; simp at hne
      | cons d2 r3 =>
        rw [hr2] at hx hno2
        by_cases hd : d2.isDigit = true
        · simp only [hd, if_true, Option.some.injEq] at hx
          rw [← hx]
          simp only
          have hv := readFloat.expDigits_value (d2 :: r3) 0 u hno2
          have hsmall' : (List.takeWhile Char.isDigit (d2 :: r3)).foldl
              (fun n c => n * 10 + (c.toNat - 48)) 0 < 100000 := by
            simpa [exponentDigits, decimalValue, hr2] using hsmall
          rw [hv, readFloat.expDigits_clamp _ 0 hsmall']
          simp only [exponentValue, exponentDigits, hr2, decimalValue, List.tail_cons,
            List.head?_cons]
          rw [Int.mul_comm]
          congr 1
          by_cases hm : d = '-' <;> simp [hm]
        · simp [hd] at hx

theorem nearestBits_zero (d : Nat) (hd : 0 < d) : nearestBits 0 d = 0 := by
  have hP : ∀ k, atLeastPow2 0 d k = false := by
    intro k
    have hpos : 0 < d * 2 ^ (k - 1075) := Nat.mul_pos hd (Nat.two_pow_pos _)
    simp only [atLeastPow2, Nat.shiftLeft_eq, Nat.zero_mul, decide_eq_false_iff_not, Nat.not_le]
    exact hpos
  have hK : binaryExponent 0 d = 0 := by
    simp [binaryExponent, hP]
  unfold nearestBits
  simp only [hK, Nat.shiftLeft_eq, Nat.zero_mul, Nat.zero_div, Nat.zero_mod, Nat.mul_zero]
  have hin : ¬ (d * 2 ^ (max (0 - 52) 1 - 1075) < 0 ∨
      0 = d * 2 ^ (max (0 - 52) 1 - 1075) ∧ 0 % 2 = 1) := by
    rintro (h | ⟨-, h⟩)
    · exact absurd h (Nat.not_lt_zero _)
    · exact absurd h (by decide)
  rw [if_neg hin]
  simp

theorem readFloat.unsigned_value (s : List Char) (neg : Bool) (u : List Char)
    (hno : '_' ∉ u) (hx : readFloat.isHex u = false)
    (hsmall : decimalValue (exponentDigits (exponentPart u)) < 100000) :
    ∀ p, readFloat.unsigned s neg u = some p → p.rest = [] →
      p.mantissa = decimalValue (mantissaDigits u) ∧
      (p.mantissa ≠ 0 → p.exp = exponentValue (exponentPart u) - fractionLength u) := by
  obtain ⟨h1, -, h3⟩ := readFloat.digits_integer u {} rfl hno
  obtain ⟨v1, v2⟩ := readFloat.digits_integer_value u {} rfl hno (fun _ => rfl)
  have hpart : (readFloat.digits false u {}).2 = exponentPart u := by
    rw [h1]
    rfl
  have hno2 : '_' ∉ exponentPart u := by
    rw [← hpart, h1]
    intro hc
    cases hap : afterPoint (u.dropWhile Char.isDigit) with
    | none =>
      rw [hap] at hc
      exact hno ((List.dropWhile_suffix _).subset hc)
    | some r =>
      rw [hap] at hc
      have hr := afterPoint_eq_some hap
      have hc1 : '_' ∈ r := (List.dropWhile_suffix _).subset hc
      have hc2 : '_' ∈ u.dropWhile Char.isDigit := by
        rw [hr]
        exact List.mem_cons_of_mem _ hc1
      exact hno ((List.dropWhile_suffix _).subset hc2)
  intro p hp hrest
  unfold readFloat.unsigned at hp
  simp only [hx, Bool.false_eq_true, if_false, hpart] at hp
  split at hp
  · simp at hp
  · obtain ⟨e1, -⟩ := readFloat.exponent_tail (readFloat.digits false u {}).1.underscores
      (exponentPart u) hno2
    cases hexp : readFloat.exponent false (readFloat.digits false u {}).1.underscores
        (exponentPart u) with
    | none => rw [hexp] at hp; simp at hp
    | some x =>
      obtain ⟨e, und, rest⟩ := x
      rw [hexp] at hp e1
      simp only at hp e1
      split at hp
      · simp at hp
      · simp only [Option.some.injEq] at hp
        have hrest' : rest = [] := by
          rw [← hp] at hrest
          exact hrest
        have htail : exponentTail (exponentPart u) = true := by
          rw [← e1, hrest']
          rfl
        have he := readFloat.exponent_value _ (exponentPart u) hno2 htail hsmall _ hexp
        simp only at he
        rw [← hp]
        simp only
        refine ⟨?_, ?_⟩
        · rw [v1]
          rfl
        · intro hm
          rw [if_neg hm, ← he]
          have hv2 := v2
          omega

theorem readFloat_value (s : List Char) (hno : '_' ∉ s)
    (hx : readFloat.isHex (unsign s) = false)
    (hsmall : decimalValue (exponentDigits (exponentPart (unsign s))) < 100000) :
    ∀ p, readFloat s = some p → p.rest = [] →
      p.mantissa = decimalValue (mantissaDigits (unsign s)) ∧
      (p.mantissa ≠ 0 →
        p.exp = exponentValue (exponentPart (unsign s)) - fractionLength (unsign s)) := by
  cases s with
  | nil => intro p hp; simp [readFloat] at hp
  | cons c r =>
    have hu := unsign_cons c r
    have hno' : '_' ∉ unsign (c :: r) := fun h => hno (unsign_subset _ h)
    intro p hp
    have key : ∃ neg, readFloat (c :: r) = readFloat.unsigned (c :: r) neg (unsign (c :: r)) := by
      by_cases hp1 : c = '+'
      · refine ⟨false, ?_⟩
        simp only [hp1, true_or, if_true] at hu
        simp only [readFloat, hp1, if_true]
        rw [hu]
      · by_cases hm : c = '-'
        · refine ⟨true, ?_⟩
          have hne : ('-' : Char) ≠ '+' := by decide
          simp only [hm, or_true, if_true] at hu
          simp only [readFloat, hm, hne, if_false, if_true]
          rw [hu]
        · refine ⟨false, ?_⟩
          simp only [hp1, hm, or_self, if_false] at hu
          simp only [readFloat, hp1, hm, if_false]
          rw [hu]
    obtain ⟨neg, hneg⟩ := key
    rw [hneg] at hp
    exact readFloat.unsigned_value (c :: r) neg (unsign (c :: r)) hno' hx hsmall p hp

theorem ParseFloat_literal (s : String) (hlit : isDecimalLiteral s = true)
    (hsmall : decimalValue (exponentDigits (exponentPart (unsign s.data))) < 100000) :
    ParseFloat s = literalFloat s := by
  have hlit0 := hlit
  rw [isDecimalLiteral_eq, Bool.and_eq_true] at hlit
  have hreads := hlit.1
  have hno : '_' ∉ s.data := not_mem_of_unsign (readsDecimal_chars hreads)
  have hhex := readsDecimal_not_hex hreads
  obtain ⟨h1, h2⟩ := readFloat_decimal s.data hno hhex
  have hhead : (!((unsign s.data).takeWhile Char.isDigit).isEmpty) = true := by
    unfold isDecimalLiteral at hlit0
    rw [Bool.and_eq_true] at hlit0
    exact hlit0.1
  obtain ⟨d, r, hu, hd⟩ := head_isDigit hhead
  have hspecial := special_digit hu hd
  rw [hreads] at h1
  cases hrf : readFloat s.data with
  | none =>
    rw [hrf] at h1
    simp at h1
  | some p =>
    rw [hrf] at h1
    simp only [List.isEmpty_iff] at h1
    obtain ⟨hhexp, hnegp⟩ := h2 p hrf
    obtain ⟨hm, hexp⟩ := readFloat_value s.data hno hhex hsmall p hrf h1
    have hbits : p.bits =
        if 0 ≤ literalExponent s then
          nearestBits (literalMantissa s * 10 ^ (literalExponent s).toNat) 1
        else nearestBits (literalMantissa s) (10 ^ (-literalExponent s).toNat) := by
      unfold Parsed.bits literalMantissa literalExponent
      simp only [hhexp, Bool.false_eq_true, if_false]
      by_cases hz : p.mantissa = 0
      · rw [← hm, hz]
        simp only [Nat.zero_mul]
        have hz1 : nearestBits 0 1 = 0 := nearestBits_zero 1 (by decide)
        split <;> split <;>
          simp [hz1, nearestBits_zero _ (Nat.pos_pow_of_pos _ (by decide : 0 < 10))]
      · rw [hexp hz, ← hm]
    unfold ParseFloat literalFloat
    simp only [hspecial, hrf, h1, List.isEmpty_nil, if_true, Parsed.float, hbits, hnegp]
    by_cases hov : 0x7FF0000000000000 ≤
        (if 0 ≤ literalExponent s then
          nearestBits (literalMantissa s * 10 ^ (literalExponent s).toNat) 1
        else nearestBits (literalMantissa s) (10 ^ (-literalExponent s).toNat))
    · simp [hov]
    · simp [hov]

/-! ## The stand-ins of the worked examples agree with `ParseFloat` -/

theorem sampleFloat_agrees :
    sampleFloat "Inf" = ParseFloat "Inf" ∧ sampleFloat "42" = ParseFloat "42" ∧
    sampleFloat "00123" = ParseFloat "00123" ∧ sampleFloat "1e999" = ParseFloat "1e999" ∧
    ∀ s ∈ ["Cook", "Chef", "EUR", "Fry"], sampleFloat s = ParseFloat s :=
  ⟨by decide, by decide, by decide, by decide!, by decide⟩

theorem noNumber_agrees :
    ∀ s ∈ ["Cook", "Chef", "Baker", "Oslo", "EUR", "Fry", "NO", "x", "_", "zzz", "title",
      "example.org/1"], noNumber s = ParseFloat s := by
  decide

theorem ParseFloat_examples :
    ParseFloat "0.1" = some ⟨0x3FB999999999999A⟩ ∧
    ParseFloat "-0" = some ⟨0x8000000000000000⟩ ∧
    ParseFloat "1e23" = some ⟨0x44B52D02C7E14AF6⟩ ∧
    ParseFloat "9007199254740993" = some ⟨0x4340000000000000⟩ ∧
    ParseFloat "-Infinity" = some ⟨0xFFF0000000000000⟩ ∧ ParseFloat "+nan" = none ∧
    ParseFloat "infi" = none ∧ ParseFloat "0x1" = none ∧
    ParseFloat "0X1.8p1" = some ⟨0x4008000000000000⟩ ∧
    ParseFloat "1e" = none ∧ ParseFloat "" = none ∧ ParseFloat " 1" = none ∧
    ParseFloat "1.2.3" = none ∧ ParseFloat "1__0" = none ∧ ParseFloat "_1" = none ∧
    ParseFloat "5." = some ⟨0x4014000000000000⟩ := by
  decide

theorem ParseFloat_range :
    ParseFloat "1.7976931348623157e308" = some ⟨0x7FEFFFFFFFFFFFFF⟩ ∧
    ParseFloat "1.7976931348623158e308" = some ⟨0x7FEFFFFFFFFFFFFF⟩ ∧
    ParseFloat "1.7976931348623159e308" = none ∧
    ParseFloat "-1e309" = none ∧ ParseFloat "1e-400" = some ⟨0⟩ ∧
    ParseFloat "5e-324" = some ⟨1⟩ ∧ ParseFloat "2e-324" = some ⟨0⟩ := by
  decide!

/-! ## Properties of the pipeline -/

/-- C1 (the code departs from the claim).  Started in external mode on the feed
`<job><title>Cook</title></job>` with `ParseWithChatly` returning a job, the run
writes the separator before the first and only record.  The same happens when
`ParseWithChatly` fails four times and the fifth record is the first one emitted,
by `ParseToJob`.  Started in rule-based mode on two records, the run writes no
separator between them. -/
theorem C1_separator_misplaced (marshal : Job → String) (job : Job)
    (chatly : Nat → RawListing → Except String Job) :
    ((ParseXML noNumber (fun _ _ => Except.ok job) marshal ⟨titledJob "Cook", false⟩
        (some Writer.reliable) true).outcome = Outcome.returnedNil ∧
      (ParseXML noNumber (fun _ _ => Except.ok job) marshal ⟨titledJob "Cook", false⟩
        (some Writer.reliable) true).state.sink.chunks = ["[", ",\n", marshal job, "\n]"]) ∧
    ((ParseXML noNumber (fun _ _ => Except.error "failed to send request") marshal
        ⟨emptyJob ++ emptyJob ++ emptyJob ++ emptyJob ++ titledJob "Cook", false⟩
        (some Writer.reliable) true).outcome = Outcome.returnedNil ∧
      (ParseXML noNumber (fun _ _ => Except.error "failed to send request") marshal
        ⟨emptyJob ++ emptyJob ++ emptyJob ++ emptyJob ++ titledJob "Cook", false⟩
        (some Writer.reliable) true).state.sink.chunks =
        ["[", ",\n", marshal { Title := "Cook" }, "\n]"]) ∧
    ((ParseXML noNumber chatly marshal ⟨titledJob "Cook" ++ titledJob "Chef", false⟩
        (some Writer.reliable) false).outcome = Outcome.returnedNil ∧
      (ParseXML noNumber chatly marshal ⟨titledJob "Cook" ++ titledJob "Chef", false⟩
        (some Writer.reliable) false).state.sink.chunks =
        ["[", marshal { Title := "Cook" }, marshal { Title := "Chef" }, "\n]"]) :=
  ⟨⟨rfl, rfl⟩, ⟨rfl, rfl⟩, ⟨rfl, rfl⟩⟩

/-- C2 (the code departs from the claim).  On five records, started in external
mode, `ParseWithChatly` is called for the first four records, not three: the flag
is cleared when `count` reaches 4, but the call of line 141 still follows. -/
theorem C2_four_external_calls (pf : String → Option Float64) (marshal : Job → String) :
    ((ParseXML pf (fun _ _ => Except.error "unexpected status code") marshal
        ⟨emptyJob ++ emptyJob ++ emptyJob ++ emptyJob ++ emptyJob, false⟩
        (some Writer.reliable) true).state.trace.map Dispatch.strategy) =
      [Strategy.chatly, Strategy.chatly, Strategy.chatly, Strategy.chatly, Strategy.rules] ∧
    (ParseXML pf (fun _ _ => Except.error "unexpected status code") marshal
        ⟨emptyJob ++ emptyJob ++ emptyJob ++ emptyJob ++ emptyJob, false⟩
        (some Writer.reliable) true).state.count = 4 :=
  ⟨rfl, rfl⟩

/-- C3 (the code departs from the claim).  On the record
`<job><job></job><title>Cook</title></job>` the builder returns at the end tag of
the nested `job` element: the tokens of `title` and the end tag of the record stay
in the decoder, and the root map has no entry "title". -/
theorem C3_stops_at_nested_end (pf : String → Option Float64) :
    UnmarshalXML pf "job" ⟨emptyJob ++ leaf "title" "Cook" ++ [Token.EndElement "job"], false⟩ =
      ⟨[[("_", Val.str "job"), ("job", Val.ref 1)], [("_", Val.str "job")]],
        BuildStatus.closed, leaf "title" "Cook" ++ [Token.EndElement "job"]⟩ ∧
    (RawListing.root ⟨(UnmarshalXML pf "job"
        ⟨emptyJob ++ leaf "title" "Cook" ++ [Token.EndElement "job"], false⟩).heap⟩).get "title" =
      none :=
  ⟨rfl, rfl⟩

/-- C4 (the code departs from the claim).  In external mode, on the record
`<job></job>` for which `ParseWithChatly` returns a job, the run writes the record
and then panics at the type assertion of line 161, the root map having no "title":
no closing bracket is written.  In either mode the record `<job>Cook</job>` makes
`UnmarshalXML` index its frame stack at -1. -/
theorem C4_run_panics (pf : String → Option Float64) (marshal : Job → String) (job : Job)
    (chatly : Nat → RawListing → Except String Job) (useChatly : Bool) :
    (ParseXML pf (fun _ _ => Except.ok job) marshal ⟨emptyJob, false⟩
        (some Writer.reliable) true).outcome = Outcome.panicked ∧
    (ParseXML pf (fun _ _ => Except.ok job) marshal ⟨emptyJob, false⟩
        (some Writer.reliable) true).state.sink.chunks = ["[", ",\n", marshal job] ∧
    (UnmarshalXML pf "job" ⟨[Token.CharData "Cook", Token.EndElement "job"], false⟩).status =
        BuildStatus.panicIndex ∧
    (ParseXML pf chatly marshal
        ⟨[Token.StartElement "job", Token.CharData "Cook", Token.EndElement "job"], false⟩
        (some Writer.reliable) useChatly).outcome = Outcome.panicked :=
  ⟨rfl, rfl, rfl, rfl⟩

/-- C5 (the code departs from the claim).  A record whose transformation fails is
skipped and leaves no byte, but the records after it are written only as long as
the run does not panic (the defect of C4).  In external mode, on three records
of which the first is refused by `ParseWithChatly` and the second is accepted but
has no title, the second is written and the assertion of line 161 panics: the
third record, which `ParseWithChatly` would accept, is never transformed or
written.  In rule-based mode, on `<job></job>`, `<job>Cook</job>` and
`<job><title>Chef</title></job>`, the builder panics on the second record and the
third, which `ParseToJob` accepts, is never written.  On every stream on which
`UnmarshalXML` panics on no record and every record `ParseWithChatly` accepts has
a string title, the loop does not panic and transforms every record of the
stream, whatever the writer does; and with a writer that accepts every write,
every record is transformed by `ParseToJob` or by `ParseWithChatly`, and the sink
holds the opening bracket, the contributions of the transformations in stream
order (nothing for a failed one) and the closing bracket when the run returned. -/
theorem C5_panic_loses_later_records (pf : String → Option Float64)
    (chatly : Nat → RawListing → Except String Job) (marshal : Job → String) (job : Job) :
    ((ParseXML pf (failsOnce job) marshal ⟨emptyJob ++ emptyJob ++ titledJob "Cook", false⟩
        (some Writer.reliable) true).outcome = Outcome.panicked ∧
      (ParseXML pf (failsOnce job) marshal ⟨emptyJob ++ emptyJob ++ titledJob "Cook", false⟩
        (some Writer.reliable) true).state.sink.chunks = ["[", ",\n", marshal job] ∧
      (ParseXML pf (failsOnce job) marshal ⟨emptyJob ++ emptyJob ++ titledJob "Cook", false⟩
        (some Writer.reliable) true).state.trace.map Dispatch.result =
          [Except.error "unexpected status code", Except.ok job] ∧
      (records pf false 10 (emptyJob ++ emptyJob ++ titledJob "Cook")).length = 3 ∧
      ∀ x, failsOnce job 2 x = Except.ok job) ∧
    ((ParseXML noNumber chatly marshal
        ⟨emptyJob ++ [Token.StartElement "job", Token.CharData "Cook", Token.EndElement "job"] ++
          titledJob "Chef", false⟩ (some Writer.reliable) false).outcome = Outcome.panicked ∧
      (ParseXML noNumber chatly marshal
        ⟨emptyJob ++ [Token.StartElement "job", Token.CharData "Cook", Token.EndElement "job"] ++
          titledJob "Chef", false⟩ (some Writer.reliable) false).state.sink.chunks = ["["] ∧
      (ParseXML noNumber chatly marshal
        ⟨emptyJob ++ [Token.StartElement "job", Token.CharData "Cook", Token.EndElement "job"] ++
          titledJob "Chef", false⟩ (some Writer.reliable) false).state.trace.map
          Dispatch.result = [Except.error "title not found or not a string"] ∧
      RawListing.ParseToJob ⟨(UnmarshalXML noNumber "job"
        ⟨leaf "title" "Chef" ++ [Token.EndElement "job"], false⟩).heap⟩ =
          Except.ok { Title := "Chef" }) ∧
    (∀ (w : Writer) (fails : Bool) (fuel : Nat) (toks : List Token) (st : LoopState),
      builds pf fails fuel toks = true →
      (∀ x ∈ records pf fails fuel toks, ∀ n j,
        chatly n x = Except.ok j → asString (x.root.get "title") ≠ none) →
      (ParseXML.loop pf chatly marshal w fails fuel toks st).outcome ≠ Outcome.panicked ∧
        (ParseXML.loop pf chatly marshal w fails fuel toks st).state.trace.map
          Dispatch.listing = st.trace.map Dispatch.listing ++ records pf fails fuel toks) ∧
    ∀ (d : Decoder) (useChatly : Bool),
      builds pf d.fails (d.toks.length + 1) d.toks = true →
      (∀ x ∈ records pf d.fails (d.toks.length + 1) d.toks, ∀ n j,
        chatly n x = Except.ok j → asString (x.root.get "title") ≠ none) →
      (ParseXML pf chatly marshal d (some Writer.reliable) useChatly).outcome ≠
          Outcome.panicked ∧
        (ParseXML pf chatly marshal d (some Writer.reliable) useChatly).state.trace.map
          Dispatch.listing = records pf d.fails (d.toks.length + 1) d.toks ∧
        (∀ t ∈ (ParseXML pf chatly marshal d (some Writer.reliable) useChatly).state.trace,
          (t.strategy = Strategy.rules ∧ t.result = t.listing.ParseToJob) ∨
          (t.strategy = Strategy.chatly ∧ ∃ n, t.result = chatly n t.listing)) ∧
        (ParseXML pf chatly marshal d (some Writer.reliable) useChatly).state.sink.chunks =
          ["["] ++
            (ParseXML pf chatly marshal d (some Writer.reliable) useChatly).state.trace.flatMap
              (emitted marshal) ++
            closing (ParseXML pf chatly marshal d (some Writer.reliable) useChatly).outcome := by
  refine ⟨⟨rfl, rfl, rfl, rfl, fun _ => rfl⟩, ⟨rfl, rfl, rfl, rfl⟩, ?_, ?_⟩
  · intro w fails fuel toks st hb htitle
    have hnp := ParseXML.loop_no_panic pf chatly marshal w fails fuel toks st hb htitle
    exact ⟨hnp, ParseXML.loop_records pf chatly marshal w fails fuel toks st hnp⟩
  intro d useChatly hb htitle
  have hnp := ParseXML.loop_no_panic pf chatly marshal Writer.reliable d.fails
    (d.toks.length + 1) d.toks ⟨0, useChatly, ⟨["["], 1⟩, []⟩ hb htitle
  have hrec := ParseXML.loop_records pf chatly marshal Writer.reliable d.fails
    (d.toks.length + 1) d.toks ⟨0, useChatly, ⟨["["], 1⟩, []⟩ hnp
  have hres := ParseXML.loop_results pf chatly marshal Writer.reliable d.fails
    (d.toks.length + 1) d.toks ⟨0, useChatly, ⟨["["], 1⟩, []⟩ (by simp)
  obtain ⟨ds, h1, h2⟩ := ParseXML.loop_chunks pf chatly marshal d.fails (d.toks.length + 1)
    d.toks ⟨0, useChatly, ⟨["["], 1⟩, []⟩
  simp only [ParseXML, Sink.write_reliable, List.nil_append, Nat.zero_add]
  refine ⟨hnp, ?_, hres, ?_⟩
  · rw [hrec]
    simp
  · rw [h2, h1]
    simp

/-- C5 on a run without panic, in external mode: `ParseWithChatly` refuses the
first record, which leaves no byte, and the second record is written. -/
theorem C5_panic_loses_later_records_witness :
    builds noNumber false 9 (titledJob "Baker" ++ titledJob "Cook") = true ∧
    (ParseXML noNumber (failsOnce { Title := "Chef" }) (fun j => j.Title)
      ⟨titledJob "Baker" ++ titledJob "Cook", false⟩ (some Writer.reliable)
      true).state.sink.chunks =
      ["["] ++
        (ParseXML noNumber (failsOnce { Title := "Chef" }) (fun j => j.Title)
          ⟨titledJob "Baker" ++ titledJob "Cook", false⟩ (some Writer.reliable)
          true).state.trace.flatMap (emitted fun j => j.Title) ++
        closing (ParseXML noNumber (failsOnce { Title := "Chef" }) (fun j => j.Title)
          ⟨titledJob "Baker" ++ titledJob "Cook", false⟩ (some Writer.reliable) true).outcome ∧
    (ParseXML noNumber (failsOnce { Title := "Chef" }) (fun j => j.Title)
      ⟨titledJob "Baker" ++ titledJob "Cook", false⟩ (some Writer.reliable)
      true).state.sink.chunks = ["[", ",\n", "Chef", "\n]"] :=
  ⟨by decide,
    ((C5_panic_loses_later_records noNumber (failsOnce { Title := "Chef" }) (fun j => j.Title)
      { Title := "Chef" }).2.2.2 ⟨titledJob "Baker" ++ titledJob "Cook", false⟩ true (by decide)
      (fun x hx _ _ _ =>
        (by decide : ∀ y ∈ records noNumber false 9 (titledJob "Baker" ++ titledJob "Cook"),
          asString (y.root.get "title") ≠ none) x hx)).2.2.2, rfl⟩

/-- C6 (amended).  Last write wins on a clean record: when the body of the record
is `pre`, a leaf `<t>v1</t>`, `mid`, a leaf `<t>v2</t>` and `post`, where `pre`,
`mid` and `post` are well nested, name no element "_" or like the record and have
no text that is not blank directly in the record, `t` is neither "_" nor the
record name, `post` has no direct child named `t` and `v2` is not blank, then the
builder stops at the end tag of the record and the root map holds under `t` the
later value `typeConvert (TrimSpace v2)`.  In particular the record
`<job><title>Cook</title><title>Chef</title></job>` is projected by `ParseToJob`
to the job whose only set field is the title "Chef" (`Chef` being no number). -/
theorem C6_last_write_wins (pf : String → Option Float64) (start t v1 v2 : String)
    (fails : Bool) (pre mid post rest : List Token)
    (hpre : Clean start pre [] = true) (hmid : Clean start mid [] = true)
    (hpost : Clean start post [] = true) (ht1 : t ≠ "_") (ht2 : t ≠ start)
    (honce : t ∉ childNames post 0) (hv2 : TrimSpace v2 ≠ "") :
    (UnmarshalXML pf start
        ⟨pre ++ leaf t v1 ++ mid ++ leaf t v2 ++ post ++ Token.EndElement start :: rest,
          fails⟩).status = BuildStatus.closed ∧
    (UnmarshalXML pf start
        ⟨pre ++ leaf t v1 ++ mid ++ leaf t v2 ++ post ++ Token.EndElement start :: rest,
          fails⟩).rest = rest ∧
    (RawListing.root ⟨(UnmarshalXML pf start
        ⟨pre ++ leaf t v1 ++ mid ++ leaf t v2 ++ post ++ Token.EndElement start :: rest,
          fails⟩).heap⟩).get t = some (typeConvert pf (TrimSpace v2)) ∧
    (pf "Chef" = none →
      RawListing.ParseToJob ⟨(UnmarshalXML pf "job"
        ⟨leaf "title" "Cook" ++ leaf "title" "Chef" ++ [Token.EndElement "job"], fails⟩).heap⟩ =
        Except.ok { Title := "Chef" }) := by
  have hclean : Clean start (pre ++ leaf t v1 ++ mid) [] = true :=
    Clean.of_append start _ _ [] []
      (Clean.of_append start _ _ [] [] hpre (Clean.of_leaf v1 ht1 ht2)) hmid
  obtain ⟨hst, hget, hrest⟩ := UnmarshalXML_last_leaf pf start t v2 fails
    (pre ++ leaf t v1 ++ mid) post rest hclean hpost honce hv2
  refine ⟨hst, hrest ht2, hget, ?_⟩
  intro hchef
  have hrun : UnmarshalXML pf "job"
      ⟨leaf "title" "Cook" ++ leaf "title" "Chef" ++ [Token.EndElement "job"], fails⟩ =
      ⟨[[("_", Val.str "job"), ("title", typeConvert pf "Chef")], [("_", Val.str "title")],
        [("_", Val.str "title")]], BuildStatus.closed, []⟩ := rfl
  have hconv : typeConvert pf "Chef" = Val.str "Chef" := by simp [typeConvert, hchef]
  rw [hrun, hconv]
  rfl

/-- C6 at the record `<job><title>Cook</title><city>Oslo</city><title>Chef</title></job>`. -/
theorem C6_last_write_wins_witness :
    (Clean "job" [] [] = true ∧ Clean "job" (leaf "city" "Oslo") [] = true ∧
      "title" ≠ "_" ∧ "title" ≠ "job" ∧ "title" ∉ childNames [] 0 ∧ TrimSpace "Chef" ≠ "") ∧
    (RawListing.root ⟨(UnmarshalXML noNumber "job"
        ⟨[] ++ leaf "title" "Cook" ++ leaf "city" "Oslo" ++ leaf "title" "Chef" ++ [] ++
          Token.EndElement "job" :: [], false⟩).heap⟩).get "title" =
      some (typeConvert noNumber (TrimSpace "Chef")) ∧
    RawListing.ParseToJob ⟨(UnmarshalXML noNumber "job"
        ⟨leaf "title" "Cook" ++ leaf "title" "Chef" ++ [Token.EndElement "job"], false⟩).heap⟩ =
      Except.ok { Title := "Chef" } :=
  ⟨by decide,
    (C6_last_write_wins noNumber "job" "title" "Cook" "Chef" false [] (leaf "city" "Oslo") [] []
      (by decide) (by decide) (by decide) (by decide) (by decide) (by decide) (by decide)).2.2.1,
    (C6_last_write_wins noNumber "job" "title" "Cook" "Chef" false [] (leaf "city" "Oslo") [] []
      (by decide) (by decide) (by decide) (by decide) (by decide) (by decide) (by decide)).2.2.2
      rfl⟩

/-- C6 as stated fails on the record
`<job><title>Cook</title><title>Chef</title><note><_>title</_>Baker</note></job>`:
the two leaves `title` are siblings with the texts `Cook` and `Chef`, and the root
map holds "Baker" under "title", written by the text of the later element `note`
whose entry "_" its child named "_" has replaced. -/
theorem C6_counterexample :
    (RawListing.root ⟨(UnmarshalXML noNumber "job"
        ⟨leaf "title" "Cook" ++ leaf "title" "Chef" ++ overwritingNote ++
          [Token.EndElement "job"], false⟩).heap⟩).get "title" = some (Val.str "Baker") ∧
    (RawListing.root ⟨(UnmarshalXML noNumber "job"
        ⟨leaf "title" "Cook" ++ leaf "title" "Chef" ++ overwritingNote ++
          [Token.EndElement "job"], false⟩).heap⟩).get "title" ≠
      some (typeConvert noNumber (TrimSpace "Chef")) := by
  decide

/-- C7 (amended).  Leaf collapse on a clean record: when the body of the record is
`pre`, a leaf `<t>v</t>` with `v` not blank, and `post`, where `pre` and `post`
are well nested, name no element "_" or like the record and have no text that is
not blank directly in the record, and `post` has no direct child named `t`, then
the builder returns, and the root map maps `t` to the scalar
`typeConvert (TrimSpace v)`, not to a nested map.  A text token that is blank
after trimming leaves the state of the builder as it is. -/
theorem C7_leaf_collapse (pf : String → Option Float64) (start t v : String) (fails : Bool)
    (pre post rest : List Token)
    (hpre : Clean start pre [] = true) (hpost : Clean start post [] = true)
    (honce : t ∉ childNames post 0) (hv : TrimSpace v ≠ "") :
    (UnmarshalXML pf start
        ⟨pre ++ leaf t v ++ post ++ Token.EndElement start :: rest, fails⟩).status =
      BuildStatus.closed ∧
    (RawListing.root ⟨(UnmarshalXML pf start
        ⟨pre ++ leaf t v ++ post ++ Token.EndElement start :: rest, fails⟩).heap⟩).get t =
      some (typeConvert pf (TrimSpace v)) ∧
    (∀ a, (RawListing.root ⟨(UnmarshalXML pf start
        ⟨pre ++ leaf t v ++ post ++ Token.EndElement start :: rest, fails⟩).heap⟩).get t ≠
      some (Val.ref a)) ∧
    (∀ (text : String) (toks : List Token) (h : Heap) (path : List Nat),
      TrimSpace text = "" →
      UnmarshalXML.loop pf start fails (Token.CharData text :: toks) h path =
        UnmarshalXML.loop pf start fails toks h path) := by
  obtain ⟨hst, hget, -⟩ := UnmarshalXML_last_leaf pf start t v fails pre post rest hpre hpost
    honce hv
  refine ⟨hst, hget, ?_, ?_⟩
  · intro a
    rw [hget]
    unfold typeConvert
    split <;> simp
  · intro text toks h path hblank
    simp [UnmarshalXML.loop, hblank]

/-- C7 at the record `<job><city>Oslo</city><title> Cook </title><url>x</url></job>`. -/
theorem C7_leaf_collapse_witness :
    Clean "job" (leaf "city" "Oslo") [] = true ∧ Clean "job" (leaf "url" "x") [] = true ∧
    "title" ∉ childNames (leaf "url" "x") 0 ∧ TrimSpace " Cook " ≠ "" ∧
    (RawListing.root ⟨(UnmarshalXML noNumber "job"
        ⟨leaf "city" "Oslo" ++ leaf "title" " Cook " ++ leaf "url" "x" ++
          Token.EndElement "job" :: [], false⟩).heap⟩).get "title" =
      some (typeConvert noNumber (TrimSpace " Cook ")) :=
  ⟨by decide, by decide, by decide, by decide,
    (C7_leaf_collapse noNumber "job" "title" " Cook " false (leaf "city" "Oslo") (leaf "url" "x")
      [] (by decide) (by decide) (by decide) (by decide)).2.1⟩

/-- C7 as stated fails on the record
`<job><title>Cook</title><note><_>title</_>Baker</note></job>`: `title` is a direct
child leaf with the text `Cook` and occurs once, and the root map holds "Baker"
under "title". -/
theorem C7_counterexample :
    (RawListing.root ⟨(UnmarshalXML noNumber "job"
        ⟨leaf "title" "Cook" ++ overwritingNote ++ [Token.EndElement "job"], false⟩).heap⟩).get
        "title" = some (Val.str "Baker") ∧
    (RawListing.root ⟨(UnmarshalXML noNumber "job"
        ⟨leaf "title" "Cook" ++ overwritingNote ++ [Token.EndElement "job"], false⟩).heap⟩).get
        "title" ≠ some (typeConvert noNumber (TrimSpace "Cook")) := by
  decide
/-- C8.  `ParseToJob` returns an error exactly when the root map has no string
under "title" (the key is absent or holds a number or a map), and a job it
returns has that string as its `Title`. -/
theorem C8_title_required (x : RawListing) :
    ((∃ msg, x.ParseToJob = Except.error msg) ↔ ∀ s, x.root.get "title" ≠ some (Val.str s)) ∧
    (∀ job, x.ParseToJob = Except.ok job → x.root.get "title" = some (Val.str job.Title)) := by
  unfold RawListing.ParseToJob
  cases ht : asString (x.root.get "title") with
  | none =>
    refine ⟨⟨fun _ => asString_eq_none.1 ht, fun _ => ⟨_, rfl⟩⟩, ?_⟩
    intro job hjob
    simp at hjob
  | some title =>
    have hget := asString_eq_some.1 ht
    refine ⟨⟨?_, fun hall => absurd hget (hall title)⟩, ?_⟩
    · rintro ⟨msg, hmsg⟩
      simp at hmsg
    · intro job hjob
      simp only [Except.ok.injEq] at hjob
      subst hjob
      rw [hget]
      simp [ifString_Title]
/-- C9.  The description of a job `ParseToJob` returns is the string under
"description" (empty when the key holds none), followed in this order by the line
for "currency", for "postalcode" and for "region", each present exactly when its
key holds a string; and no other field depends on these three keys: a listing that
differs only there yields a job that differs at most in its description. -/
theorem C9_description_lines (x : RawListing) (job : Job) (h : x.ParseToJob = Except.ok job) :
    job.Description =
        (asString (x.root.get "description")).getD "" ++
          descriptionLine "\nCurrency: " (asString (x.root.get "currency")) ++
          descriptionLine "\nPostal Code: " (asString (x.root.get "postalcode")) ++
          descriptionLine "\nRegion: " (asString (x.root.get "region")) ∧
    ∀ (y : RawListing) (job' : Job),
      (∀ k, k ≠ "currency" → k ≠ "postalcode" → k ≠ "region" → y.root.get k = x.root.get k) →
      y.ParseToJob = Except.ok job' →
      { job' with Description := "" } = { job with Description := "" } := by
  have hx := ParseToJob_eq_ok x job h
  refine ⟨by rw [hx], ?_⟩
  intro y job' hsame hy
  have hy' := ParseToJob_eq_ok y job' hy
  rw [hx, hy']
  simp only [hsame "title" (by decide) (by decide) (by decide),
    hsame "url" (by decide) (by decide) (by decide),
    hsame "id" (by decide) (by decide) (by decide),
    hsame "city" (by decide) (by decide) (by decide),
    hsame "country" (by decide) (by decide) (by decide),
    hsame "company" (by decide) (by decide) (by decide)]

/-- C9 at `sampleListing`: the currency line is appended, the numeric postal code
and the absent region add nothing. -/
theorem C9_description_lines_witness :
    sampleListing.ParseToJob = Except.ok sampleJob ∧
    sampleJob.Description =
      (asString (sampleListing.root.get "description")).getD "" ++
        descriptionLine "\nCurrency: " (asString (sampleListing.root.get "currency")) ++
        descriptionLine "\nPostal Code: " (asString (sampleListing.root.get "postalcode")) ++
        descriptionLine "\nRegion: " (asString (sampleListing.root.get "region")) ∧
    sampleJob.Description = "Fry\nCurrency: EUR" :=
  ⟨rfl, (C9_description_lines sampleListing sampleJob rfl).1, rfl⟩

/-- C10.  On a stream without a start element "job" that ends with `io.EOF`, in
either mode and with a writer that accepts every write, `ParseXML` returns nil and
the sink holds the two chunks "[" and "\n]", the three bytes "[\n]". -/
theorem C10_empty_array (pf : String → Option Float64)
    (chatly : Nat → RawListing → Except String Job) (marshal : Job → String)
    (toks : List Token) (useChatly : Bool)
    (hno : ∀ t ∈ toks, t ≠ Token.StartElement "job") :
    (ParseXML pf chatly marshal ⟨toks, false⟩ (some Writer.reliable) useChatly).outcome =
        Outcome.returnedNil ∧
    (ParseXML pf chatly marshal ⟨toks, false⟩ (some Writer.reliable) useChatly).state.sink.chunks =
        ["[", "\n]"] ∧
    (ParseXML pf chatly marshal ⟨toks, false⟩ (some Writer.reliable) useChatly).state.sink.bytes =
        "[\n]" ∧
    (ParseXML pf chatly marshal ⟨toks, false⟩ (some Writer.reliable)
        useChatly).state.sink.bytes.utf8ByteSize = 3 := by
  have hloop := ParseXML.loop_no_record pf chatly marshal (toks.length + 1) toks
    ⟨0, useChatly, ⟨["["], 1⟩, []⟩ (Nat.lt_succ_self _) hno
  have hrun : ParseXML pf chatly marshal ⟨toks, false⟩ (some Writer.reliable) useChatly =
      ⟨Outcome.returnedNil, ⟨0, useChatly, ⟨["[", "\n]"], 2⟩, []⟩⟩ := by
    simp only [ParseXML, Sink.write_reliable, List.nil_append, Nat.zero_add]
    rw [hloop]
    rfl
  rw [hrun]
  exact ⟨rfl, rfl, rfl, rfl⟩

/-- C10 at `headerOnly`, a feed with a header and no record. -/
theorem C10_empty_array_witness :
    (∀ t ∈ headerOnly, t ≠ Token.StartElement "job") ∧
    (ParseXML noNumber (fun _ _ => Except.error "unexpected status code") (fun _ => "")
      ⟨headerOnly, false⟩ (some Writer.reliable) true).state.sink.bytes = "[\n]" :=
  ⟨by decide, (C10_empty_array noNumber _ _ headerOnly true (by decide)).2.2.1⟩

/-- C11.  The flag `useChatly` is a one-way switch.  From any point of a run at
which it is false, the rest of the run leaves it false and transforms every record
by `ParseToJob`; and in every run of `ParseXML` the transformations are first those
by `ParseWithChatly`, then those by `ParseToJob`, none by `ParseWithChatly` when
the run starts with the flag false, and the flag is false at the end once a record
was transformed by `ParseToJob`.  (The record during which the flag is cleared is
itself still sent to `ParseWithChatly`, see C2.) -/
theorem C11_one_way_switch (pf : String → Option Float64)
    (chatly : Nat → RawListing → Except String Job) (marshal : Job → String) (w : Writer)
    (fails : Bool) :
    (∀ (fuel : Nat) (toks : List Token) (st : LoopState), st.useChatly = false →
      (ParseXML.loop pf chatly marshal w fails fuel toks st).state.useChatly = false ∧
      ∃ ds, (ParseXML.loop pf chatly marshal w fails fuel toks st).state.trace =
          st.trace ++ ds ∧ ∀ d ∈ ds, d.strategy = Strategy.rules) ∧
    (∀ (toks : List Token) (writer : Option Writer) (useChatly : Bool),
      ∃ k m, (ParseXML pf chatly marshal ⟨toks, fails⟩ writer useChatly).state.trace.map
          Dispatch.strategy =
          List.replicate k Strategy.chatly ++ List.replicate m Strategy.rules ∧
        (useChatly = false → k = 0) ∧
        (m ≠ 0 →
          (ParseXML pf chatly marshal ⟨toks, fails⟩ writer useChatly).state.useChatly =
            false)) := by
  refine ⟨?_, ?_⟩
  · intro fuel toks st hoff
    obtain ⟨ds, k, m, htr, hmap, hk, hfin⟩ :=
      ParseXML.loop_strategies pf chatly marshal w fails fuel toks st
    refine ⟨hfin (Or.inl hoff), ds, htr, ?_⟩
    intro d hd
    have hmem : d.strategy ∈ ds.map Dispatch.strategy := List.mem_map_of_mem _ hd
    rw [hmap, hk hoff] at hmem
    simp only [List.replicate_zero, List.nil_append] at hmem
    exact List.eq_of_mem_replicate hmem
  · intro toks writer useChatly
    cases writer with
    | none => exact ⟨0, 0, rfl, fun _ => rfl, fun h => absurd rfl h⟩
    | some w' =>
      cases hw : Sink.write w' ⟨[], 0⟩ "[" with
      | mk s0 ok =>
        cases ok with
        | false =>
          refine ⟨0, 0, ?_, fun _ => rfl, fun h => absurd rfl h⟩
          simp [ParseXML, hw]
        | true =>
          obtain ⟨ds, k, m, htr, hmap, hk, hfin⟩ := ParseXML.loop_strategies pf chatly
            marshal w' fails (toks.length + 1) toks ⟨0, useChatly, s0, []⟩
          refine ⟨k, m, ?_, hk, ?_⟩
          · simp only [ParseXML, hw]
            rw [htr]
            simpa using hmap
          · intro hm
            simp only [ParseXML, hw]
            exact hfin (Or.inr hm)

/-- C11 on a run that is in rule-based mode: two records, both by `ParseToJob`. -/
theorem C11_one_way_switch_witness :
    (⟨4, false, ⟨["["], 1⟩, []⟩ : LoopState).useChatly = false ∧
    (ParseXML.loop noNumber (fun _ _ => Except.error "unexpected status code")
      (fun job => job.Title) Writer.reliable false 20 (titledJob "Cook" ++ emptyJob)
      ⟨4, false, ⟨["["], 1⟩, []⟩).state.useChatly = false :=
  ⟨rfl, ((C11_one_way_switch noNumber (fun _ _ => Except.error "unexpected status code")
    (fun job => job.Title) Writer.reliable false).1 20 (titledJob "Cook" ++ emptyJob)
    ⟨4, false, ⟨["["], 1⟩, []⟩ rfl).1⟩

/-- C12 (the code departs from the claim).  When the stream ends with a decode
error the run never returns: it ends in `log.Fatalf` (line 113) or in a panic.  On
the record `<job><title>Cook</title></job>` followed by a decode error, in
rule-based mode, the record is written and the process exits without the closing
bracket. -/
theorem C12_decode_error_is_fatal (pf : String → Option Float64)
    (chatly : Nat → RawListing → Except String Job) (marshal : Job → String)
    (toks : List Token) (useChatly : Bool) :
    ((ParseXML pf chatly marshal ⟨toks, true⟩ (some Writer.reliable) useChatly).outcome =
        Outcome.fatal ∨
      (ParseXML pf chatly marshal ⟨toks, true⟩ (some Writer.reliable) useChatly).outcome =
        Outcome.panicked) ∧
    (ParseXML noNumber chatly marshal ⟨titledJob "Cook", true⟩ (some Writer.reliable)
        false).outcome = Outcome.fatal ∧
    (ParseXML noNumber chatly marshal ⟨titledJob "Cook", true⟩ (some Writer.reliable)
        false).state.sink.chunks = ["[", marshal { Title := "Cook" }] := by
  refine ⟨?_, rfl, rfl⟩
  have hfuel := ParseXML_terminates pf chatly marshal ⟨toks, true⟩ (some Writer.reliable)
    useChatly
  have hloop := ParseXML.loop_decode_error pf chatly marshal Writer.reliable
    (toks.length + 1) toks ⟨0, useChatly, ⟨["["], 1⟩, []⟩
  simp only [ParseXML, Sink.write_reliable, List.nil_append, Nat.zero_add] at hfuel ⊢
  rcases hloop with h | h | h
  · exact Or.inl h
  · exact Or.inr h
  · exact absurd h hfuel

/-- C13.  The stripping of `ParseWithChatly` undoes the fence: applied to the
fenced payload it returns the payload, whatever the payload; applied to a string
that neither starts with the opening fence nor ends with the closing one it
returns the string; and the fenced object of the example is stripped to the
object. -/
theorem C13_fence_roundtrip (p s : String) :
    stripFence ("```json\n" ++ p ++ "\n```") = p ∧
    ("```json\n".data.isPrefixOf s.data = false → "\n```".data.isSuffixOf s.data = false →
      stripFence s = s) ∧
    stripFence "```json\n\x7b\"title\":\"X\"\x7d\n```" = "\x7b\"title\":\"X\"\x7d" := by
  refine ⟨?_, ?_, by decide⟩
  · unfold stripFence
    rw [String.append_assoc, TrimPrefix_append, TrimSuffix_append]
  · intro h1 h2
    simp [stripFence, TrimPrefix, TrimSuffix, h1, h2]

/-- C13 at a response without fence: the text `plain` is returned as it is. -/
theorem C13_fence_roundtrip_witness :
    ("```json\n".data.isPrefixOf "plain".data = false ∧
      "\n```".data.isSuffixOf "plain".data = false) ∧
    stripFence "plain" = "plain" :=
  ⟨by decide, (C13_fence_roundtrip "" "plain").2.1 (by decide) (by decide)⟩

/-- C14 (amended).  `typeConvert` with `strconv.ParseFloat` for its parser returns a
number exactly when `ParseFloat` returns no error, and then the number it parsed;
every other text it returns as it is.  A base-10 literal of the contract (optional
sign, digits, optional fraction, optional exponent) is read to its end by
`readFloat` and becomes a number, unless the number is beyond the largest
`float64`: then it stays a string.  The number is the `float64` nearest to the
number the literal writes, `literalMantissa s * 10 ^ literalExponent s` with the
sign of the literal (for a written exponent below 100000: the library stops
reading the digits of an exponent that has reached 10000).  A text that becomes a
number and is no such literal spells an infinity or NaN, or begins after its sign
with `0x`, or holds an underscore, or has a point with no digit before it or none
after it.  A text of decimal digits becomes the `float64` nearest to the integer
it writes, leading zeros being ignored, and that `float64` is the integer itself
when it is below `2 ^ 53`: `00123` becomes 123. -/
theorem C14_typeConvert (s : String) :
    (∀ f, typeConvert ParseFloat s = Val.num f ↔ ParseFloat s = some f) ∧
    ((∀ f, typeConvert ParseFloat s ≠ Val.num f) → typeConvert ParseFloat s = Val.str s) ∧
    (isDecimalLiteral s = true →
      ∃ p, readFloat s.data = some p ∧ p.rest = [] ∧ p.hex = false ∧
        p.neg = decide (s.data.head? = some '-') ∧
        typeConvert ParseFloat s =
          if 0x7FF0000000000000 ≤ p.bits then Val.str s
          else Val.num ⟨p.bits + (if p.neg then 2 ^ 63 else 0)⟩) ∧
    (isDecimalLiteral s = true →
      decimalValue (exponentDigits (exponentPart (unsign s.data))) < 100000 →
      typeConvert ParseFloat s = typeConvert literalFloat s) ∧
    ((∃ f, typeConvert ParseFloat s = Val.num f) →
      isDecimalLiteral s = true ∨ (special s.data).isSome = true ∨ beginsHex s = true ∨
        '_' ∈ s.data ∨ hasBarePoint s = true) ∧
    (∀ ds : List Char, ds ≠ [] → (∀ c ∈ ds, c.isDigit = true) →
      typeConvert ParseFloat (String.mk ds) =
        if 0x7FF0000000000000 ≤ nearestBits (decimalValue ds) 1 then Val.str (String.mk ds)
        else Val.num ⟨nearestBits (decimalValue ds) 1⟩) ∧
    (∀ ds : List Char, ds ≠ [] → (∀ c ∈ ds, c.isDigit = true) → decimalValue ds < 2 ^ 53 →
      ∃ f, typeConvert ParseFloat (String.mk ds) = Val.num f ∧
        f.toNat? = some (decimalValue ds)) ∧
    typeConvert ParseFloat "00123" = Val.num ⟨0x405EC00000000000⟩ ∧
    typeConvert ParseFloat "123" = Val.num ⟨0x405EC00000000000⟩ ∧
    Float64.toNat? ⟨0x405EC00000000000⟩ = some 123 := by
  refine ⟨?_, ?_, ?_, ?_, ?_, ?_, ?_, by decide, by decide, by decide⟩
  · intro f
    unfold typeConvert
    cases ParseFloat s <;> simp
  · intro h
    unfold typeConvert at h ⊢
    cases hp : ParseFloat s with
    | none => rfl
    | some f =>
      rw [hp] at h
      exact absurd rfl (h f)
  · intro hlit
    rw [isDecimalLiteral_eq, Bool.and_eq_true] at hlit
    have hreads := hlit.1
    have hno : '_' ∉ s.data := not_mem_of_unsign (readsDecimal_chars hreads)
    obtain ⟨h1, h2⟩ := readFloat_decimal s.data hno (readsDecimal_not_hex hreads)
    have hlit' : isDecimalLiteral s = true := by
      rw [isDecimalLiteral_eq, Bool.and_eq_true]
      exact hlit
    have hhead : (!((unsign s.data).takeWhile Char.isDigit).isEmpty) = true := by
      unfold isDecimalLiteral at hlit'
      rw [Bool.and_eq_true] at hlit'
      exact hlit'.1
    obtain ⟨d, r, hu, hd⟩ := head_isDigit hhead
    have hspecial := special_digit hu hd
    rw [hreads] at h1
    cases hrf : readFloat s.data with
    | none =>
      rw [hrf] at h1
      simp at h1
    | some p =>
      rw [hrf] at h1
      simp only [List.isEmpty_iff] at h1
      refine ⟨p, rfl, h1, (h2 p hrf).1, (h2 p hrf).2, ?_⟩
      unfold typeConvert ParseFloat
      simp only [hspecial, hrf, h1, List.isEmpty_nil, if_true, Parsed.float]
      by_cases hov : 0x7FF0000000000000 ≤ p.bits <;> simp [hov]
  · intro hlit hsmall
    unfold typeConvert
    rw [ParseFloat_literal s hlit hsmall]
  · rintro ⟨f, hf⟩
    have hpf : ParseFloat s = some f := by
      unfold typeConvert at hf
      cases hp : ParseFloat s with
      | none => rw [hp] at hf; simp at hf
      | some g =>
        rw [hp] at hf
        simp only [Val.num.injEq] at hf
        rw [hf]
    by_cases hsp : (special s.data).isSome = true
    · exact Or.inr (Or.inl hsp)
    by_cases hhex : beginsHex s = true
    · exact Or.inr (Or.inr (Or.inl hhex))
    by_cases hund : '_' ∈ s.data
    · exact Or.inr (Or.inr (Or.inr (Or.inl hund)))
    by_cases hbare : hasBarePoint s = true
    · exact Or.inr (Or.inr (Or.inr (Or.inr hbare)))
    refine Or.inl ?_
    have hsp' : special s.data = none := by
      cases h : special s.data with
      | none => rfl
      | some x => rw [h] at hsp; simp at hsp
    have hhex' : beginsHex s = false := by
      cases h : beginsHex s with
      | false => rfl
      | true => exact absurd h hhex
    have hbare' : hasBarePoint s = false := by
      cases h : hasBarePoint s with
      | false => rfl
      | true => exact absurd h hbare
    obtain ⟨h1, -⟩ := readFloat_decimal s.data hund (beginsHex_isHex hhex')
    unfold ParseFloat at hpf
    rw [hsp'] at hpf
    simp only at hpf
    rw [isDecimalLiteral_eq, hbare', ← h1]
    cases hrf : readFloat s.data with
    | none => rw [hrf] at hpf; simp at hpf
    | some p =>
      rw [hrf] at hpf
      simp only at hpf
      cases hr : p.rest.isEmpty with
      | true => simp [hr]
      | false => rw [hr] at hpf; simp at hpf
  · intro ds hne hall
    unfold typeConvert
    rw [ParseFloat_digits ds hne hall]
    by_cases hov : 0x7FF0000000000000 ≤ nearestBits (decimalValue ds) 1 <;> simp [hov]
  · intro ds hne hall hsmall
    unfold typeConvert
    rw [ParseFloat_digits ds hne hall, if_neg (Nat.not_le.2 (nearestBits_range _ hsmall))]
    exact ⟨_, rfl, nearestBits_exact _ hsmall⟩

/-- C14 at the literal `-2.5e3`, which becomes the number -2500. -/
theorem C14_typeConvert_witness :
    isDecimalLiteral "-2.5e3" = true ∧
    (∃ p, readFloat "-2.5e3".data = some p ∧ p.rest = [] ∧ p.hex = false ∧
      p.neg = decide ("-2.5e3".data.head? = some '-') ∧
      typeConvert ParseFloat "-2.5e3" =
        if 0x7FF0000000000000 ≤ p.bits then Val.str "-2.5e3"
        else Val.num ⟨p.bits + (if p.neg then 2 ^ 63 else 0)⟩) ∧
    typeConvert ParseFloat "-2.5e3" = Val.num ⟨0xC0A3880000000000⟩ ∧
    (literalMantissa "-2.5e3" = 25 ∧ literalExponent "-2.5e3" = 2) :=
  ⟨by decide, (C14_typeConvert "-2.5e3").2.2.1 (by decide), by decide, by decide⟩

/-- C14 as stated fails in both directions.  `Inf`, `NaN`, `0x1p-2`, `1_0` and `.5`
are no base-10 literals of the contract and become numbers (the positive
infinity, NaN, 0.25, 10 and 0.5); `1e999` is such a literal and stays a string,
`ParseFloat` reporting it out of range. -/
theorem C14_counterexample :
    (isDecimalLiteral "Inf" = false ∧
      typeConvert ParseFloat "Inf" = Val.num ⟨0x7FF0000000000000⟩) ∧
    (isDecimalLiteral "NaN" = false ∧
      typeConvert ParseFloat "NaN" = Val.num ⟨0x7FF8000000000001⟩) ∧
    (isDecimalLiteral "0x1p-2" = false ∧
      typeConvert ParseFloat "0x1p-2" = Val.num ⟨0x3FD0000000000000⟩) ∧
    (isDecimalLiteral "1_0" = false ∧
      typeConvert ParseFloat "1_0" = Val.num ⟨0x4024000000000000⟩) ∧
    (isDecimalLiteral ".5" = false ∧
      typeConvert ParseFloat ".5" = Val.num ⟨0x3FE0000000000000⟩) ∧
    (isDecimalLiteral "1e999" = true ∧ typeConvert ParseFloat "1e999" = Val.str "1e999") :=
  ⟨by decide, by decide, by decide, by decide, by decide, by decide, by decide!⟩

/-- C17.  In a job `ParseToJob` returns, the link, the identifier, the city, the
country code and the company are the strings under "url", "id", "city", "country"
and "company" (empty when the key holds no string), and the thirteen fields the
projection never assigns have their zero value. -/
theorem C17_other_fields (x : RawListing) (job : Job) (h : x.ParseToJob = Except.ok job) :
    (job.ApplicationURL = (asString (x.root.get "url")).getD "" ∧
      job.SourceJobID = (asString (x.root.get "id")).getD "" ∧
      job.City = (asString (x.root.get "city")).getD "" ∧
      job.CountryCode = (asString (x.root.get "country")).getD "" ∧
      job.CompanyID = (asString (x.root.get "company")).getD "") ∧
    (job.Source = "" ∧ job.Kind = "" ∧ job.Proximity = "" ∧ job.WorkVisaRequired = false ∧
      job.NativeLanguageIDs = none ∧ job.YearsOfExperienceLower = 0 ∧
      job.YearsOfExperienceUpper = 0 ∧ job.HoursPerWeek = 0 ∧ job.Duration = "" ∧
      job.PaidRole = false ∧ job.Motivators = none ∧ job.Competencies = none ∧
      job.Categories = none) := by
  have hjob := ParseToJob_eq_ok x job h
  rw [hjob]
  exact ⟨⟨rfl, rfl, rfl, rfl, rfl⟩, rfl, rfl, rfl, rfl, rfl, rfl, rfl, rfl, rfl, rfl, rfl, rfl,
    rfl⟩

/-- C17 at `cityListing`: the numeric identifier and the absent company leave
their fields empty. -/
theorem C17_other_fields_witness :
    cityListing.ParseToJob = Except.ok cityJob ∧
    (cityJob.ApplicationURL = (asString (cityListing.root.get "url")).getD "" ∧
      cityJob.SourceJobID = (asString (cityListing.root.get "id")).getD "" ∧
      cityJob.City = (asString (cityListing.root.get "city")).getD "" ∧
      cityJob.CountryCode = (asString (cityListing.root.get "country")).getD "" ∧
      cityJob.CompanyID = (asString (cityListing.root.get "company")).getD "") ∧
    cityJob.SourceJobID = "" ∧ cityJob.City = "Oslo" :=
  ⟨rfl, (C17_other_fields cityListing cityJob rfl).1, rfl, rfl⟩

/-- C15 (amended).  A record whose whole content is one leaf `<t>v</t>` with `v`
not blank and `t` not "_" (blank text and comments may surround the leaf): the
builder returns, and the root map has exactly two keys, the reserved "_" holding
the tag name of the record and `t` holding `typeConvert (TrimSpace v)`. -/
theorem C15_single_leaf (pf : String → Option Float64) (start t v : String) (fails : Bool)
    (pre post rest : List Token)
    (hpre : Blank pre = true) (hpost : Blank post = true) (ht : t ≠ "_")
    (hv : TrimSpace v ≠ "") :
    (UnmarshalXML pf start
        ⟨pre ++ leaf t v ++ post ++ Token.EndElement start :: rest, fails⟩).status =
      BuildStatus.closed ∧
    RawListing.root ⟨(UnmarshalXML pf start
        ⟨pre ++ leaf t v ++ post ++ Token.EndElement start :: rest, fails⟩).heap⟩ =
      [("_", Val.str start), (t, typeConvert pf (TrimSpace v))] ∧
    GoMap.keys (RawListing.root ⟨(UnmarshalXML pf start
        ⟨pre ++ leaf t v ++ post ++ Token.EndElement start :: rest, fails⟩).heap⟩) =
      ["_", t] ∧
    (RawListing.root ⟨(UnmarshalXML pf start
        ⟨pre ++ leaf t v ++ post ++ Token.EndElement start :: rest, fails⟩).heap⟩).get t =
      some (typeConvert pf (TrimSpace v)) := by
  obtain ⟨hst, hheap⟩ := UnmarshalXML_single_leaf pf start t v fails pre post rest hpre hpost
    ht hv
  have hroot : RawListing.root ⟨(UnmarshalXML pf start
      ⟨pre ++ leaf t v ++ post ++ Token.EndElement start :: rest, fails⟩).heap⟩ =
      [("_", Val.str start), (t, typeConvert pf (TrimSpace v))] := by
    simp only [RawListing.root, hheap]
    rfl
  refine ⟨hst, hroot, ?_, ?_⟩
  · rw [hroot]
    rfl
  · rw [hroot]
    have ht' : ¬ "_" = t := fun h => ht h.symm
    simp [GoMap.get, ht']

/-- C15 at the record `<job> <title>Cook</title> </job>`, the leaf between blank
text. -/
theorem C15_single_leaf_witness :
    (Blank [Token.CharData "\n  "] = true ∧ Blank [Token.CharData "\n"] = true ∧
      "title" ≠ "_" ∧ TrimSpace "Cook" ≠ "") ∧
    RawListing.root ⟨(UnmarshalXML noNumber "job"
        ⟨[Token.CharData "\n  "] ++ leaf "title" "Cook" ++ [Token.CharData "\n"] ++
          Token.EndElement "job" :: [], false⟩).heap⟩ =
      [("_", Val.str "job"), ("title", typeConvert noNumber (TrimSpace "Cook"))] :=
  ⟨by decide,
    (C15_single_leaf noNumber "job" "title" "Cook" false [Token.CharData "\n  "]
      [Token.CharData "\n"] [] (by decide) (by decide) (by decide) (by decide)).2.1⟩

/-- C15 as stated fails on the record `<job><title>Cook</title></job>`: the root map
has two keys, the reserved "_" next to "title". -/
theorem C15_counterexample :
    GoMap.keys (RawListing.root ⟨(UnmarshalXML noNumber "job"
        ⟨leaf "title" "Cook" ++ [Token.EndElement "job"], false⟩).heap⟩) = ["_", "title"] ∧
    GoMap.keys (RawListing.root ⟨(UnmarshalXML noNumber "job"
        ⟨leaf "title" "Cook" ++ [Token.EndElement "job"], false⟩).heap⟩) ≠ ["title"] := by
  decide

/-- C20 (amended).  A listing, built by `UnmarshalXML` or not, whose root map holds
under the tag `t` the conversion of a text that parses as a number: `ParseToJob`
returns what it returns for the same listing without the key `t`.  A numeric title makes it
fail with the title error; a numeric link, identifier, city, country or company
leaves its field empty; a numeric description adds nothing to `Description`, which
then holds only the appended lines; a numeric currency, postal code or region
appends no line. -/
theorem C20_numeric_entry_absent (pf : String → Option Float64) (x : RawListing)
    (t text : String) (f : Float64) (hnum : pf text = some f)
    (hget : x.root.get t = some (typeConvert pf text)) :
    x.ParseToJob = (x.without t).ParseToJob ∧
    (t = "title" → x.ParseToJob = Except.error "title not found or not a string") ∧
    ∀ job, x.ParseToJob = Except.ok job →
      (t = "url" → job.ApplicationURL = "") ∧ (t = "id" → job.SourceJobID = "") ∧
      (t = "city" → job.City = "") ∧ (t = "country" → job.CountryCode = "") ∧
      (t = "company" → job.CompanyID = "") ∧
      (t = "description" → job.Description =
        descriptionLine "\nCurrency: " (asString (x.root.get "currency")) ++
        descriptionLine "\nPostal Code: " (asString (x.root.get "postalcode")) ++
        descriptionLine "\nRegion: " (asString (x.root.get "region"))) ∧
      (t = "currency" → job.Description =
        (asString (x.root.get "description")).getD "" ++
        descriptionLine "\nPostal Code: " (asString (x.root.get "postalcode")) ++
        descriptionLine "\nRegion: " (asString (x.root.get "region"))) ∧
      (t = "postalcode" → job.Description =
        (asString (x.root.get "description")).getD "" ++
        descriptionLine "\nCurrency: " (asString (x.root.get "currency")) ++
        descriptionLine "\nRegion: " (asString (x.root.get "region"))) ∧
      (t = "region" → job.Description =
        (asString (x.root.get "description")).getD "" ++
        descriptionLine "\nCurrency: " (asString (x.root.get "currency")) ++
        descriptionLine "\nPostal Code: " (asString (x.root.get "postalcode"))) := by
  have hnone : asString (x.root.get t) = none := by
    rw [hget]
    exact asString_typeConvert_num pf hnum
  refine ⟨?_, ?_, ?_⟩
  · apply ParseToJob_congr
    intro k
    rw [RawListing.root_without]
    by_cases hk : k = t
    · rw [hk, hnone, GoMap.get_erase_self]
      rfl
    · rw [GoMap.get_erase_of_ne _ hk]
  · intro ht
    subst ht
    unfold RawListing.ParseToJob
    rw [hnone]
  · intro job hjob
    have hjob' := ParseToJob_eq_ok x job hjob
    refine ⟨?_, ?_, ?_, ?_, ?_, ?_, ?_, ?_, ?_⟩ <;> intro ht <;> subst ht <;> rw [hjob'] <;>
      simp [hnone, descriptionLine]

/-- C20 at `numericListing`, built from a record whose identifier `00123` parses as
a number: the identifier of the job is empty. -/
theorem C20_numeric_entry_absent_witness :
    (sampleFloat "00123" = some ⟨0x405EC00000000000⟩ ∧
      numericListing.root.get "id" = some (typeConvert sampleFloat "00123")) ∧
    numericListing.ParseToJob = (numericListing.without "id").ParseToJob ∧
    numericListing.ParseToJob =
      Except.ok { Title := "Cook", Description := "\nCurrency: EUR" } :=
  ⟨⟨by decide, by decide⟩,
    (C20_numeric_entry_absent sampleFloat numericListing "id" "00123"
      ⟨0x405EC00000000000⟩ (by decide) (by decide)).1, rfl⟩

/-- C20 as stated fails on the record `<job><title>Cook</title><id>00123</id>
<description>42</description><currency>EUR</currency></job>`: the description `42`
parses as a number, and the field `Description` of the job is not empty, it holds
the line appended for the currency. -/
theorem C20_counterexample :
    numericListing.root.get "description" = some (typeConvert sampleFloat "42") ∧
    sampleFloat "42" = some ⟨0x4045000000000000⟩ ∧
    numericListing.ParseToJob =
      Except.ok { Title := "Cook", Description := "\nCurrency: EUR" } ∧
    ({ Title := "Cook", Description := "\nCurrency: EUR" } : Job).Description ≠ "" :=
  ⟨by decide, by decide, rfl, by decide⟩

/-- C18.  `Trim` on a root map (a Go map, so with every key once): the keys stay
the same; a string value becomes a prefix of itself of at most 1000 bytes, and stays
as it is when it had at most 1000 bytes; a list value keeps its length, its string
elements are cut in the same way and its other elements stay; every other value
stays; and afterwards no string value of the map is longer than 1000 bytes. -/
theorem C18_Trim {α : Type} (root : AnyMap α) (hkeys : (root.map Prod.fst).Nodup) :
    (Trim root).map Prod.fst = root.map Prod.fst ∧
    (∀ k s, root.get k = some (AnyVal.str s) →
      ∃ s', (Trim root).get k = some (AnyVal.str s') ∧ Cut s s') ∧
    (∀ k arr, root.get k = some (AnyVal.list arr) →
      ∃ arr', (Trim root).get k = some (AnyVal.list arr') ∧ arr'.length = arr.length ∧
        List.Forall₂ CutElem arr arr') ∧
    (∀ k o, root.get k = some (AnyVal.other o) → (Trim root).get k = some (AnyVal.other o)) ∧
    (∀ k, root.get k = none → (Trim root).get k = none) ∧
    (∀ k s', (Trim root).get k = some (AnyVal.str s') → s'.length ≤ 1000) := by
  obtain ⟨h1, h2⟩ := Trim_get root hkeys
  refine ⟨h1, ?_, ?_, ?_, ?_, ?_⟩
  · intro k s hget
    exact ⟨_, by rw [h2 k, hget]; rfl, Cut.of_take s⟩
  · intro k arr hget
    refine ⟨Trim.items arr, by rw [h2 k, hget]; rfl, by simp [Trim.items], Trim.items_cut arr⟩
  · intro k o hget
    rw [h2 k, hget]
    rfl
  · intro k hget
    rw [h2 k, hget]
    rfl
  · intro k s' hget
    rw [h2 k] at hget
    cases hroot : root.get k with
    | none => rw [hroot] at hget; simp at hget
    | some v =>
      rw [hroot] at hget
      cases v with
      | str s =>
        simp only [Option.map_some', Trim.value, Option.some.injEq, AnyVal.str.injEq] at hget
        rw [← hget]
        exact (Cut.of_take s).1
      | list arr => simp [Trim.value] at hget
      | other o => simp [Trim.value] at hget

/-- C18 at `longListing`: the description of 1001 bytes is cut to 1000. -/
theorem C18_Trim_witness :
    (longListing.map Prod.fst).Nodup ∧
    (Trim longListing).map Prod.fst = longListing.map Prod.fst ∧
    (∃ s', (Trim longListing).get "description" = some (AnyVal.str s') ∧
      Cut (List.replicate 1001 97) s') :=
  ⟨by decide, (C18_Trim longListing (by decide)).1,
    (C18_Trim longListing (by decide)).2.1 "description" (List.replicate 1001 97) rfl⟩

/-- C19.  On the supported input shape the builder never panics: for every token
sequence after a record start that is well nested, has no text that is not blank
directly in the record and no element with both such text and a child element,
`UnmarshalXML` neither indexes its frame stack out of range (at a start, an end or
a text token) nor fails the type assertion on the entry "_" of the top frame; it
returns, at an end tag of the record name or at the end of the stream. -/
theorem C19_builder_safe (pf : String → Option Float64) (start : String) (fails : Bool)
    (toks : List Token) (hshape : Supported start toks [] false false = true) :
    (UnmarshalXML pf start ⟨toks, fails⟩).status ≠ BuildStatus.panicIndex ∧
    (UnmarshalXML pf start ⟨toks, fails⟩).status ≠ BuildStatus.panicAssert ∧
    ((UnmarshalXML pf start ⟨toks, fails⟩).status = BuildStatus.closed ∨
      (UnmarshalXML pf start ⟨toks, fails⟩).status = BuildStatus.eof ∨
      (UnmarshalXML pf start ⟨toks, fails⟩).status = BuildStatus.decodeError) := by
  have hsafe : Safe [[("_", Val.str start)]] [0] [] false :=
    ⟨rfl, by simp, by simp, by simp⟩
  obtain ⟨h1, h2⟩ := UnmarshalXML.loop_safe pf start fails toks [] false false _ _ hshape hsafe
  refine ⟨h1, h2, ?_⟩
  unfold UnmarshalXML
  cases hst : (UnmarshalXML.loop pf start fails toks [[("_", Val.str start)]] [0]).status with
  | closed => exact Or.inl rfl
  | eof => exact Or.inr (Or.inl rfl)
  | decodeError => exact Or.inr (Or.inr rfl)
  | panicIndex => exact absurd hst h1
  | panicAssert => exact absurd hst h2

/-- C19 at `plainRecord`, which has an element named "_" and a nested element
named like the record. -/
theorem C19_builder_safe_witness :
    Supported "job" plainRecord [] false false = true ∧
    (UnmarshalXML noNumber "job" ⟨plainRecord, false⟩).status ≠ BuildStatus.panicIndex ∧
    (UnmarshalXML noNumber "job" ⟨plainRecord, false⟩).status ≠ BuildStatus.panicAssert :=
  ⟨by decide, (C19_builder_safe noNumber "job" false plainRecord (by decide)).1,
    (C19_builder_safe noNumber "job" false plainRecord (by decide)).2.1⟩

/-- C16 (amended).  Text overwrite on mixed content in a clean record: let the body
of the record be `pre`, the start tag of a direct child `t` and the tokens `after`
that follow it, where `pre` and `after` are well nested, name no element "_" or
like the record and have no text that is not blank directly in the record, `t` is
neither "_" nor the record name, and no direct child named `t` starts in `after`.
If `v` is the last text that is not blank directly inside the element, then the
builder stops at the end tag of the record and the root map holds under `t` the
scalar `typeConvert (TrimSpace v)` and not the map of the element, wherever the
child elements of `t` stand. -/
theorem C16_text_overwrite (pf : String → Option Float64) (start t v : String) (fails : Bool)
    (pre after rest : List Token)
    (hpre : Clean start pre [] = true) (hafter : Clean start after [t] = true)
    (ht1 : t ≠ "_") (ht2 : t ≠ start) (honce : t ∉ childNames after 1)
    (htext : lastText after 0 = some v) :
    (UnmarshalXML pf start
        ⟨pre ++ Token.StartElement t :: after ++ Token.EndElement start :: rest,
          fails⟩).status = BuildStatus.closed ∧
    (UnmarshalXML pf start
        ⟨pre ++ Token.StartElement t :: after ++ Token.EndElement start :: rest,
          fails⟩).rest = rest ∧
    (RawListing.root ⟨(UnmarshalXML pf start
        ⟨pre ++ Token.StartElement t :: after ++ Token.EndElement start :: rest,
          fails⟩).heap⟩).get t = some (typeConvert pf (TrimSpace v)) ∧
    (∀ a, (RawListing.root ⟨(UnmarshalXML pf start
        ⟨pre ++ Token.StartElement t :: after ++ Token.EndElement start :: rest,
          fails⟩).heap⟩).get t ≠ some (Val.ref a)) := by
  obtain ⟨h1, heq1, hle1, -⟩ := UnmarshalXML.loop_clean pf start fails
    (Token.StartElement t :: (after ++ Token.EndElement start :: rest)) pre [] []
    [[("_", Val.str start)]] hpre (by simp [Frames]) (by simp)
  have hpos1 : 0 < h1.length := lt_of_lt_of_le (by simp) hle1
  have hframes : Frames start
      (Heap.assign (h1 ++ [[("_", Val.str t)]]) 0 t (Val.ref h1.length)) [h1.length] [t] := by
    refine ⟨hpos1, ht1, ht2, ?_, by simp [Frames]⟩
    rw [Heap.cell_assign_of_ne _ t _ (by omega : h1.length ≠ 0), Heap.cell_append_length]
    simp [GoMap.get]
  obtain ⟨h2, heq2, hval⟩ := UnmarshalXML.loop_text pf start fails
    (Token.EndElement start :: rest) after [t] [h1.length] _ t 0 hafter hframes
    (by simp [Heap.length_assign]) rfl rfl honce
  have hrun : UnmarshalXML pf start
      ⟨pre ++ Token.StartElement t :: after ++ Token.EndElement start :: rest, fails⟩ =
      ⟨h2, BuildStatus.closed, rest⟩ := by
    simp only [UnmarshalXML, List.append_assoc, List.cons_append]
    simp only [List.nil_append] at heq1
    rw [heq1]
    simp only [UnmarshalXML.loop]
    simp only [List.cons_append, List.nil_append] at heq2
    rw [heq2]
    simp [UnmarshalXML.loop]
  have hget : (RawListing.root ⟨h2⟩).get t = some (typeConvert pf (TrimSpace v)) := by
    simp only [RawListing.root]
    rw [hval, htext]
    rfl
  rw [hrun]
  refine ⟨rfl, rfl, hget, ?_⟩
  intro a
  rw [hget]
  unfold typeConvert
  split <;> simp

/-- C16 at the record
`<job><city>Oslo</city><title>Cook<b>x</b>Chef<i/></title><url>x</url></job>`: the
root map holds "Chef" under "title". -/
theorem C16_text_overwrite_witness :
    (Clean "job" (leaf "city" "Oslo") [] = true ∧
      Clean "job" (mixedTitle ++ Token.EndElement "title" :: leaf "url" "x") ["title"] = true ∧
      "title" ≠ "_" ∧ "title" ≠ "job" ∧
      "title" ∉ childNames (mixedTitle ++ Token.EndElement "title" :: leaf "url" "x") 1 ∧
      lastText (mixedTitle ++ Token.EndElement "title" :: leaf "url" "x") 0 = some "Chef") ∧
    (RawListing.root ⟨(UnmarshalXML noNumber "job"
        ⟨leaf "city" "Oslo" ++ Token.StartElement "title" ::
          (mixedTitle ++ Token.EndElement "title" :: leaf "url" "x") ++
            Token.EndElement "job" :: [], false⟩).heap⟩).get "title" =
      some (typeConvert noNumber (TrimSpace "Chef")) :=
  ⟨by decide,
    (C16_text_overwrite noNumber "job" "title" "Chef" false (leaf "city" "Oslo")
      (mixedTitle ++ Token.EndElement "title" :: leaf "url" "x") [] (by decide) (by decide)
      (by decide) (by decide) (by decide) (by decide)).2.2.1⟩

/-- C16 as stated fails on the record
`<job><title><b><_>_</_>zzz</b>Cook</title></job>`: `title` is a direct child that
occurs once, has no child named "_" (its only child is `b`) and holds the text
`Cook` after its child, and the root map holds under "title" the map of the
element, the text being stored under "zzz".  It fails as well, with no element
named "_" at all, on `<job><title><job></job>Cook</title></job>`: the builder
returns at the inner end tag, before the text, and "title" holds the map. -/
theorem C16_counterexample :
    (RawListing.root ⟨(UnmarshalXML noNumber "job"
        ⟨renamedTitle ++ [Token.EndElement "job"], false⟩).heap⟩).get "title" =
      some (Val.ref 1) ∧
    (RawListing.root ⟨(UnmarshalXML noNumber "job"
        ⟨renamedTitle ++ [Token.EndElement "job"], false⟩).heap⟩).get "title" ≠
      some (typeConvert noNumber (TrimSpace "Cook")) ∧
    (RawListing.root ⟨(UnmarshalXML noNumber "job"
        ⟨renamedTitle ++ [Token.EndElement "job"], false⟩).heap⟩).get "zzz" =
      some (Val.str "Cook") ∧
    (UnmarshalXML noNumber "job"
        ⟨[Token.StartElement "title", Token.StartElement "job", Token.EndElement "job",
          Token.CharData "Cook", Token.EndElement "title", Token.EndElement "job"],
          false⟩).rest =
      [Token.CharData "Cook", Token.EndElement "title", Token.EndElement "job"] ∧
    (RawListing.root ⟨(UnmarshalXML noNumber "job"
        ⟨[Token.StartElement "title", Token.StartElement "job", Token.EndElement "job",
          Token.CharData "Cook", Token.EndElement "title", Token.EndElement "job"],
          false⟩).heap⟩).get "title" = some (Val.ref 1) := by
  decide

end RssReader
